import Mathlib

/-!
# Verification of the mempool runtime synchronization primitives

A shallow embedding, in Lean 4, of the C synchronization primitives found in
`software/runtime/` of the mempool repository:

* the atomic-primitive layer and the spin-lock family
  (`amo_mutex.h`/`amo_mutex.c`, `lr_sc_mutex.h`, `lrwait_mutex.h`),
* the blocking two-lock FIFO queue (`blocking_queue.c`/`blocking_queue.h`),
* the lock-free queues (`queue.h`, `non_blocking_queue.h`),
* the MCS queue lock and its parked (LRWait) variant (`mcs_mutex.h`).

Modelling conventions, used throughout:

* Machine words are `Nat` (pointers are indices into explicit node pools,
  `Option` for possibly-null pointers); statuses that the C code returns as
  `int32_t` are `Int`.
* Single-threaded code paths are embedded as pure functions.  For those, the
  load-reserved / store-conditional pair is given its uninterfered semantics:
  `load_reserved` is a plain load and `store_conditional` commits unless the
  environment broke the reservation, which we expose as an explicit `scOk`
  oracle argument where the outcome matters.
* The MCS / LRWait lock, whose claims are about interleaved executions, is
  embedded as a small-step transition system: one atomic shared-memory access
  of the C code per transition, one program counter per core, with schedules
  (lists of core ids) choosing the interleaving.
-/

set_option autoImplicit false

namespace Mempool

/-! ## Atomic primitive layer and the spin-lock family

Sources: `software/runtime/amo_mutex.h`, `amo_mutex.c`, `lr_sc_mutex.h`,
`lrwait_mutex.h`.  A mutex is a single word; `0` is UNLOCKED, `1` is LOCKED.
-/

/-- `#define ACTIVE_CORES 2` (amo_mutex.h line 16). -/
def ACTIVE_CORES : Nat := 2

/-- `#define BACKOFF 2` (amo_mutex.h line 17). -/
def BACKOFF : Nat := 2

/-- `amo_swap(address, value)` (amo_mutex.h lines 29-37): atomically stores
`value` and returns the previous word.  Result: (previous value, new word). -/
def amo_swap (m value : Nat) : Nat × Nat := (m, value)

/-- `amo_try_lock(mutex)` (amo_mutex.h lines 46-48): `return amo_swap(mutex, 1)`.
Result: (returned status = previous value, new word). -/
def amo_try_lock (m : Nat) : Nat × Nat := amo_swap m 1

/-- `amo_unlock_mutex(mutex)` (amo_mutex.h lines 69-71): `amo_swap(mutex, 0)`,
discarding the result.  Returns the new word. -/
def amo_unlock_mutex (m : Nat) : Nat := (amo_swap m 0).2

/-- `load_reserved(address)` (lr_sc_mutex.h lines 29-36): loads the word and
establishes a reservation.  In the sequential embedding it is a plain load;
whether the reservation survives until the next store-conditional is the
environment's choice, passed separately as an `scOk : Bool` oracle. -/
def load_reserved (m : Nat) : Nat := m

/-- `store_conditional(address, value)` (lr_sc_mutex.h lines 50-57): commits the
store and returns status 0 if the reservation was still valid (`scOk = true`),
otherwise performs no write and returns status 1.
Result: (status, new word). -/
def store_conditional (scOk : Bool) (m value : Nat) : Int × Nat :=
  if scOk then (0, value) else (1, m)

/-- `lr_sc_try_lock(mutex)` (lr_sc_mutex.h lines 66-76): if the loaded value is
nonzero, fail with status 1 without attempting any write; otherwise attempt
`store_conditional(mutex, 1)`.  Result: (status, new word). -/
def lr_sc_try_lock (scOk : Bool) (m : Nat) : Int × Nat :=
  if load_reserved m ≠ 0 then (1, m) else store_conditional scOk m 1

/-- `lrwait_try_lock(mutex)` (lrwait_mutex.h lines 68-79): if `*mutex` is
nonzero, fail with status 1 without any write; otherwise
`load_reserved_wait` then `store_conditional_wait(mutex, 1)`.  Identical
word-level semantics to `lr_sc_try_lock` over the wait-flavoured primitives. -/
def lrwait_try_lock (scOk : Bool) (m : Nat) : Int × Nat :=
  if m ≠ 0 then (1, m) else store_conditional scOk m 1

/-- `compare_and_swap(address, old, new)` (lr_sc_mutex.h lines 130-140, and the
textually identical function over the wait-flavoured primitives in
lrwait_mutex.h lines 103-113): load-reserved, compare; on a match attempt
`store_conditional(address, new)`; on a mismatch re-issue a store-conditional
of the observed value (dropping the reservation, leaving the word unchanged)
and return -1.  Result: (status, new word). -/
def compare_and_swap (scOk : Bool) (m old new : Nat) : Int × Nat :=
  let temp := load_reserved m
  if temp = old then
    store_conditional scOk m new
  else
    ((-1 : Int), (store_conditional scOk m temp).2)

/-- Observable event of a blocking lock acquisition loop: an artificial delay
of `mempool_wait` cycles between failed attempts, or the final acquisition. -/
inductive LockEvent where
  | wait (cycles : Nat)
  | acquired
  deriving DecidableEq

/-- `amo_lock_mutex(mutex)` (amo_mutex.h lines 57-62).  The function takes no
backoff argument: it computes `backoff = BACKOFF * ACTIVE_CORES` itself and
runs `while (amo_try_lock(mutex)) mempool_wait(backoff)`.  The embedding maps
the list of mutex values observed by the successive `amo_try_lock` attempts
(each attempt also rewrites the word to 1; the value of the next observation
is up to the interfering environment, hence a list) to the emitted events.
An empty suffix of observations means the core is still spinning. -/
def amo_lock_mutex : List Nat → List LockEvent
  | [] => []
  | v :: rest =>
    if (amo_try_lock v).1 = 0 then [LockEvent.acquired]
    else LockEvent.wait (BACKOFF * ACTIVE_CORES) :: amo_lock_mutex rest

/-- `lr_sc_lock_mutex(mutex, backoff)` (lr_sc_mutex.h lines 84-90):
`while (lr_sc_try_lock(mutex)) mempool_wait(backoff)`.  Each observation is
the word value seen by the attempt together with the reservation oracle. -/
def lr_sc_lock_mutex (backoff : Nat) : List (Nat × Bool) → List LockEvent
  | [] => []
  | (v, scOk) :: rest =>
    if (lr_sc_try_lock scOk v).1 = 0 then [LockEvent.acquired]
    else LockEvent.wait backoff :: lr_sc_lock_mutex backoff rest

/-- `lrwait_lock_mutex(mutex, backoff)` (lrwait_mutex.h lines 81-87):
`while (lrwait_try_lock(mutex)) mempool_wait(backoff)`. -/
def lrwait_lock_mutex (backoff : Nat) : List (Nat × Bool) → List LockEvent
  | [] => []
  | (v, scOk) :: rest =>
    if (lrwait_try_lock scOk v).1 = 0 then [LockEvent.acquired]
    else LockEvent.wait backoff :: lrwait_lock_mutex backoff rest

/-! ## Node pools and pointer chains

Queue nodes live in explicit pools: a node is an index, its `next` field is an
entry of a `List (Option Nat)` (`none` is the C `NULL`), its value an entry of
a value list.  `Chain nxt i l` says that following the `next` fields from node
`i` visits exactly the nodes `l` and ends at a node whose `next` is null —
the shape invariant behind every queue variant of `queue.h`,
`blocking_queue.c` and `non_blocking_queue.h`. -/

/-- Read a `next` field: out-of-pool indices read as null. -/
def getp (nxt : List (Option Nat)) (i : Nat) : Option Nat := nxt.getD i none

/-- `Chain nxt i l`: from node `i` the `next` fields traverse exactly the
nodes `l` (starting with `i`), ending at a node with null `next`. -/
inductive Chain (nxt : List (Option Nat)) : Nat → List Nat → Prop where
  | last (i : Nat) : getp nxt i = none → Chain nxt i [i]
  | cons (i j : Nat) (l : List Nat) : getp nxt i = some j → Chain nxt j l →
      Chain nxt i (i :: l)

/-! ## The blocking two-lock queue

Source: `software/runtime/blocking_queue.c` (an almost identical copy lives in
`blocking_queue.h`).  Values are `int32_t`, embedded as `Int`.  The
`head_lock`/`tail_lock` spin mutexes bracket the bodies of `enqueue` and
`dequeue`; in this sequential embedding an uncontended
`amo_lock_mutex`/`amo_unlock_mutex` pair is the identity on the lock word, so
the lock words are elided from the state. -/

namespace Blocking

/-- The queue state of `blocking_queue.c`: a node pool plus the `head` and
`tail` node indices. -/
structure Queue where
  nxt : List (Option Nat)
  val : List Int
  head : Nat
  tail : Nat
  deriving DecidableEq

/-- `initialize_queue()` (blocking_queue.c lines 21-40), successful-allocation
path: one sentinel node with `value = -1`, `next = NULL`; `head` and `tail`
both reference it. -/
def initQueue : Queue := { nxt := [none], val := [-1], head := 0, tail := 0 }

/-- `enqueue(queue, value)` (blocking_queue.c lines 64-78), successful
allocation: the fresh node (index = current pool size) gets `value` and null
`next`; under `tail_lock`, `queue->tail->next = node; queue->tail = node`. -/
def enqueue (q : Queue) (value : Int) : Queue :=
  let node := q.nxt.length
  { nxt := (q.nxt ++ [none]).set q.tail (some node),
    val := q.val ++ [value],
    head := q.head,
    tail := node }

/-- `dequeue(queue)` (blocking_queue.c lines 80-100): under `head_lock`, read
`node = queue->head`, `new_head = node->next`; if null return `-1` leaving the
queue untouched, otherwise return `new_head->value` and advance `head`.
(The C code then frees the old head node; freeing is not modelled.) -/
def dequeue (q : Queue) : Int × Queue :=
  match getp q.nxt q.head with
  | none => (-1, q)
  | some new_head => (q.val.getD new_head 0, { q with head := new_head })

end Blocking

/-! ## Creation functions under an allocator oracle

For the allocation-failure claims the creation functions are embedded over an
oracle giving each allocation's outcome (`none` = the allocator returned
`NULL`).  The embedding tracks whether the function stores through a null
pointer before returning. -/

/-- Outcome of a creation function: either it wrote through a null pointer
(undefined behaviour in the C code), or it returned (a possibly-null
pointer). -/
inductive CreateOutcome where
  | nullWrite
  | ret (r : Option Nat)
  deriving DecidableEq

/-- `amo_allocate_mutex()` (amo_mutex.c lines 9-17): on allocation failure
return `NULL` before any store; on success initialize the word (a store
through the non-null result) and return it. -/
def amo_allocate_mutex (alloc : Option Nat) : CreateOutcome :=
  match alloc with
  | none => CreateOutcome.ret none
  | some p => CreateOutcome.ret (some p)

/-- `initialize_queue()` of blocking_queue.c (lines 21-40) under the allocator
oracle.  The code stores `queue->head_lock = amo_allocate_mutex()` and
`queue->tail_lock = amo_allocate_mutex()` (lines 26-27) BEFORE the
`queue == NULL` check on line 29, so a failed `queue_t` allocation leads to a
store through the null `queue` pointer.  All later stores (`node->value`,
`node->next`, `queue->head`, `queue->tail`) happen after both null checks. -/
def blocking_init_queue (queueAlloc nodeAlloc lock1 lock2 : Option Nat) :
    CreateOutcome :=
  match queueAlloc with
  | none => CreateOutcome.nullWrite
  | some qp =>
    if nodeAlloc = none then CreateOutcome.ret none
    else if lock1 = none ∨ lock2 = none then CreateOutcome.ret none
    else CreateOutcome.ret (some qp)

/-- `initialize_queue()` of non_blocking_queue.h (lines 47-62) under the
allocator oracle: both allocations are null-checked (line 54) before any
store, and `NULL` is returned on failure. -/
def nonblocking_init_queue (queueAlloc nodeAlloc : Option Nat) : CreateOutcome :=
  match queueAlloc, nodeAlloc with
  | some qp, some _ => CreateOutcome.ret (some qp)
  | _, _ => CreateOutcome.ret none

/-! ## The lock-free queues

Sources: `software/runtime/queue.h` (the `amo`, `lrwait`, `cas` and
`lock_free_lrsc` forms) and `software/runtime/non_blocking_queue.h` (the
LR/SC-native `dequeue`).  Values are `uint32_t`, embedded as `Nat`.

These functions are loops of atomic reads, `compare_and_swap`s and LR/SC
pairs.  The embedding gives each loop its sequential (interference-free)
semantics: `load_reserved` is a plain load, a `store_conditional` whose
reservation nobody broke commits, and a `compare_and_swap` succeeds exactly
when the compared value matches.  Loops carry explicit fuel; running out of
fuel is reported as a distinguished result (it cannot happen from well-formed
states with enough fuel). -/

namespace Lf

/-- Queue state shared by all lock-free variants: node pool plus `head` and
`tail` indices. -/
structure Queue where
  nxt : List (Option Nat)
  val : List Nat
  head : Nat
  tail : Nat
  deriving DecidableEq

/-- Read a node's `next`. -/
def getNxt (q : Queue) (i : Nat) : Option Nat := getp q.nxt i

/-- Write a node's `next`. -/
def setNxt (q : Queue) (i : Nat) (p : Option Nat) : Queue :=
  { q with nxt := q.nxt.set i p }

/-- Read a node's `value`. -/
def getVal (q : Queue) (i : Nat) : Nat := q.val.getD i 0

/-- Write a node's `value`. -/
def setVal (q : Queue) (i : Nat) (v : Nat) : Queue :=
  { q with val := q.val.set i v }

/-- Allocate a fresh node (index = pool size) carrying value `v`, with null
`next`.  Stands for the external `simple_malloc` collaborator on its success
path. -/
def alloc_node (q : Queue) (v : Nat) : Queue × Nat :=
  ({ q with nxt := q.nxt ++ [none], val := q.val ++ [v] }, q.nxt.length)

/-- Result of a node-returning dequeue. -/
inductive DeqResult where
  | outOfFuel
  | nullDeref
  | empty (q : Queue)
  | got (node : Nat) (q : Queue)
  deriving DecidableEq

/-- `amo_enqueue(queue, new_node)` (queue.h lines 52-61): clear
`new_node->next`, then under `tail_lock` (elided, see `Blocking`):
`queue->tail->next = new_node; queue->tail = new_node`. -/
def amo_enqueue (q : Queue) (new_node : Nat) : Queue :=
  let q0 := setNxt q new_node none
  { setNxt q0 q0.tail (some new_node) with tail := new_node }

/-- `amo_dequeue(queue)` (queue.h lines 63-85): under `head_lock` (elided),
if `head->next` is null return `NULL`; otherwise advance `head`, copy the new
head's value into the removed node, null its `next`, and return it. -/
def amo_dequeue (q : Queue) : DeqResult :=
  match getNxt q q.head with
  | none => DeqResult.empty q
  | some nx =>
    DeqResult.got q.head
      (setNxt (setVal { q with head := nx } q.head (getVal q nx)) q.head none)

/-- `lrwait_enqueue(queue, new_node)` (queue.h lines 91-99):
`tail = load_reserved_wait(&queue->tail); tail->next = new_node;
store_conditional_wait(&queue->tail, new_node)`.  Note the code does not
clear `new_node->next`; freshly allocated nodes have it null. -/
def lrwait_enqueue (q : Queue) (new_node : Nat) : Queue :=
  { setNxt q q.tail (some new_node) with tail := new_node }

/-- `lrwait_dequeue(queue)` (queue.h lines 101-121): load-reserved the head;
if `head->next` is null, store-conditional the head back (same value) and
return `NULL`; else store-conditional `head = next`, copy the value into the
removed node, null its `next`, and return it. -/
def lrwait_dequeue (q : Queue) : DeqResult :=
  match getNxt q q.head with
  | none => DeqResult.empty q
  | some nx =>
    DeqResult.got q.head
      (setNxt (setVal { q with head := nx } q.head (getVal q nx)) q.head none)

/-- The retry loop of `cas_enqueue` (queue.h lines 145-158) in sequential
semantics: read `tail` and `tail->next`; the `tail == queue->tail`
consistency re-check passes; if `next` is null, the
`compare_and_swap(&tail->next, next, new_node)` matches and links the node
(the loop breaks, remembering the local `tail`); otherwise the lagging tail
is advanced by `compare_and_swap(&queue->tail, tail, next)` and the loop
retries. -/
def cas_enqueue_loop : Nat → Queue → Nat → Option (Queue × Nat)
  | 0, _, _ => none
  | fuel + 1, q, new_node =>
    match getNxt q q.tail with
    | none => some (setNxt q q.tail (some new_node), q.tail)
    | some nx => cas_enqueue_loop fuel { q with tail := nx } new_node

/-- `cas_enqueue(queue, new_node)` (queue.h lines 129-161): clear
`new_node->next`, run the retry loop, then swing the tail with the final
`compare_and_swap(&queue->tail, tail, new_node)` (best effort; in sequential
semantics the comparison is against the current tail). -/
def cas_enqueue (fuel : Nat) (q : Queue) (new_node : Nat) : Option Queue :=
  let q0 := setNxt q new_node none
  match cas_enqueue_loop fuel q0 new_node with
  | none => none
  | some (q1, tail) =>
    some (if q1.tail = tail then { q1 with tail := new_node } else q1)

/-- `cas_dequeue(queue)` (queue.h lines 165-195) in sequential semantics:
read `head`, `tail`, `head->next`; the `head == queue->head` re-check passes;
if `head == tail`: null `next` means empty (return `NULL`), otherwise advance
the lagging tail and retry; if `head != tail`: read the value out of `next`
(null `next` here would be a null dereference), swing `head`, copy the value
into the removed node and return it. -/
def cas_dequeue : Nat → Queue → DeqResult
  | 0, _ => DeqResult.outOfFuel
  | fuel + 1, q =>
    match getNxt q q.head with
    | none => if q.head = q.tail then DeqResult.empty q else DeqResult.nullDeref
    | some nx =>
      if q.head = q.tail then cas_dequeue fuel { q with tail := nx }
      else
        DeqResult.got q.head (setVal { q with head := nx } q.head (getVal q nx))

/-- The retry loop of `lock_free_lrsc_enqueue` (queue.h lines 216-248) in
sequential semantics: read `tail`, load-reserved `tail->next`; the
`tail != queue->tail` re-check fails; if `next` is null the
`store_conditional(&tail->next, new_node)` commits and the loop breaks;
otherwise the reservation is dropped by re-storing the same value, and the
lagging tail is advanced via a load-reserved/store-conditional pair on
`queue->tail` before retrying. -/
def lrsc_enqueue_loop : Nat → Queue → Nat → Option Queue
  | 0, _, _ => none
  | fuel + 1, q, new_node =>
    match getNxt q q.tail with
    | none => some (setNxt q q.tail (some new_node))
    | some _ =>
      match getNxt q q.tail with
      | some nx => lrsc_enqueue_loop fuel { q with tail := nx } new_node
      | none => lrsc_enqueue_loop fuel q new_node

/-- `lock_free_lrsc_enqueue(queue, new_node)` (queue.h lines 200-262): clear
`new_node->next`, run the retry loop, then advance the tail one step with the
final load-reserved/store-conditional pair on `queue->tail` (lines 251-259):
if the (re-read) tail has a successor, store it as the new tail, else
re-store the tail unchanged. -/
def lock_free_lrsc_enqueue (fuel : Nat) (q : Queue) (new_node : Nat) :
    Option Queue :=
  let q0 := setNxt q new_node none
  match lrsc_enqueue_loop fuel q0 new_node with
  | none => none
  | some q1 =>
    match getNxt q1 q1.tail with
    | some nx => some { q1 with tail := nx }
    | none => some q1

/-- `lock_free_lrsc_dequeue(queue)` (queue.h lines 266-313) in sequential
semantics: load-reserved `head`, read `tail` and `head->next`; the
`head != queue->head` re-check fails; if `head == tail`: null `next` means
empty (return `NULL`); otherwise drop the head reservation, help advance the
lagging tail with a load-reserved/store-conditional pair — and when that
store-conditional commits, return `NULL` (queue.h lines 292-295) instead of
retrying; if `head != tail`: read the value, store-conditional the new head
(commits), copy the value into the removed node and return it. -/
def lock_free_lrsc_dequeue : Nat → Queue → DeqResult
  | 0, _ => DeqResult.outOfFuel
  | fuel + 1, q =>
    match getNxt q q.head with
    | none => if q.head = q.tail then DeqResult.empty q else DeqResult.nullDeref
    | some nx =>
      if q.head = q.tail then
        match getNxt q q.tail with
        | some nx2 => DeqResult.empty { q with tail := nx2 }
        | none => lock_free_lrsc_dequeue fuel q
      else
        DeqResult.got q.head (setVal { q with head := nx } q.head (getVal q nx))

/-- `enqueue(queue, new_node)` of non_blocking_queue.h (lines 90-143): the
same LR/SC retry loop and final tail advance as `lock_free_lrsc_enqueue`; the
only textual differences (which register supplies the re-stored value on the
reservation-dropping store-conditionals) store the same values. -/
def nb_enqueue (fuel : Nat) (q : Queue) (new_node : Nat) : Option Queue :=
  lock_free_lrsc_enqueue fuel q new_node

/-- `dequeue(queue)` of non_blocking_queue.h (lines 147-201) in sequential
semantics: as `lock_free_lrsc_dequeue` — including returning `NULL` when the
helping store-conditional on a lagging tail commits (lines 173-175) — except
that the removed node's `next` is also nulled (line 198). -/
def nb_dequeue : Nat → Queue → DeqResult
  | 0, _ => DeqResult.outOfFuel
  | fuel + 1, q =>
    match getNxt q q.head with
    | none => if q.head = q.tail then DeqResult.empty q else DeqResult.nullDeref
    | some nx =>
      if q.head = q.tail then
        match getNxt q q.tail with
        | some nx2 => DeqResult.empty { q with tail := nx2 }
        | none => nb_dequeue fuel q
      else
        DeqResult.got q.head
          (setNxt (setVal { q with head := nx } q.head (getVal q nx)) q.head none)

/-- All non-null `next` pointers land inside the pool.  Every pointer the
queue code ever stores is either `NULL` or a node obtained from the
allocator, so reachable queue states satisfy this. -/
def closedNxt (q : Queue) : Prop :=
  ∀ i j, getp q.nxt i = some j → j < q.nxt.length

/-- Structural invariant of the lock-free queue variants (spec section 3):
`head` is a valid node heading a finite, acyclic chain of nodes whose last
node has null `next`, and `tail` equals or lags behind the last node
reachable from `head` (it lies on the chain). -/
def WF (q : Queue) : Prop :=
  closedNxt q ∧ q.head < q.nxt.length ∧ ∃ l, Chain q.nxt q.head l ∧ q.tail ∈ l

/-- Strengthened invariant of the variants whose enqueue writes `tail->next`
without helping (`amo_enqueue`, `lrwait_enqueue`): `tail` is exactly the last
node reachable from `head`. -/
def WFx (q : Queue) : Prop :=
  closedNxt q ∧ q.head < q.nxt.length ∧
    ∃ l, Chain q.nxt q.head l ∧ l.getLast? = some q.tail

/-- `initialize_queue()` of non_blocking_queue.h (lines 47-62),
successful-allocation path: one sentinel node with `value = 0` and null
`next`, referenced by both `head` and `tail`. -/
def initQueue : Queue := { nxt := [none], val := [0], head := 0, tail := 0 }

/-- An enqueue as the benchmark drivers perform it: allocate a fresh node
carrying `v`, then `amo_enqueue` it. -/
def amo_enqueue_new (q : Queue) (v : Nat) : Queue :=
  amo_enqueue (alloc_node q v).1 (alloc_node q v).2

/-- Allocate a fresh node carrying `v`, then `lrwait_enqueue` it. -/
def lrwait_enqueue_new (q : Queue) (v : Nat) : Queue :=
  lrwait_enqueue (alloc_node q v).1 (alloc_node q v).2

/-- Allocate a fresh node carrying `v`, then `cas_enqueue` it. -/
def cas_enqueue_new (fuel : Nat) (q : Queue) (v : Nat) : Option Queue :=
  cas_enqueue fuel (alloc_node q v).1 (alloc_node q v).2

/-- Allocate a fresh node carrying `v`, then `lock_free_lrsc_enqueue` it. -/
def lrsc_enqueue_new (fuel : Nat) (q : Queue) (v : Nat) : Option Queue :=
  lock_free_lrsc_enqueue fuel (alloc_node q v).1 (alloc_node q v).2

/-- Allocate a fresh node carrying `v`, then `nb_enqueue` it. -/
def nb_enqueue_new (fuel : Nat) (q : Queue) (v : Nat) : Option Queue :=
  nb_enqueue fuel (alloc_node q v).1 (alloc_node q v).2

end Lf

/-- Structural invariant of the blocking two-lock queue, as for `Lf.WFx`:
`head` is a valid node heading a finite acyclic chain and `tail` is its last
node. -/
def Blocking.WF (q : Blocking.Queue) : Prop :=
  (∀ i j, getp q.nxt i = some j → j < q.nxt.length) ∧
  q.head < q.nxt.length ∧
  ∃ l, Chain q.nxt q.head l ∧ l.getLast? = some q.tail

/-! ## The MCS queue lock and its parked (LRWait) variant

Source: `software/runtime/mcs_mutex.h`.  The claims about this lock concern
interleaved executions of several cores, so it is embedded as a transition
system.  Each core owns one `mcs_lock_t` node; nodes are identified with
their cores (type `C`).  The lock's shared word is `lock->next`, the tail of
the queue, held in `State.tail`.

Each transition performs the shared-memory accesses of one atomic action of
`lock_mcs`/`unlock_mcs` (`par = false`), respectively
`lrwait_mcs`/`lrwait_wakeup_mcs` (`par = true`); local variables of the C
functions (`prev`, `old_tail`, `usurper`, and the re-read `node->next`) are
per-core registers.  Each core runs one acquire followed by one release, the
regime of the FIFO claim ("N cores each perform one acquire"); its node is
therefore referenced by nobody before its first step, which lets the node
initialisation (`node->next = NULL; node->locked = 0`, mcs_mutex.h lines
42-43/107) be fused with the immediately following tail swap into the `start`
transition.  The statement `usurper->next = node->next` (line 79/137) and
`node->next->locked = 0` / `wake_up(node->next->locked)` (lines 81,84 /
139,142) are each two shared accesses and are split into read and write
transitions.  In the parked variant the node's `locked` field holds the
waiting core's id and `wake_up` targets exactly that core; as nodes are
identified with cores, waking `node->next->locked` is waking the core
`node->next`, recorded in the `woken` flags that `mempool_wfi` polls. -/

namespace Mcs

/-- Program counter of one core, one value per atomic action of
`lock_mcs`/`unlock_mcs` (and the `lrwait` pair). -/
inductive Pc where
  /-- About to initialise the own node and swap it into `lock->next`
  (mcs_mutex.h lines 42-45 / 107-109). -/
  | start
  /-- `node->locked = 1` (line 49; spin variant only). -/
  | setLocked
  /-- `amo_swap(&(next->next), node)`: publish as predecessor's successor
  (line 52 / 112). -/
  | publish
  /-- One poll of `while (amo_swap(&node->locked, 1))` (line 55). -/
  | spin
  /-- `mempool_wfi()` (line 115; parked variant only). -/
  | wfi
  /-- Holding the lock; about to read `node->next` for the release branch
  (line 66 / 124). -/
  | relCheck
  /-- `old_tail = amo_swap(&(lock->next), NULL)` plus the local comparison
  with the own node (lines 68-72 / 126-130). -/
  | retract
  /-- `usurper = amo_swap(&(lock->next), old_tail)` (line 73 / 131). -/
  | reinstate
  /-- One poll of `while (node->next == NULL)` plus the local branch on
  `usurper` (lines 74-77 / 132-135). -/
  | waitSucc
  /-- Read `node->next` for `usurper->next = node->next` (line 79 / 137). -/
  | patchRead
  /-- Write `usurper->next` (line 79 / 137). -/
  | patchWrite
  /-- Read `node->next` for the ownership transfer (lines 81, 84 / 139, 142). -/
  | wakeRead
  /-- `node->next->locked = 0`, resp. `wake_up(node->next->locked)`
  (lines 81, 84 / 139, 142). -/
  | wakeWrite
  /-- Finished: acquired and released once. -/
  | done
  deriving DecidableEq

/-- Global state: the lock word `tail` (= `lock->next`), the per-node shared
fields `nxt` and `locked` (plus the `woken` flags standing for pending
`wake_up`s of the parked variant), each core's program counter and local
registers, and two history variables: the order in which nodes were linked
into the tail chain (`linkOrder`, one entry per executed tail swap of an
acquire) and the order of successful acquisitions (`acqOrder`). -/
structure State (C : Type) where
  tail : Option C
  nxt : C → Option C
  locked : C → Bool
  woken : C → Bool
  pc : C → Pc
  prev : C → Option C
  oldt : C → Option C
  usur : C → Option C
  succ : C → Option C
  linkOrder : List C
  acqOrder : List C

/-- The initial state: lock free (`initialize_mcs_lock`, mcs_mutex.h lines
23-33: `lock->next = NULL`), every core about to start its acquire. -/
def init (C : Type) : State C :=
  { tail := none
    nxt := fun _ => none
    locked := fun _ => false
    woken := fun _ => false
    pc := fun _ => Pc.start
    prev := fun _ => none
    oldt := fun _ => none
    usur := fun _ => none
    succ := fun _ => none
    linkOrder := []
    acqOrder := [] }

variable {C : Type} [DecidableEq C]

/-- One atomic action of core `c`.  `par = false` is the spinning MCS lock
(`lock_mcs`/`unlock_mcs`), `par = true` the parked LRWait variant
(`lrwait_mcs`/`lrwait_wakeup_mcs`); the two differ only in how a queued core
blocks (`spin` on its `locked` flag vs `wfi`) and how its predecessor hands
over (`node->next->locked = 0` vs `wake_up`).  A core whose blocking
condition still holds (spinning with `locked` set, parked without a pending
wake, or waiting for its successor's link) re-executes its poll. -/
def step (par : Bool) (s : State C) (c : C) : State C :=
  match s.pc c with
  | Pc.start =>
    let prevv := s.tail
    let s1 : State C :=
      { s with
        nxt := Function.update s.nxt c none
        locked := if par then s.locked else Function.update s.locked c false
        tail := some c
        prev := Function.update s.prev c prevv
        linkOrder := s.linkOrder ++ [c] }
    match prevv with
    | none =>
      { s1 with
        pc := Function.update s.pc c Pc.relCheck
        acqOrder := s.acqOrder ++ [c] }
    | some _ =>
      { s1 with
        pc := Function.update s.pc c (if par then Pc.publish else Pc.setLocked) }
  | Pc.setLocked =>
    { s with
      locked := Function.update s.locked c true
      pc := Function.update s.pc c Pc.publish }
  | Pc.publish =>
    match s.prev c with
    | some p =>
      { s with
        nxt := Function.update s.nxt p (some c)
        pc := Function.update s.pc c (if par then Pc.wfi else Pc.spin) }
    | none => s
  | Pc.spin =>
    let old := s.locked c
    let s1 := { s with locked := Function.update s.locked c true }
    if old then s1
    else
      { s1 with
        pc := Function.update s.pc c Pc.relCheck
        acqOrder := s.acqOrder ++ [c] }
  | Pc.wfi =>
    if s.woken c then
      { s with
        pc := Function.update s.pc c Pc.relCheck
        acqOrder := s.acqOrder ++ [c] }
    else s
  | Pc.relCheck =>
    match s.nxt c with
    | none => { s with pc := Function.update s.pc c Pc.retract }
    | some _ => { s with pc := Function.update s.pc c Pc.wakeRead }
  | Pc.retract =>
    let old := s.tail
    let s1 := { s with tail := none, oldt := Function.update s.oldt c old }
    if old = some c then { s1 with pc := Function.update s.pc c Pc.done }
    else { s1 with pc := Function.update s.pc c Pc.reinstate }
  | Pc.reinstate =>
    { s with
      tail := s.oldt c
      usur := Function.update s.usur c s.tail
      pc := Function.update s.pc c Pc.waitSucc }
  | Pc.waitSucc =>
    match s.nxt c with
    | none => s
    | some _ =>
      { s with
        pc := Function.update s.pc c
          (match s.usur c with
           | some _ => Pc.patchRead
           | none => Pc.wakeRead) }
  | Pc.patchRead =>
    { s with
      succ := Function.update s.succ c (s.nxt c)
      pc := Function.update s.pc c Pc.patchWrite }
  | Pc.patchWrite =>
    match s.usur c, s.succ c with
    | some u, some sc =>
      { s with
        nxt := Function.update s.nxt u (some sc)
        pc := Function.update s.pc c Pc.done }
    | _, _ => s
  | Pc.wakeRead =>
    { s with
      succ := Function.update s.succ c (s.nxt c)
      pc := Function.update s.pc c Pc.wakeWrite }
  | Pc.wakeWrite =>
    match s.succ c with
    | some sc =>
      if par then
        { s with
          woken := Function.update s.woken sc true
          pc := Function.update s.pc c Pc.done }
      else
        { s with
          locked := Function.update s.locked sc false
          pc := Function.update s.pc c Pc.done }
    | none => s
  | Pc.done => s

/-- Run a schedule: at each entry the named core performs its next atomic
action. -/
def run (par : Bool) (s : State C) : List C → State C
  | [] => s
  | c :: cs => run par (step par s c) cs

/-- The cores that have been linked into the tail chain but have not yet
acquired, in link order. -/
def waiters (s : State C) : List C := s.linkOrder.drop s.acqOrder.length

/-- A scheduled action avoids the usurper race if it is not a tail swap of an
acquire (`start`) executed inside another core's release window — the span
between that core's tail retraction (`retract` with a foreign old tail) and
its reinstating swap, during which `lock->next` is transiently `NULL`. -/
def okStep (s : State C) (c : C) : Prop :=
  s.pc c = Pc.start → ∀ d, s.pc d ≠ Pc.reinstate

/-- A schedule is usurper-free from `s` if every step of its run is `okStep`. -/
def okTrace (par : Bool) (s : State C) : List C → Prop
  | [] => True
  | c :: cs => okStep s c ∧ okTrace par (step par s c) cs

instance okStepDec [Fintype C] (s : State C) (c : C) : Decidable (okStep s c) := by
  unfold okStep
  infer_instance

instance okTraceDec (par : Bool) [Fintype C] (s : State C) :
    (l : List C) → Decidable (okTrace par s l)
  | [] => Decidable.isTrue trivial
  | c :: cs =>
    have : Decidable (okTrace par (step par s c) cs) := okTraceDec par _ cs
    inferInstanceAs (Decidable (_ ∧ _))

/-! ### The usurper-free invariant

The following predicates classify the program counters and state the global
invariant that usurper-free executions maintain; the FIFO property of claim
C1 (amended) is a consequence. -/

/-- Program counters of a core that is linked into the tail chain but has
not yet acquired. -/
def waiterPc (p : Pc) : Prop :=
  p = Pc.setLocked ∨ p = Pc.publish ∨ p = Pc.spin ∨ p = Pc.wfi

/-- Program counters of a waiter that has already published itself as its
predecessor's successor (`amo_swap(&(next->next), node)` done). -/
def published (p : Pc) : Prop := p = Pc.spin ∨ p = Pc.wfi

/-- Program counters of a core that has acquired the lock at some point
(in the critical section, releasing, or finished). -/
def acquiredPc (p : Pc) : Prop :=
  p = Pc.relCheck ∨ p = Pc.retract ∨ p = Pc.reinstate ∨ p = Pc.waitSucc ∨
  p = Pc.patchRead ∨ p = Pc.patchWrite ∨ p = Pc.wakeRead ∨
  p = Pc.wakeWrite ∨ p = Pc.done

/-- Acquired but not finished: the current lock holder (critical section or
mid-release). -/
def midRel (p : Pc) : Prop := acquiredPc p ∧ p ≠ Pc.done

instance decWaiterPc (p : Pc) : Decidable (waiterPc p) := by
  unfold waiterPc; infer_instance

instance decPublished (p : Pc) : Decidable (published p) := by
  unfold published; infer_instance

instance decAcquiredPc (p : Pc) : Decidable (acquiredPc p) := by
  unfold acquiredPc; infer_instance

instance decMidRel (p : Pc) : Decidable (midRel p) := by
  unfold midRel; infer_instance

/-- The signal a blocked waiter polls for: in the parked variant a pending
wake, in the spinning variant its `locked` flag having been cleared. -/
def sig (par : Bool) (s : State C) (c : C) : Bool :=
  if par then s.woken c else !(s.locked c)

/-- The value the lock word `tail` holds outside retraction windows: the
last waiter if any, else the owner while it has not finished, else null. -/
def expectedTail (s : State C) : Option C :=
  match (waiters s).getLast? with
  | some w => some w
  | none =>
    match s.acqOrder.getLast? with
    | none => none
    | some a => if s.pc a = Pc.done then none else some a

/-- `WChain s a ws`: the waiting cores `ws` (in link order) hang off the most
recent acquirer `a`: each waiter's `prev` register names its predecessor, a
published waiter is linked in its predecessor's `next` field, an unpublished
one is not yet, and the last waiter's `next` is null. -/
inductive WChain (s : State C) : C → List C → Prop where
  | nil (a : C) : s.nxt a = none → WChain s a []
  | cons (a w : C) (ws : List C) :
      waiterPc (s.pc w) → s.prev w = some a →
      (published (s.pc w) → s.nxt a = some w) →
      (¬published (s.pc w) → s.nxt a = none) →
      WChain s w ws → WChain s a (w :: ws)

/-- The global invariant of usurper-free executions of the MCS / LRWait
lock. -/
structure Inv (par : Bool) (s : State C) : Prop where
  /-- Cores acquire in link order: the acquisition history is a prefix of
  the link history. -/
  prefixAcq : s.acqOrder <+: s.linkOrder
  /-- Each core links at most once (one-shot regime). -/
  linkNodup : s.linkOrder.Nodup
  /-- A core is linked exactly when it is past its `start` action. -/
  memLink : ∀ c, c ∈ s.linkOrder ↔ s.pc c ≠ Pc.start
  /-- A core has acquired exactly when its pc is past the acquisition. -/
  memAcq : ∀ c, c ∈ s.acqOrder ↔ acquiredPc (s.pc c)
  /-- Only the most recent acquirer can be mid critical-section/release. -/
  owner : ∀ c, midRel (s.pc c) → s.acqOrder.getLast? = some c
  /-- Usurper-free: the patch path is never reached. -/
  noPatch : ∀ c, s.pc c ≠ Pc.patchRead ∧ s.pc c ≠ Pc.patchWrite
  /-- Usurper-free: the reinstating swap returned null. -/
  usurNone : ∀ c, s.pc c = Pc.waitSucc → s.usur c = none
  /-- The queue of waiters hangs off the most recent acquirer. -/
  chainInv : match s.acqOrder.getLast? with
    | none => s.linkOrder = []
    | some a => WChain s a (waiters s)
  /-- During a retraction window the lock word is null. -/
  tailReinstate : ∀ c, s.pc c = Pc.reinstate → s.tail = none
  /-- Outside retraction windows the lock word holds the expected tail. -/
  tailSpec : (∀ c, s.pc c ≠ Pc.reinstate) → s.tail = expectedTail s
  /-- An owner with no waiters is before its release branch, at the
  retraction, or done. -/
  ownerNoWait : ∀ a, s.acqOrder.getLast? = some a → waiters s = [] →
    s.pc a = Pc.relCheck ∨ s.pc a = Pc.retract ∨ s.pc a = Pc.done
  /-- The `old_tail` register of a reinstating owner holds the last waiter. -/
  oldtSpec : ∀ c, s.pc c = Pc.reinstate →
    s.oldt c = (waiters s).getLast? ∧ waiters s ≠ []
  /-- An owner about to hand over read its published first waiter. -/
  succSpec : ∀ c, s.pc c = Pc.wakeWrite → ∃ w1 ws, waiters s = w1 :: ws ∧
    s.succ c = some w1 ∧ published (s.pc w1)
  /-- An owner at the hand-over read has a linked successor. -/
  wakeReadNxt : ∀ c, s.pc c = Pc.wakeRead → ∃ w, s.nxt c = some w
  /-- No waiter behind the first is signalled. -/
  sigTail : ∀ w1 ws, waiters s = w1 :: ws →
    ∀ w ∈ ws, published (s.pc w) → sig par s w = false
  /-- The first waiter is signalled only once the owner has finished. -/
  sigHead : ∀ w1 ws, waiters s = w1 :: ws → published (s.pc w1) →
    sig par s w1 = true → ∀ d, ¬midRel (s.pc d)
  /-- Each variant uses only its own blocking pcs. -/
  variantPc : ∀ c, (par = true → s.pc c ≠ Pc.setLocked ∧ s.pc c ≠ Pc.spin) ∧
    (par = false → s.pc c ≠ Pc.wfi)
  /-- A waiter that has set up but not yet published is not signalled. -/
  publishSig : ∀ c, s.pc c = Pc.publish → sig par s c = false
  /-- Parked variant: unstarted cores have no pending wake. -/
  startSig : par = true → ∀ c, s.pc c = Pc.start → s.woken c = false

end Mcs

/-! ## Pointer and chain lemmas -/

theorem getp_oob {nxt : List (Option Nat)} {i : Nat} (h : nxt.length ≤ i) :
    getp nxt i = none := by
  simp [getp, List.getD_eq_getElem?_getD, List.getElem?_eq_none h]

theorem getp_set (nxt : List (Option Nat)) (i : Nat) (v : Option Nat) (j : Nat) :
    getp (nxt.set i v) j = if i = j ∧ i < nxt.length then v else getp nxt j := by
  by_cases hij : i = j
  · subst hij
    by_cases hi : i < nxt.length
    · simp [getp, List.getD_eq_getElem?_getD, List.getElem?_set, hi]
    · simp [getp, List.getD_eq_getElem?_getD, List.getElem?_set, hi,
        List.getElem?_eq_none (Nat.le_of_not_lt hi)]
  · simp [getp, List.getD_eq_getElem?_getD, List.getElem?_set, hij]

theorem getp_append_lt (nxt l2 : List (Option Nat)) {i : Nat}
    (h : i < nxt.length) : getp (nxt ++ l2) i = getp nxt i := by
  simp [getp, List.getD_eq_getElem?_getD, List.getElem?_append, h]

theorem getp_snoc_none (nxt : List (Option Nat)) :
    getp (nxt ++ [none]) nxt.length = none := by
  simp [getp, List.getD_eq_getElem?_getD, List.getElem?_append_right (Nat.le_refl _)]

theorem Chain.ne_nil {nxt : List (Option Nat)} {i : Nat} {l : List Nat}
    (h : Chain nxt i l) : ∃ l', l = i :: l' := by
  cases h with
  | last _ _ => exact ⟨[], rfl⟩
  | cons _ j l _ _ => exact ⟨l, rfl⟩

theorem Chain.unique {nxt : List (Option Nat)} {i : Nat} {l l' : List Nat}
    (h : Chain nxt i l) (h' : Chain nxt i l') : l = l' := by
  induction h generalizing l' with
  | last i hn =>
    cases h' with
    | last _ _ => rfl
    | cons _ j m hj _ => rw [hn] at hj; cases hj
  | cons i j m hj _ ih =>
    cases h' with
    | last _ hn => rw [hn] at hj; cases hj
    | cons _ j' m' hj' hc' =>
      rw [hj] at hj'
      cases hj'
      rw [ih hc']

theorem Chain.suffix_of_mem {nxt : List (Option Nat)} {i k : Nat} {l : List Nat}
    (h : Chain nxt i l) (hk : k ∈ l) : ∃ s, Chain nxt k s ∧ s <:+ l := by
  induction h with
  | last i hn =>
    rcases List.mem_singleton.mp hk with rfl
    exact ⟨[k], Chain.last k hn, List.suffix_refl _⟩
  | cons i j m hj hc ih =>
    rcases List.mem_cons.mp hk with rfl | hk'
    · exact ⟨k :: m, Chain.cons k j m hj hc, List.suffix_refl _⟩
    · obtain ⟨s, hs, hsuf⟩ := ih hk'
      exact ⟨s, hs, hsuf.trans (List.suffix_cons i m)⟩

theorem Chain.nodup {nxt : List (Option Nat)} {i : Nat} {l : List Nat}
    (h : Chain nxt i l) : l.Nodup := by
  induction h with
  | last i _ => simp
  | cons i j m hj hc ih =>
    refine List.nodup_cons.mpr ⟨?_, ih⟩
    intro hmem
    obtain ⟨s, hs, hsuf⟩ := hc.suffix_of_mem hmem
    have hlen : s.length ≤ m.length := hsuf.length_le
    have : s = i :: m := hs.unique (Chain.cons i j m hj hc)
    subst this
    simp only [List.length_cons] at hlen
    omega

theorem Chain.last_nxt {nxt : List (Option Nat)} {i lst : Nat} {l : List Nat}
    (h : Chain nxt i l) (hl : l.getLast? = some lst) : getp nxt lst = none := by
  induction h with
  | last i hn =>
    simp at hl
    rwa [hl] at hn
  | cons i j m hj hc ih =>
    obtain ⟨m', rfl⟩ := hc.ne_nil
    exact ih (by simpa using hl)

theorem Chain.congr {nxt nxt' : List (Option Nat)} {i : Nat} {l : List Nat}
    (h : Chain nxt i l) (he : ∀ a ∈ l, getp nxt' a = getp nxt a) :
    Chain nxt' i l := by
  induction h with
  | last i hn => exact Chain.last i ((he i (by simp)).trans hn)
  | cons i j m hj hc ih =>
    exact Chain.cons i j m ((he i (by simp)).trans hj)
      (ih fun a ha => he a (by simp [ha]))

theorem Chain.snoc {nxt nxt' : List (Option Nat)} {i lst n : Nat} {l : List Nat}
    (h : Chain nxt i l) (hl : l.getLast? = some lst)
    (he : ∀ a ∈ l, a ≠ lst → getp nxt' a = getp nxt a)
    (hlst : getp nxt' lst = some n) (hnn : getp nxt' n = none) :
    Chain nxt' i (l ++ [n]) := by
  induction h with
  | last i hn =>
    simp only [List.getLast?_singleton, Option.some.injEq] at hl
    subst hl
    exact Chain.cons i n [n] hlst (Chain.last n hnn)
  | cons i j m hj hc ih =>
    obtain ⟨m', rfl⟩ := hc.ne_nil
    have hlm : (j :: m').getLast? = some lst := by simpa using hl
    have hlmem : lst ∈ j :: m' := by
      obtain ⟨hne, hx⟩ := List.mem_getLast?_eq_getLast (Option.mem_def.mpr hlm)
      rw [hx]
      exact List.getLast_mem hne
    have hine : i ≠ lst := by
      intro hh
      subst hh
      exact (List.nodup_cons.mp (Chain.cons i j (j :: m') hj hc).nodup).1 hlmem
    refine Chain.cons i j _ ((he i (by simp) hine).trans hj) ?_
    exact ih hlm fun a ha hne => he a (by simp [ha]) hne


/-! ## The spin-lock family: claims C6, C7, C8 -/

/-- Status characterization of `lr_sc_try_lock`: it returns 0 exactly when
the word was 0 and the store-conditional committed. -/
theorem lr_sc_try_lock_status (scOk : Bool) (v : Nat) :
    ((lr_sc_try_lock scOk v).1 = 0 ↔ (v = 0 ∧ scOk = true)) := by
  cases scOk <;> rcases v with _ | v <;>
    simp [lr_sc_try_lock, load_reserved, store_conditional]

/-- Status characterization of `lrwait_try_lock`. -/
theorem lrwait_try_lock_status (scOk : Bool) (v : Nat) :
    ((lrwait_try_lock scOk v).1 = 0 ↔ (v = 0 ∧ scOk = true)) := by
  cases scOk <;> rcases v with _ | v <;>
    simp [lrwait_try_lock, store_conditional]

/-- Every delay `lr_sc_lock_mutex` emits is the caller-supplied backoff. -/
theorem lr_sc_lock_mutex_wait (backoff : Nat) :
    ∀ polls cyc, LockEvent.wait cyc ∈ lr_sc_lock_mutex backoff polls →
      cyc = backoff := by
  intro polls
  induction polls with
  | nil => simp [lr_sc_lock_mutex]
  | cons p rest ih =>
    rcases p with ⟨v, scOk⟩
    intro cyc h
    by_cases h0 : (lr_sc_try_lock scOk v).1 = 0
    · simp [lr_sc_lock_mutex, h0] at h
    · simp only [lr_sc_lock_mutex, h0, if_false, List.mem_cons] at h
      rcases h with h | h
      · injection h
      · exact ih cyc h

/-- Every delay `lrwait_lock_mutex` emits is the caller-supplied backoff. -/
theorem lrwait_lock_mutex_wait (backoff : Nat) :
    ∀ polls cyc, LockEvent.wait cyc ∈ lrwait_lock_mutex backoff polls →
      cyc = backoff := by
  intro polls
  induction polls with
  | nil => simp [lrwait_lock_mutex]
  | cons p rest ih =>
    rcases p with ⟨v, scOk⟩
    intro cyc h
    by_cases h0 : (lrwait_try_lock scOk v).1 = 0
    · simp [lrwait_lock_mutex, h0] at h
    · simp only [lrwait_lock_mutex, h0, if_false, List.mem_cons] at h
      rcases h with h | h
      · injection h
      · exact ih cyc h

/-- Every delay `amo_lock_mutex` emits is the fixed `BACKOFF * ACTIVE_CORES`. -/
theorem amo_lock_mutex_wait :
    ∀ apolls cyc, LockEvent.wait cyc ∈ amo_lock_mutex apolls →
      cyc = BACKOFF * ACTIVE_CORES := by
  intro apolls
  induction apolls with
  | nil => simp [amo_lock_mutex]
  | cons v rest ih =>
    intro cyc h
    by_cases h0 : (amo_try_lock v).1 = 0
    · simp [amo_lock_mutex, h0] at h
    · simp only [amo_lock_mutex, h0, if_false, List.mem_cons] at h
      rcases h with h | h
      · injection h
      · exact ih cyc h

/-- `lr_sc_lock_mutex` acquires exactly when some attempt observed the word
free with an intact reservation. -/
theorem lr_sc_lock_mutex_acquired (backoff : Nat) :
    ∀ polls, LockEvent.acquired ∈ lr_sc_lock_mutex backoff polls ↔
      ∃ p ∈ polls, p.1 = 0 ∧ p.2 = true := by
  intro polls
  induction polls with
  | nil => simp [lr_sc_lock_mutex]
  | cons p rest ih =>
    rcases p with ⟨v, scOk⟩
    by_cases h0 : (lr_sc_try_lock scOk v).1 = 0
    · simp only [lr_sc_lock_mutex, h0, if_true, List.mem_singleton]
      have := (lr_sc_try_lock_status scOk v).mp h0
      simp [this.1, this.2]
    · simp only [lr_sc_lock_mutex, h0, if_false, List.mem_cons]
      have hns : ¬(v = 0 ∧ scOk = true) := fun hc =>
        h0 ((lr_sc_try_lock_status scOk v).mpr hc)
      constructor
      · rintro (h | h)
        · exact absurd h (by simp)
        · obtain ⟨x, hx, hx0⟩ := ih.mp h
          exact ⟨x, Or.inr hx, hx0⟩
      · rintro ⟨x, rfl | hx', hx0⟩
        · exact absurd hx0 hns
        · exact Or.inr (ih.mpr ⟨x, hx', hx0⟩)

/-- `lrwait_lock_mutex` acquires exactly when some attempt observed the word
free with an intact reservation. -/
theorem lrwait_lock_mutex_acquired (backoff : Nat) :
    ∀ polls, LockEvent.acquired ∈ lrwait_lock_mutex backoff polls ↔
      ∃ p ∈ polls, p.1 = 0 ∧ p.2 = true := by
  intro polls
  induction polls with
  | nil => simp [lrwait_lock_mutex]
  | cons p rest ih =>
    rcases p with ⟨v, scOk⟩
    by_cases h0 : (lrwait_try_lock scOk v).1 = 0
    · simp only [lrwait_lock_mutex, h0, if_true, List.mem_singleton]
      have := (lrwait_try_lock_status scOk v).mp h0
      simp [this.1, this.2]
    · simp only [lrwait_lock_mutex, h0, if_false, List.mem_cons]
      have hns : ¬(v = 0 ∧ scOk = true) := fun hc =>
        h0 ((lrwait_try_lock_status scOk v).mpr hc)
      constructor
      · rintro (h | h)
        · exact absurd h (by simp)
        · obtain ⟨x, hx, hx0⟩ := ih.mp h
          exact ⟨x, Or.inr hx, hx0⟩
      · rintro ⟨x, rfl | hx', hx0⟩
        · exact absurd hx0 hns
        · exact Or.inr (ih.mpr ⟨x, hx', hx0⟩)

/-- `amo_lock_mutex` acquires exactly when some attempt observed the word
free. -/
theorem amo_lock_mutex_acquired :
    ∀ apolls, LockEvent.acquired ∈ amo_lock_mutex apolls ↔ 0 ∈ apolls := by
  intro apolls
  induction apolls with
  | nil => simp [amo_lock_mutex]
  | cons v rest ih =>
    by_cases h0 : (amo_try_lock v).1 = 0
    · have hv : v = 0 := h0
      subst hv
      simp [amo_lock_mutex, amo_try_lock, amo_swap]
    · have hv : v ≠ 0 := h0
      simp only [amo_lock_mutex, h0, if_false, List.mem_cons]
      constructor
      · rintro (h | h)
        · exact absurd h (by simp)
        · exact Or.inr (ih.mp h)
      · rintro (h | h)
        · exact absurd h.symm hv
        · exact Or.inr (ih.mpr h)

/-- C6: for every mutex word value, the swap-based `amo_try_lock` issues
`atomic_swap(mutex, 1)` and succeeds (returns 0) exactly when the previous
value was 0, leaving the mutex LOCKED afterwards; the reservation-based
`lr_sc_try_lock` fails without performing any write when the loaded value is
nonzero, and otherwise attempts `store_conditional(mutex, 1)`, succeeding
exactly when the store commits (and then the mutex is LOCKED); the same holds
for `lrwait_try_lock`. -/
theorem try_lock_spec (m : Nat) (scOk : Bool) :
    ((amo_try_lock m).1 = 0 ↔ m = 0) ∧ (amo_try_lock m).2 = 1 ∧
    (m ≠ 0 → lr_sc_try_lock scOk m = (1, m) ∧ lrwait_try_lock scOk m = (1, m)) ∧
    (m = 0 →
      ((lr_sc_try_lock scOk m).1 = 0 ↔ scOk = true) ∧
      (scOk = true → lr_sc_try_lock scOk m = (0, 1)) ∧
      lrwait_try_lock scOk m = lr_sc_try_lock scOk m) := by
  refine ⟨by simp [amo_try_lock, amo_swap], rfl, fun hm => ?_, fun hm => ?_⟩
  · simp [lr_sc_try_lock, lrwait_try_lock, load_reserved, hm]
  · subst hm
    cases scOk <;>
      simp [lr_sc_try_lock, lrwait_try_lock, load_reserved, store_conditional]

/-- Witness for `try_lock_spec` at `m = 5`, `scOk = true`. -/
theorem try_lock_spec_witness :
    lr_sc_try_lock true 5 = (1, 5) ∧ lrwait_try_lock true 5 = (1, 5) :=
  (try_lock_spec 5 true).2.2.1 (by decide)

/-- C7, counterexample: `amo_lock_mutex` has no caller-supplied backoff
parameter; the delay it inserts between two consecutive failed attempts is
the fixed `BACKOFF * ACTIVE_CORES = 4` cycles — not the backoff the
repository's callers pass to the other lock functions (`BACKOFF = 2`, e.g.
`lr_sc_lock_mutex(..., BACKOFF)`): on the same observation sequence (one
busy poll, then free) the two emit different delays. -/
theorem amo_lock_mutex_backoff_counterexample :
    amo_lock_mutex [1, 0] = [LockEvent.wait 4, LockEvent.acquired] ∧
    lr_sc_lock_mutex BACKOFF [(1, true), (0, true)] =
      [LockEvent.wait 2, LockEvent.acquired] ∧
    BACKOFF = 2 ∧ BACKOFF * ACTIVE_CORES = 4 ∧ (4 : Nat) ≠ 2 := by
  decide

/-- C7 as amended: `lr_sc_lock_mutex` and `lrwait_lock_mutex` take a
caller-supplied backoff and wait exactly `backoff` cycles between any two
consecutive failed attempts; `amo_lock_mutex` takes no backoff parameter and
waits the fixed `BACKOFF * ACTIVE_CORES` (= 4) cycles between attempts.  All
three return only once the mutex has been acquired: the acquisition event is
emitted exactly when some attempt succeeds (the word was observed free, and
for the reservation-based forms the store-conditional committed); otherwise
the loop only ever emits delays. -/
theorem lock_mutex_backoff_spec (backoff : Nat) (polls : List (Nat × Bool))
    (apolls : List Nat) :
    (∀ cyc, LockEvent.wait cyc ∈ lr_sc_lock_mutex backoff polls →
      cyc = backoff) ∧
    (∀ cyc, LockEvent.wait cyc ∈ lrwait_lock_mutex backoff polls →
      cyc = backoff) ∧
    (∀ cyc, LockEvent.wait cyc ∈ amo_lock_mutex apolls →
      cyc = BACKOFF * ACTIVE_CORES) ∧
    (LockEvent.acquired ∈ lr_sc_lock_mutex backoff polls ↔
      ∃ p ∈ polls, p.1 = 0 ∧ p.2 = true) ∧
    (LockEvent.acquired ∈ lrwait_lock_mutex backoff polls ↔
      ∃ p ∈ polls, p.1 = 0 ∧ p.2 = true) ∧
    (LockEvent.acquired ∈ amo_lock_mutex apolls ↔ 0 ∈ apolls) :=
  ⟨lr_sc_lock_mutex_wait backoff polls, lrwait_lock_mutex_wait backoff polls,
   amo_lock_mutex_wait apolls, lr_sc_lock_mutex_acquired backoff polls,
   lrwait_lock_mutex_acquired backoff polls, amo_lock_mutex_acquired apolls⟩

/-- Witness for `lock_mutex_backoff_spec`: with backoff 7 and observations
(busy, then free with intact reservation), the emitted delay is 7 and the
lock is acquired. -/
theorem lock_mutex_backoff_spec_witness :
    (LockEvent.wait 7 ∈ lr_sc_lock_mutex 7 [(1, true), (0, true)] →
      (7 : Nat) = 7) ∧
    LockEvent.acquired ∈ lr_sc_lock_mutex 7 [(1, true), (0, true)] :=
  ⟨fun h => (lock_mutex_backoff_spec 7 [(1, true), (0, true)] [1, 0]).1 7 h,
   (lock_mutex_backoff_spec 7 [(1, true), (0, true)] [1, 0]).2.2.2.1.mpr
     ⟨(0, true), by decide, by decide⟩⟩

/-- C8: `compare_and_swap(addr, expected, new)` — if the loaded value differs
from `expected`, the memory word is left unchanged (the store-conditional it
re-issues writes back the observed value, or writes nothing if the
reservation broke) and the mismatch status -1 is returned, whatever the
reservation oracle; if the loaded value equals `expected` and the reservation
is still valid, the word is set to `new` and 0 is returned. -/
theorem compare_and_swap_spec (m old new : Nat) (scOk : Bool) :
    (m ≠ old → compare_and_swap scOk m old new = (-1, m)) ∧
    (m = old → scOk = true → compare_and_swap scOk m old new = (0, new)) := by
  constructor
  · intro hne
    cases scOk <;>
      simp [compare_and_swap, load_reserved, store_conditional, hne]
  · rintro rfl rfl
    simp [compare_and_swap, load_reserved, store_conditional]

/-- Witness for `compare_and_swap_spec`: mismatch at (5, expected 3) leaves
the word at 5; match at (3, expected 3) writes 9. -/
theorem compare_and_swap_spec_witness :
    compare_and_swap true 5 3 9 = (-1, 5) ∧
    compare_and_swap true 3 3 9 = (0, 9) :=
  ⟨(compare_and_swap_spec 5 3 9 true).1 (by decide),
   (compare_and_swap_spec 3 3 9 true).2 (by decide) rfl⟩

/-! ## Allocation failure: claim C9 -/

/-- C9: `amo_allocate_mutex` and the `initialize_queue` of
non_blocking_queue.h propagate a failed allocation as a null return without
writing through a null pointer — but the `initialize_queue` of
blocking_queue.c stores `queue->head_lock` (line 26) before its null check
(line 29): when the `queue_t` allocation fails it writes through the null
queue pointer instead of just returning null. -/
theorem blocking_init_queue_null_write :
    blocking_init_queue none (some 1) (some 2) (some 3) =
      CreateOutcome.nullWrite ∧
    amo_allocate_mutex none = CreateOutcome.ret none ∧
    nonblocking_init_queue none (some 1) = CreateOutcome.ret none ∧
    nonblocking_init_queue (some 1) none = CreateOutcome.ret none ∧
    blocking_init_queue (some 1) none (some 2) (some 3) =
      CreateOutcome.ret none ∧
    blocking_init_queue (some 1) (some 2) none (some 3) =
      CreateOutcome.ret none := by
  decide

/-! ## The -1 sentinel of the blocking queue: claim C10 -/

/-- C10: for the blocking two-lock queue the empty sentinel -1 is itself a
legal enqueueable value: dequeue returns the identical result -1 both on the
freshly initialized (empty) queue and on a queue into which the value -1 was
enqueued (a non-empty queue), and the fresh queue's sentinel node itself
carries value -1 — so a dequeue result of -1 does not determine emptiness. -/
theorem blocking_dequeue_sentinel_ambiguous :
    (Blocking.dequeue Blocking.initQueue).1 = -1 ∧
    getp Blocking.initQueue.nxt Blocking.initQueue.head = none ∧
    (Blocking.dequeue (Blocking.enqueue Blocking.initQueue (-1))).1 = -1 ∧
    getp (Blocking.enqueue Blocking.initQueue (-1)).nxt
      (Blocking.enqueue Blocking.initQueue (-1)).head ≠ none ∧
    Blocking.initQueue.val.getD Blocking.initQueue.head 0 = -1 := by
  decide

/-! ## LR/SC-native versus CAS queue operations: claim C3 -/

namespace Lf

theorem length_setNxt (q : Queue) (i : Nat) (p : Option Nat) :
    (setNxt q i p).nxt.length = q.nxt.length := by
  simp [setNxt]

theorem closedNxt_setNxt_none {q : Queue} (hc : closedNxt q) (i : Nat) :
    closedNxt (setNxt q i none) := by
  intro a b h
  rw [length_setNxt]
  simp only [setNxt] at h
  rw [getp_set] at h
  split at h
  · cases h
  · exact hc a b h

/-- In sequential semantics the two enqueue retry loops compute the same
thing; the extra component `cas_enqueue_loop` returns (the local `tail` at
the loop break) is the state's tail. -/
theorem cas_lrsc_enqueue_loop_rel :
    ∀ (fuel : Nat) (q : Queue) (n : Nat),
      cas_enqueue_loop fuel q n =
        (lrsc_enqueue_loop fuel q n).map fun q1 => (q1, q1.tail) := by
  intro fuel
  induction fuel with
  | zero => intro q n; rfl
  | succ fuel ih =>
    intro q n
    simp only [cas_enqueue_loop, lrsc_enqueue_loop]
    cases h : getNxt q q.tail with
    | none => rfl
    | some nx => simp [ih]

/-- Shape of a completed `cas_enqueue_loop`: the returned local `tail` is a
pool node, and the state is the input with the queue tail moved there and
that node's `next` linked to the new node. -/
theorem cas_enqueue_loop_shape :
    ∀ (fuel : Nat) (q : Queue) (n : Nat) (q1 : Queue) (t : Nat),
      closedNxt q → q.tail < q.nxt.length →
      cas_enqueue_loop fuel q n = some (q1, t) →
      t < q.nxt.length ∧ q1 = setNxt { q with tail := t } t (some n) := by
  intro fuel
  induction fuel with
  | zero => intro q n q1 t _ _ h; cases h
  | succ fuel ih =>
    intro q n q1 t hc ht h
    simp only [cas_enqueue_loop] at h
    cases hx : getNxt q q.tail with
    | none =>
      rw [hx] at h
      cases h
      exact ⟨ht, rfl⟩
    | some nx =>
      rw [hx] at h
      have hnx : nx < q.nxt.length := hc _ _ hx
      exact ih { q with tail := nx } n q1 t hc hnx h

/-- `cas_enqueue` and `lock_free_lrsc_enqueue` agree from every pool-closed
state. -/
theorem enqueue_eq (fuel : Nat) (q : Queue) (n : Nat) (hc : closedNxt q)
    (ht : q.tail < q.nxt.length) :
    cas_enqueue fuel q n = lock_free_lrsc_enqueue fuel q n := by
  have hc0 : closedNxt (setNxt q n none) := closedNxt_setNxt_none hc n
  have ht0 : (setNxt q n none).tail < (setNxt q n none).nxt.length := by
    rw [length_setNxt]; exact ht
  show (match cas_enqueue_loop fuel (setNxt q n none) n with
    | none => none
    | some (q1, tail) =>
      some (if q1.tail = tail then { q1 with tail := n } else q1)) =
    (match lrsc_enqueue_loop fuel (setNxt q n none) n with
    | none => none
    | some q1 =>
      match getNxt q1 q1.tail with
      | some nx => some { q1 with tail := nx }
      | none => some q1)
  rw [cas_lrsc_enqueue_loop_rel]
  cases h : lrsc_enqueue_loop fuel (setNxt q n none) n with
  | none => rfl
  | some q1 =>
    have hsh := cas_enqueue_loop_shape fuel (setNxt q n none) n q1 q1.tail hc0 ht0
      (by rw [cas_lrsc_enqueue_loop_rel, h]; rfl)
    have hget : getNxt q1 q1.tail = some n := by
      rw [hsh.2]
      show getp ((setNxt q n none).nxt.set q1.tail (some n)) q1.tail = some n
      rw [getp_set]
      simp only [hsh.1, and_true]
      simp
    simp only [Option.map_some]
    rw [hget]
    simp

/-- `cas_dequeue` and `lock_free_lrsc_dequeue` agree whenever the head is not
a lagging tail (head's `next` null, or head distinct from tail). -/
theorem dequeue_eq (fuel : Nat) (q : Queue)
    (h : getNxt q q.head = none ∨ q.head ≠ q.tail) :
    cas_dequeue (fuel + 1) q = lock_free_lrsc_dequeue (fuel + 1) q := by
  cases hn : getNxt q q.head with
  | none => simp [cas_dequeue, lock_free_lrsc_dequeue, hn]
  | some nx =>
    have hne : q.head ≠ q.tail := by
      rcases h with h | h
      · rw [h] at hn; cases hn
      · exact h
    simp [cas_dequeue, lock_free_lrsc_dequeue, hn, hne]

/-- One lagging-tail iteration of `cas_dequeue`: advance the tail, retry. -/
theorem cas_dequeue_lag_step (fuel : Nat) (q : Queue) (nx : Nat)
    (hn : getNxt q q.head = some nx) (hht : q.head = q.tail) :
    cas_dequeue (fuel + 1) q = cas_dequeue fuel { q with tail := nx } := by
  have hnt : getNxt q q.tail = some nx := by rw [← hht]; exact hn
  simp [cas_dequeue, hn, hht, hnt]

/-- The committing iteration of `cas_dequeue` on head ≠ tail. -/
theorem cas_dequeue_got_step (fuel : Nat) (q : Queue) (nx : Nat)
    (hn : getNxt q q.head = some nx) (hne : q.head ≠ q.tail) :
    cas_dequeue (fuel + 1) q =
      DeqResult.got q.head (setVal { q with head := nx } q.head (getVal q nx)) := by
  simp [cas_dequeue, hn, hne]

/-- On a lagging tail (head = tail with a live successor),
`lock_free_lrsc_dequeue` helps advance the tail and reports empty, while
`cas_dequeue` advances the tail and returns the first value. -/
theorem dequeue_lag (fuel : Nat) (q : Queue) (nx : Nat) (hht : q.head = q.tail)
    (hn : getNxt q q.head = some nx) (hne : nx ≠ q.head) :
    lock_free_lrsc_dequeue (fuel + 1) q = DeqResult.empty { q with tail := nx } ∧
    cas_dequeue (fuel + 2) q =
      DeqResult.got q.head
        (setVal { q with head := nx, tail := nx } q.head (getVal q nx)) := by
  constructor
  · have hnt : getNxt q q.tail = some nx := by rw [← hht]; exact hn
    simp [lock_free_lrsc_dequeue, hn, hht, hnt]
  · rw [show fuel + 2 = (fuel + 1) + 1 from rfl,
      cas_dequeue_lag_step (fuel + 1) q nx hn hht]
    exact cas_dequeue_got_step fuel { q with tail := nx } nx hn
      fun hh => hne (by exact hh.symm)

end Lf

/-- C3, counterexample: the queue state with sentinel node 0, one live node 1
(value 42) and a lagging tail (head = tail = 0, node 0 linked to node 1) is a
well-formed queue state on which `cas_dequeue` dequeues node 0 carrying value
42, while `lock_free_lrsc_dequeue` returns the empty sentinel `NULL` (after
helping advance the tail), so the two are not semantically equivalent and the
LR/SC dequeue reports empty on a non-empty queue. -/
theorem lrsc_cas_dequeue_counterexample :
    Lf.cas_dequeue 2 { nxt := [some 1, none], val := [7, 42], head := 0, tail := 0 } =
      Lf.DeqResult.got 0 { nxt := [some 1, none], val := [42, 42], head := 1, tail := 1 } ∧
    Lf.lock_free_lrsc_dequeue 2
        { nxt := [some 1, none], val := [7, 42], head := 0, tail := 0 } =
      Lf.DeqResult.empty { nxt := [some 1, none], val := [7, 42], head := 0, tail := 1 } ∧
    Lf.WF { nxt := [some 1, none], val := [7, 42], head := 0, tail := 0 } := by
  refine ⟨by decide, by decide, ?_, by decide, ⟨[0, 1], ?_, by decide⟩⟩
  · intro i j h
    rcases i with _ | _ | i
    · have h' : some 1 = some j := h
      injection h' with h'
      show j < 2
      omega
    · have h' : (none : Option Nat) = some j := h
      cases h'
    · rw [getp_oob (Nat.le_add_left 2 i)] at h
      cases h
  · exact Chain.cons 0 1 [1] rfl (Chain.last 1 rfl)

/-- C3 as amended: from every pool-closed queue state,
`lock_free_lrsc_enqueue` produces the same resulting queue as `cas_enqueue`;
`lock_free_lrsc_dequeue` agrees with `cas_dequeue` (same result, same
resulting queue) on every state in which the head is not a lagging tail; but
when head = tail and a successor exists (lagging tail), the LR/SC dequeue
helps advance the tail and reports empty whereas `cas_dequeue` returns the
first live value. -/
theorem lrsc_cas_equivalence (fuel : Nat) (q : Lf.Queue) (n nx : Nat) :
    (Lf.closedNxt q → q.tail < q.nxt.length →
      Lf.cas_enqueue fuel q n = Lf.lock_free_lrsc_enqueue fuel q n) ∧
    (Lf.getNxt q q.head = none ∨ q.head ≠ q.tail →
      Lf.cas_dequeue (fuel + 1) q = Lf.lock_free_lrsc_dequeue (fuel + 1) q) ∧
    (q.head = q.tail → Lf.getNxt q q.head = some nx → nx ≠ q.head →
      Lf.lock_free_lrsc_dequeue (fuel + 1) q =
        Lf.DeqResult.empty { q with tail := nx } ∧
      Lf.cas_dequeue (fuel + 2) q =
        Lf.DeqResult.got q.head
          (Lf.setVal { q with head := nx, tail := nx } q.head (Lf.getVal q nx))) :=
  ⟨fun hc ht => Lf.enqueue_eq fuel q n hc ht,
   fun h => Lf.dequeue_eq fuel q h,
   fun hht hn hne => Lf.dequeue_lag fuel q nx hht hn hne⟩

/-- Witness for `lrsc_cas_equivalence`: enqueue of value-node 1 into the
fresh one-node queue agrees between the two forms, and the lagging-tail state
of the counterexample shape is dequeued as described. -/
theorem lrsc_cas_equivalence_witness :
    Lf.cas_enqueue 1 Lf.initQueue 1 = Lf.lock_free_lrsc_enqueue 1 Lf.initQueue 1 ∧
    Lf.lock_free_lrsc_dequeue 1
        { nxt := [some 1, none], val := [7, 42], head := 0, tail := 0 } =
      Lf.DeqResult.empty { nxt := [some 1, none], val := [7, 42], head := 0, tail := 1 } := by
  constructor
  · refine (lrsc_cas_equivalence 1 Lf.initQueue 1 0).1 ?_ (by decide)
    intro i j h
    rcases i with _ | i
    · have h' : (none : Option Nat) = some j := h
      cases h'
    · rw [getp_oob (Nat.le_add_left 1 i)] at h
      cases h
  · exact ((lrsc_cas_equivalence 0 _ 0 1).2.2 (by decide) (by decide) (by decide)).1

/-! ## Queue well-formedness: claims C4 and C5 -/

theorem Chain.mem_bound {nxt : List (Option Nat)} {i : Nat} {l : List Nat}
    (h : Chain nxt i l) (hc : ∀ a b, getp nxt a = some b → b < nxt.length)
    (hi : i < nxt.length) : ∀ a ∈ l, a < nxt.length := by
  induction h with
  | last i _ =>
    intro a ha
    rcases List.mem_singleton.mp ha with rfl
    exact hi
  | cons i j m hj _ ih =>
    intro a ha
    rcases List.mem_cons.mp ha with rfl | ha'
    · exact hi
    · exact ih (hc _ _ hj) a ha'

theorem getLast?_of_suffix {α : Type} {s l : List α} (h : s <:+ l)
    (hs : s ≠ []) : l.getLast? = s.getLast? := by
  obtain ⟨t, rfl⟩ := h
  rw [List.getLast?_append]
  cases hh : s.getLast? with
  | none => exact absurd (List.getLast?_eq_none_iff.mp hh) hs
  | some x => rfl

theorem mem_of_getLast?_eq {α : Type} {l : List α} {x : α}
    (h : l.getLast? = some x) : x ∈ l := by
  obtain ⟨hne, hx⟩ := List.mem_getLast?_eq_getLast (Option.mem_def.mpr h)
  rw [hx]
  exact List.getLast_mem hne

namespace Lf

theorem WFx.toWF {q : Queue} (h : WFx q) : WF q := by
  obtain ⟨hc, hh, l, hch, hlast⟩ := h
  exact ⟨hc, hh, l, hch, mem_of_getLast?_eq hlast⟩

theorem WF.head_eq_tail {q : Queue} (hw : WF q)
    (hn : getNxt q q.head = none) : q.head = q.tail := by
  obtain ⟨-, -, l, hch, htl⟩ := hw
  have hn' : getp q.nxt q.head = none := hn
  cases hch with
  | last i _ => exact (List.mem_singleton.mp htl).symm
  | cons i j m hj _ =>
    rw [hn'] at hj
    cases hj

theorem WF.tail_lt {q : Queue} (hw : WF q) : q.tail < q.nxt.length := by
  obtain ⟨hc, hh, l, hch, htl⟩ := hw
  exact hch.mem_bound hc hh _ htl

/-- The pool stays closed when a node is appended. -/
theorem closedNxt_alloc {q : Queue} (hc : closedNxt q) (v : Nat) :
    closedNxt (alloc_node q v).1 := by
  intro a b h
  simp only [alloc_node] at h ⊢
  rcases Nat.lt_or_ge a q.nxt.length with ha | ha
  · rw [getp_append_lt _ _ ha] at h
    simp only [List.length_append, List.length_singleton]
    exact Nat.lt_succ_of_lt (hc a b h)
  · rcases Nat.eq_or_lt_of_le ha with rfl | ha'
    · rw [getp_snoc_none] at h
      cases h
    · rw [getp_oob (by simp; omega)] at h
      cases h

/-- Appending a node changes no `next` field of existing nodes, and the new
node's `next` is null. -/
theorem getp_alloc {q : Queue} (v : Nat) (a : Nat) :
    getp (alloc_node q v).1.nxt a =
      if a < q.nxt.length then getp q.nxt a else none := by
  simp only [alloc_node]
  rcases Nat.lt_or_ge a q.nxt.length with ha | ha
  · rw [getp_append_lt _ _ ha, if_pos ha]
  · rw [if_neg (Nat.not_lt.mpr ha)]
    rcases Nat.eq_or_lt_of_le ha with rfl | ha'
    · exact getp_snoc_none _
    · exact getp_oob (by simp; omega)

/-- Core preservation lemma for the tail-exact enqueues: if the new state has
the fresh node `n` linked after the old tail, `n`'s own `next` null, all
other `next` fields unchanged, and `tail` moved to `n`, then `WFx` is
preserved. -/
theorem exact_enqueue_wf {q q' : Queue} {n : Nat} (hw : WFx q)
    (hn : n = q.nxt.length) (hlen : q'.nxt.length = q.nxt.length + 1)
    (hhead : q'.head = q.head) (htail : q'.tail = n)
    (hget : ∀ a, getp q'.nxt a =
      if a = q.tail then some n else if a = n then none else getp q.nxt a) :
    WFx q' := by
  obtain ⟨hc, hh, l, hch, hlast⟩ := hw
  have htl : q.tail ∈ l := mem_of_getLast?_eq hlast
  have hbound : ∀ a ∈ l, a < q.nxt.length := hch.mem_bound hc hh
  have htn : q.tail ≠ n := by
    have := hbound _ htl
    omega
  refine ⟨?_, ?_, l ++ [n], ?_, ?_⟩
  · intro a b hab
    rw [hget] at hab
    split at hab
    · cases hab
      omega
    · split at hab
      · cases hab
      · have := hc a b hab
        omega
  · rw [hhead, hlen]
    exact Nat.lt_succ_of_lt hh
  · rw [hhead]
    refine hch.snoc hlast (fun a ha hane => ?_) ?_ ?_
    · rw [hget]
      have han : a ≠ n := by
        have := hbound a ha
        omega
      rw [if_neg hane, if_neg han]
    · rw [hget, if_pos rfl]
    · rw [hget, if_neg (fun hh' => htn hh'.symm), if_pos rfl]
  · rw [List.getLast?_concat, htail]

/-- Pointwise description of the `next` fields after linking the fresh node
`n = |pool|` behind the old tail, `amo_enqueue` version (the fresh node's
`next` is cleared first, a no-op on the freshly appended node). -/
theorem getp_amo_link (nxt : List (Option Nat)) (t : Nat) (hb : t < nxt.length)
    (a : Nat) :
    getp (((nxt ++ [none]).set nxt.length none).set t (some nxt.length)) a =
      if a = t then some nxt.length
      else if a = nxt.length then none else getp nxt a := by
  rw [getp_set]
  by_cases h1 : t = a
  · rw [if_pos ⟨h1, by simp only [List.length_set, List.length_append,
      List.length_singleton]; omega⟩, if_pos h1.symm]
  · rw [if_neg (fun hc => h1 hc.1), if_neg (fun hc => h1 hc.symm)]
    rw [getp_set]
    by_cases h2 : nxt.length = a
    · rw [if_pos ⟨h2, by simp⟩, if_pos h2.symm]
    · rw [if_neg (fun hc => h2 hc.1), if_neg (fun hc => h2 hc.symm)]
      by_cases h3 : a < nxt.length
      · exact getp_append_lt _ _ h3
      · rw [getp_oob (by simp only [List.length_append,
          List.length_singleton]; omega), getp_oob (by omega)]

/-- Pointwise description for the `lrwait_enqueue` (and blocking `enqueue`)
version: no clearing of the fresh node's `next`, which is already null. -/
theorem getp_link (nxt : List (Option Nat)) (t : Nat) (hb : t < nxt.length)
    (a : Nat) :
    getp ((nxt ++ [none]).set t (some nxt.length)) a =
      if a = t then some nxt.length
      else if a = nxt.length then none else getp nxt a := by
  rw [getp_set]
  by_cases h1 : t = a
  · rw [if_pos ⟨h1, by simp only [List.length_append,
      List.length_singleton]; omega⟩, if_pos h1.symm]
  · rw [if_neg (fun hc => h1 hc.1), if_neg (fun hc => h1 hc.symm)]
    by_cases h2 : nxt.length = a
    · rw [if_pos h2.symm]
      rw [← h2, getp_snoc_none]
    · rw [if_neg (fun hc => h2 hc.symm)]
      by_cases h3 : a < nxt.length
      · exact getp_append_lt _ _ h3
      · rw [getp_oob (by simp only [List.length_append,
          List.length_singleton]; omega), getp_oob (by omega)]

/-- `amo_enqueue` of a fresh node preserves the tail-exact invariant. -/
theorem amo_enqueue_new_wf {q : Queue} (v : Nat) (hw : WFx q) :
    WFx (amo_enqueue_new q v) := by
  have htb : q.tail < q.nxt.length := hw.toWF.tail_lt
  refine exact_enqueue_wf hw rfl ?_ rfl rfl ?_
  · simp [amo_enqueue_new, amo_enqueue, alloc_node, setNxt]
  · intro a
    exact getp_amo_link q.nxt q.tail htb a

/-- `lrwait_enqueue` of a fresh node preserves the tail-exact invariant. -/
theorem lrwait_enqueue_new_wf {q : Queue} (v : Nat) (hw : WFx q) :
    WFx (lrwait_enqueue_new q v) := by
  have htb : q.tail < q.nxt.length := hw.toWF.tail_lt
  refine exact_enqueue_wf hw rfl ?_ rfl rfl ?_
  · simp [lrwait_enqueue_new, lrwait_enqueue, alloc_node, setNxt]
  · intro a
    exact getp_link q.nxt q.tail htb a

/-- The local `tail` at the break of `cas_enqueue_loop` is the last node of
the chain hanging off the queue's tail. -/
theorem cas_enqueue_loop_last :
    ∀ (fuel : Nat) (q : Queue) (n : Nat) {ts : List Nat} {lst : Nat}
      {q1 : Queue} {t : Nat},
      Chain q.nxt q.tail ts → ts.getLast? = some lst →
      cas_enqueue_loop fuel q n = some (q1, t) → t = lst := by
  intro fuel
  induction fuel with
  | zero => intro q n ts lst q1 t _ _ h; cases h
  | succ fuel ih =>
    intro q n ts lst q1 t hch hlast h
    simp only [cas_enqueue_loop] at h
    cases hch with
    | last i hn =>
      have hx : getNxt q q.tail = none := hn
      rw [hx] at h
      cases h
      simp only [List.getLast?_singleton, Option.some.injEq] at hlast
      exact hlast
    | cons i j m hj hc =>
      have hx : getNxt q q.tail = some j := hj
      rw [hx] at h
      have hlast' : m.getLast? = some lst := by
        obtain ⟨m', rfl⟩ := hc.ne_nil
        simpa using hlast
      exact ih { q with tail := j } n hc hlast' h

/-- A completed `cas_enqueue` of a fresh node preserves the queue invariant
(the new node becomes the last of the chain and the tail). -/
theorem cas_enqueue_new_wf {fuel : Nat} {q : Queue} {v : Nat} {q' : Queue}
    (hw : WF q) (h : cas_enqueue_new fuel q v = some q') : WF q' := by
  obtain ⟨hc, hh, l, hch, htl⟩ := hw
  have hbound : ∀ a ∈ l, a < q.nxt.length := hch.mem_bound hc hh
  -- the allocation does not disturb the existing pool
  have hqa : ∀ a, getp (alloc_node q v).1.nxt a =
      if a < q.nxt.length then getp q.nxt a else none := getp_alloc v
  have hca : closedNxt (alloc_node q v).1 := closedNxt_alloc hc v
  have hlena : (alloc_node q v).1.nxt.length = q.nxt.length + 1 := by
    simp [alloc_node]
  -- clearing the fresh node's next is a pointwise no-op
  have h0 : ∀ a, getp (setNxt (alloc_node q v).1 q.nxt.length none).nxt a =
      getp (alloc_node q v).1.nxt a := by
    intro a
    show getp ((alloc_node q v).1.nxt.set q.nxt.length none) a = _
    rw [getp_set]
    split
    · rename_i hcond
      rw [← hcond.1, hqa]
      rw [if_neg (by omega)]
    · rfl
  have hc0 : closedNxt (setNxt (alloc_node q v).1 q.nxt.length none) :=
    closedNxt_setNxt_none hca _
  have hlen0 : (setNxt (alloc_node q v).1 q.nxt.length none).nxt.length =
      q.nxt.length + 1 := by
    rw [length_setNxt, hlena]
  -- the old chain survives in the extended pool
  have hch0 : Chain (setNxt (alloc_node q v).1 q.nxt.length none).nxt q.head l := by
    refine hch.congr fun a ha => ?_
    rw [h0, hqa, if_pos (hbound a ha)]
  -- the chain hanging off the tail, and its last node
  obtain ⟨ts, hts, hsuf⟩ := hch0.suffix_of_mem htl
  have htsne : ts ≠ [] := by
    obtain ⟨ts', rfl⟩ := hts.ne_nil
    simp
  obtain ⟨lst, hlst⟩ : ∃ lst, ts.getLast? = some lst := by
    cases hl : ts.getLast? with
    | none => exact absurd (List.getLast?_eq_none_iff.mp hl) htsne
    | some x => exact ⟨x, rfl⟩
  have hlast : l.getLast? = some lst := by
    rw [getLast?_of_suffix hsuf htsne, hlst]
  have hlmem : lst ∈ l := mem_of_getLast?_eq hlast
  have hlstb : lst < q.nxt.length := hbound _ hlmem
  -- unfold the enqueue
  simp only [cas_enqueue_new, cas_enqueue] at h
  cases hloop : cas_enqueue_loop fuel
      (setNxt (alloc_node q v).1 (alloc_node q v).2 none) (alloc_node q v).2 with
  | none => rw [hloop] at h; cases h
  | some pr =>
    rcases pr with ⟨q1, t⟩
    rw [hloop] at h
    have hshape := cas_enqueue_loop_shape fuel _ _ q1 t hc0
      (by rw [hlen0]; exact Nat.lt_succ_of_lt (hbound _ htl)) hloop
    have hlastt : lst = t := (cas_enqueue_loop_last fuel _ _ hts hlst hloop).symm
    subst hlastt
    obtain ⟨hlstlt, rfl⟩ := hshape
    have h' : some (if lst = lst
        then ({ setNxt { setNxt (alloc_node q v).1 q.nxt.length none with
            tail := lst } lst (some (alloc_node q v).2) with
            tail := (alloc_node q v).2 } : Queue)
        else setNxt { setNxt (alloc_node q v).1 q.nxt.length none with
            tail := lst } lst (some (alloc_node q v).2)) = some q' := h
    rw [if_pos rfl] at h'
    cases h'
    -- well-formedness of the result
    have hgq : ∀ a, getp ((setNxt (alloc_node q v).1 q.nxt.length none).nxt.set
        lst (some q.nxt.length)) a =
        if a = lst then some q.nxt.length
        else if a = q.nxt.length then none else getp q.nxt a := by
      intro a
      rw [getp_set]
      by_cases h1 : lst = a
      · rw [if_pos ⟨h1, by rw [hlen0]; omega⟩, if_pos h1.symm]
      · rw [if_neg (fun hcond => h1 hcond.1), if_neg (fun hcond => h1 hcond.symm),
          h0, hqa]
        by_cases h2 : a = q.nxt.length
        · rw [if_pos h2, if_neg (by omega)]
        · rw [if_neg h2]
          by_cases h3 : a < q.nxt.length
          · rw [if_pos h3]
          · rw [if_neg h3, getp_oob (by omega)]
    refine ⟨?_, ?_, l ++ [q.nxt.length], ?_, ?_⟩
    · intro a b hab
      have hab' : getp ((setNxt (alloc_node q v).1 q.nxt.length none).nxt.set
        lst (some q.nxt.length)) a = some b := hab
      rw [hgq] at hab'
      show b < ((setNxt (alloc_node q v).1 q.nxt.length none).nxt.set
        lst (some q.nxt.length)).length
      rw [List.length_set, hlen0]
      split at hab'
      · cases hab'; omega
      · split at hab'
        · cases hab'
        · have := hc a b hab'; omega
    · show q.head < ((setNxt (alloc_node q v).1 q.nxt.length none).nxt.set
        lst (some q.nxt.length)).length
      rw [List.length_set, hlen0]
      omega
    · show Chain ((setNxt (alloc_node q v).1 q.nxt.length none).nxt.set
        lst (some q.nxt.length)) q.head _
      have hch1 : Chain q.nxt q.head l := hch
      refine hch1.snoc hlast (fun a ha hane => ?_) ?_ ?_
      · rw [hgq, if_neg hane, if_neg (by have := hbound a ha; omega)]
      · rw [hgq, if_pos rfl]
      · rw [hgq, if_neg (by omega), if_pos rfl]
    · show (alloc_node q v).2 ∈ _
      exact List.mem_append.mpr (Or.inr (List.mem_singleton.mpr rfl))

/-- In sequential semantics the LR/SC enqueue is the CAS enqueue. -/
theorem lrsc_enqueue_new_eq_cas (fuel : Nat) (q : Queue) (v : Nat)
    (hw : WF q) : lrsc_enqueue_new fuel q v = cas_enqueue_new fuel q v := by
  unfold lrsc_enqueue_new cas_enqueue_new
  refine (enqueue_eq fuel (alloc_node q v).1 (alloc_node q v).2
    (closedNxt_alloc hw.1 v) ?_).symm
  show q.tail < (alloc_node q v).1.nxt.length
  have := hw.tail_lt
  simp only [alloc_node, List.length_append, List.length_singleton]
  omega

theorem lrsc_enqueue_new_wf {fuel : Nat} {q : Queue} {v : Nat} {q' : Queue}
    (hw : WF q) (h : lrsc_enqueue_new fuel q v = some q') : WF q' :=
  cas_enqueue_new_wf hw (by rw [← lrsc_enqueue_new_eq_cas fuel q v hw]; exact h)

theorem nb_enqueue_new_wf {fuel : Nat} {q : Queue} {v : Nat} {q' : Queue}
    (hw : WF q) (h : nb_enqueue_new fuel q v = some q') : WF q' :=
  lrsc_enqueue_new_wf hw h

/-- Destructuring a well-formed queue at a non-empty head: the rest of the
chain after the head node. -/
theorem WF.destruct {q : Queue} (hw : WF q) {nx : Nat}
    (hn : getNxt q q.head = some nx) :
    ∃ m, Chain q.nxt nx m ∧ q.head ∉ m ∧ (q.tail = q.head ∨ q.tail ∈ m) ∧
      nx ∈ m := by
  obtain ⟨hc, hh, l, hch, htl⟩ := hw
  have hn' : getp q.nxt q.head = some nx := hn
  cases hch with
  | last i hni =>
    rw [hn'] at hni
    cases hni
  | cons i j m hj hcm =>
    have hj' : nx = j := Option.some.inj (hn'.symm.trans hj)
    subst hj'
    refine ⟨m, hcm, ?_, ?_, ?_⟩
    · exact (List.nodup_cons.mp (Chain.cons q.head nx m hn' hcm).nodup).1
    · rcases List.mem_cons.mp htl with he | hm
      · exact Or.inl he
      · exact Or.inr hm
    · obtain ⟨m', rfl⟩ := hcm.ne_nil
      simp

/-- The lagging-tail advance of the retrying dequeues preserves the
invariant. -/
theorem WF.advance_tail {q : Queue} (hw : WF q) {nx : Nat}
    (hn : getNxt q q.head = some nx) : WF { q with tail := nx } := by
  obtain ⟨m, hcm, hhm, htm, hnxm⟩ := hw.destruct hn
  obtain ⟨hc, hh, l, hch, htl⟩ := hw
  exact ⟨hc, hh, q.head :: m, Chain.cons q.head nx m hn hcm,
    List.mem_cons_of_mem _ hnxm⟩

/-- The committed head swing of `cas_dequeue` preserves the invariant. -/
theorem WF.swing_head {q : Queue} (hw : WF q) {nx : Nat}
    (hn : getNxt q q.head = some nx) (hht : q.head ≠ q.tail) (w : Nat) :
    WF (setVal { q with head := nx } q.head w) := by
  obtain ⟨m, hcm, hhm, htm, hnxm⟩ := hw.destruct hn
  obtain ⟨hc, hh, -⟩ := hw
  refine ⟨hc, hc _ _ hn, m, hcm, ?_⟩
  rcases htm with he | hm
  · exact absurd he.symm hht
  · exact hm

/-- The committed head swing of `nb_dequeue`, which also nulls the removed
node's `next`, preserves the invariant. -/
theorem WF.swing_head_clear {q : Queue} (hw : WF q) {nx : Nat}
    (hn : getNxt q q.head = some nx) (hht : q.head ≠ q.tail) (w : Nat) :
    WF (setNxt (setVal { q with head := nx } q.head w) q.head none) := by
  obtain ⟨m, hcm, hhm, htm, hnxm⟩ := hw.destruct hn
  obtain ⟨hc, hh, -⟩ := hw
  refine ⟨?_, ?_, m, ?_, ?_⟩
  · intro a b hab
    have hab' : getp (q.nxt.set q.head none) a = some b := hab
    rw [getp_set] at hab'
    show b < (q.nxt.set q.head none).length
    rw [List.length_set]
    split at hab'
    · cases hab'
    · exact hc a b hab'
  · show nx < (q.nxt.set q.head none).length
    rw [List.length_set]
    exact hc _ _ hn
  · show Chain (q.nxt.set q.head none) nx m
    refine hcm.congr fun a ha => ?_
    rw [getp_set, if_neg (show ¬(q.head = a ∧ q.head < q.nxt.length) from
      fun hcond => hhm (by rw [hcond.1]; exact ha))]
  · rcases htm with he | hm
    · exact absurd he.symm hht
    · exact hm

theorem cas_dequeue_wf :
    ∀ (fuel : Nat) (q : Queue), WF q →
      (∀ q', cas_dequeue fuel q = DeqResult.empty q' → WF q') ∧
      (∀ n q', cas_dequeue fuel q = DeqResult.got n q' → WF q') := by
  intro fuel
  induction fuel with
  | zero =>
    intro q hw
    constructor
    · intro q' h
      cases h
    · intro n q' h
      cases h
  | succ fuel ih =>
    intro q hw
    constructor
    · intro q' h
      cases hx : getNxt q q.head with
      | none =>
        simp only [cas_dequeue, hx] at h
        by_cases hht : q.head = q.tail
        · rw [if_pos hht] at h
          cases h
          exact hw
        · rw [if_neg hht] at h
          cases h
      | some nx =>
        simp only [cas_dequeue, hx] at h
        by_cases hht : q.head = q.tail
        · rw [if_pos hht] at h
          exact (ih _ (hw.advance_tail hx)).1 q' h
        · rw [if_neg hht] at h
          cases h
    · intro n q' h
      cases hx : getNxt q q.head with
      | none =>
        simp only [cas_dequeue, hx] at h
        by_cases hht : q.head = q.tail
        · rw [if_pos hht] at h; cases h
        · rw [if_neg hht] at h; cases h
      | some nx =>
        simp only [cas_dequeue, hx] at h
        by_cases hht : q.head = q.tail
        · rw [if_pos hht] at h
          exact (ih _ (hw.advance_tail hx)).2 n q' h
        · rw [if_neg hht] at h
          cases h
          exact hw.swing_head hx hht _

theorem lrsc_dequeue_wf :
    ∀ (fuel : Nat) (q : Queue), WF q →
      (∀ q', lock_free_lrsc_dequeue fuel q = DeqResult.empty q' → WF q') ∧
      (∀ n q', lock_free_lrsc_dequeue fuel q = DeqResult.got n q' → WF q') := by
  intro fuel
  induction fuel with
  | zero =>
    intro q hw
    constructor
    · intro q' h
      cases h
    · intro n q' h
      cases h
  | succ fuel ih =>
    intro q hw
    constructor
    · intro q' h
      cases hx : getNxt q q.head with
      | none =>
        simp only [lock_free_lrsc_dequeue, hx] at h
        by_cases hht : q.head = q.tail
        · rw [if_pos hht] at h
          cases h
          exact hw
        · rw [if_neg hht] at h
          cases h
      | some nx =>
        simp only [lock_free_lrsc_dequeue, hx] at h
        by_cases hht : q.head = q.tail
        · rw [if_pos hht] at h
          have hnt : getNxt q q.tail = some nx := by rw [← hht]; exact hx
          rw [hnt] at h
          cases h
          exact hw.advance_tail hx
        · rw [if_neg hht] at h
          cases h
    · intro n q' h
      cases hx : getNxt q q.head with
      | none =>
        simp only [lock_free_lrsc_dequeue, hx] at h
        by_cases hht : q.head = q.tail
        · rw [if_pos hht] at h; cases h
        · rw [if_neg hht] at h; cases h
      | some nx =>
        simp only [lock_free_lrsc_dequeue, hx] at h
        by_cases hht : q.head = q.tail
        · rw [if_pos hht] at h
          have hnt : getNxt q q.tail = some nx := by rw [← hht]; exact hx
          rw [hnt] at h
          cases h
        · rw [if_neg hht] at h
          cases h
          exact hw.swing_head hx hht _

theorem nb_dequeue_wf :
    ∀ (fuel : Nat) (q : Queue), WF q →
      (∀ q', nb_dequeue fuel q = DeqResult.empty q' → WF q') ∧
      (∀ n q', nb_dequeue fuel q = DeqResult.got n q' → WF q') := by
  intro fuel
  induction fuel with
  | zero =>
    intro q hw
    constructor
    · intro q' h
      cases h
    · intro n q' h
      cases h
  | succ fuel ih =>
    intro q hw
    constructor
    · intro q' h
      cases hx : getNxt q q.head with
      | none =>
        simp only [nb_dequeue, hx] at h
        by_cases hht : q.head = q.tail
        · rw [if_pos hht] at h
          cases h
          exact hw
        · rw [if_neg hht] at h
          cases h
      | some nx =>
        simp only [nb_dequeue, hx] at h
        by_cases hht : q.head = q.tail
        · rw [if_pos hht] at h
          have hnt : getNxt q q.tail = some nx := by rw [← hht]; exact hx
          rw [hnt] at h
          cases h
          exact hw.advance_tail hx
        · rw [if_neg hht] at h
          cases h
    · intro n q' h
      cases hx : getNxt q q.head with
      | none =>
        simp only [nb_dequeue, hx] at h
        by_cases hht : q.head = q.tail
        · rw [if_pos hht] at h; cases h
        · rw [if_neg hht] at h; cases h
      | some nx =>
        simp only [nb_dequeue, hx] at h
        by_cases hht : q.head = q.tail
        · rw [if_pos hht] at h
          have hnt : getNxt q q.tail = some nx := by rw [← hht]; exact hx
          rw [hnt] at h
          cases h
        · rw [if_neg hht] at h
          cases h
          exact hw.swing_head_clear hx hht _

/-- `lrwait_dequeue` and `amo_dequeue` have the same word-level effect. -/
theorem lrwait_dequeue_eq_amo (q : Queue) : lrwait_dequeue q = amo_dequeue q :=
  rfl

/-- A successful `amo_dequeue` preserves the tail-exact invariant. -/
theorem amo_dequeue_wf {q : Queue} {n : Nat} {q' : Queue} (hw : WFx q)
    (h : amo_dequeue q = DeqResult.got n q') : WFx q' := by
  cases hx : getNxt q q.head with
  | none =>
    simp only [amo_dequeue, hx] at h
    cases h
  | some nx =>
    simp only [amo_dequeue, hx] at h
    cases h
    obtain ⟨hc, hh, l, hch, hlast⟩ := hw
    have hx' : getp q.nxt q.head = some nx := hx
    cases hch with
    | last i hni =>
      rw [hx'] at hni
      cases hni
    | cons i j m hj hcm =>
      have hj' : nx = j := Option.some.inj (hx'.symm.trans hj)
      subst hj'
      have hhm : q.head ∉ m :=
        (List.nodup_cons.mp (Chain.cons q.head nx m hx' hcm).nodup).1
      obtain ⟨m', rfl⟩ := hcm.ne_nil
      have hlast' : (nx :: m').getLast? = some q.tail := by
        rw [← List.getLast?_cons_cons (a := q.head)]
        exact hlast
      refine ⟨?_, ?_, nx :: m', ?_, ?_⟩
      · intro a b hab
        have hab' : getp (q.nxt.set q.head none) a = some b := hab
        rw [getp_set] at hab'
        show b < (q.nxt.set q.head none).length
        rw [List.length_set]
        split at hab'
        · cases hab'
        · exact hc a b hab'
      · show nx < (q.nxt.set q.head none).length
        rw [List.length_set]
        exact hc _ _ hx
      · show Chain (q.nxt.set q.head none) nx (nx :: m')
        refine hcm.congr fun a ha => ?_
        rw [getp_set, if_neg (show ¬(q.head = a ∧ q.head < q.nxt.length) from
          fun hcond => hhm (by rw [hcond.1]; exact ha))]
      · exact hlast'

theorem lrwait_dequeue_wf {q : Queue} {n : Nat} {q' : Queue} (hw : WFx q)
    (h : lrwait_dequeue q = DeqResult.got n q') : WFx q' :=
  amo_dequeue_wf hw (by rw [← lrwait_dequeue_eq_amo]; exact h)

end Lf

/-- The freshly initialized blocking queue is well-formed. -/
theorem Blocking.initQueue_wf : Blocking.WF Blocking.initQueue := by
  refine ⟨?_, by decide, [0], Chain.last 0 rfl, rfl⟩
  intro a b h
  rcases a with _ | a
  · have h' : (none : Option Nat) = some b := h
    cases h'
  · rw [getp_oob (Nat.le_add_left 1 a)] at h
    cases h

/-- `enqueue` on the blocking queue preserves well-formedness. -/
theorem Blocking.enqueue_wf {q : Blocking.Queue} (v : Int)
    (hw : Blocking.WF q) : Blocking.WF (Blocking.enqueue q v) := by
  obtain ⟨hc, hh, l, hch, hlast⟩ := hw
  have htl := mem_of_getLast?_eq hlast
  have hbound := hch.mem_bound hc hh
  have htb : q.tail < q.nxt.length := hbound _ htl
  have hg := Lf.getp_link q.nxt q.tail htb
  refine ⟨?_, ?_, l ++ [q.nxt.length], ?_, ?_⟩
  · intro a b hab
    have hab' : getp ((q.nxt ++ [none]).set q.tail (some q.nxt.length)) a =
        some b := hab
    rw [hg] at hab'
    show b < ((q.nxt ++ [none]).set q.tail (some q.nxt.length)).length
    rw [List.length_set, List.length_append, List.length_singleton]
    split at hab'
    · cases hab'; omega
    · split at hab'
      · cases hab'
      · have := hc a b hab'; omega
  · show q.head < ((q.nxt ++ [none]).set q.tail (some q.nxt.length)).length
    rw [List.length_set, List.length_append, List.length_singleton]
    omega
  · show Chain ((q.nxt ++ [none]).set q.tail (some q.nxt.length)) q.head _
    refine hch.snoc hlast (fun a ha hane => ?_) ?_ ?_
    · rw [hg, if_neg hane, if_neg (by have := hbound a ha; omega)]
    · rw [hg, if_pos rfl]
    · rw [hg, if_neg (by omega), if_pos rfl]
  · rw [List.getLast?_concat]
    rfl

/-- `dequeue` on the blocking queue preserves well-formedness. -/
theorem Blocking.dequeue_wf {q : Blocking.Queue} (hw : Blocking.WF q) :
    Blocking.WF (Blocking.dequeue q).2 := by
  cases hx : getp q.nxt q.head with
  | none =>
    simp only [Blocking.dequeue, hx]
    exact hw
  | some nh =>
    simp only [Blocking.dequeue, hx]
    obtain ⟨hc, hh, l, hch, hlast⟩ := hw
    cases hch with
    | last i hni => rw [hx] at hni; cases hni
    | cons i j m hj hcm =>
      have hj' : nh = j := Option.some.inj (hx.symm.trans hj)
      subst hj'
      obtain ⟨m', rfl⟩ := hcm.ne_nil
      have hlast' : (nh :: m').getLast? = some q.tail := by
        rw [← List.getLast?_cons_cons (a := q.head)]
        exact hlast
      exact ⟨hc, hc _ _ hj, nh :: m', hcm, hlast'⟩

/-- C4: on every well-formed queue state whose head node's `next` is null
(the empty queue), every dequeue variant returns its empty sentinel — `-1`
for the value-returning blocking `dequeue`, `NULL` for the node-returning
`amo_dequeue`, `lrwait_dequeue`, `cas_dequeue`, `lock_free_lrsc_dequeue` and
the non-blocking `dequeue` — without blocking or retrying, and leaves the
queue state unchanged. -/
theorem empty_dequeue_spec (qb : Blocking.Queue) (q : Lf.Queue) (fuel : Nat)
    (hqb : getp qb.nxt qb.head = none) (hw : Lf.WF q)
    (hq : Lf.getNxt q q.head = none) :
    Blocking.dequeue qb = (-1, qb) ∧
    Lf.amo_dequeue q = Lf.DeqResult.empty q ∧
    Lf.lrwait_dequeue q = Lf.DeqResult.empty q ∧
    Lf.cas_dequeue (fuel + 1) q = Lf.DeqResult.empty q ∧
    Lf.lock_free_lrsc_dequeue (fuel + 1) q = Lf.DeqResult.empty q ∧
    Lf.nb_dequeue (fuel + 1) q = Lf.DeqResult.empty q := by
  have hht := hw.head_eq_tail hq
  have hqt : Lf.getNxt q q.tail = none := by rw [← hht]; exact hq
  refine ⟨?_, ?_, ?_, ?_, ?_, ?_⟩
  · simp [Blocking.dequeue, hqb]
  · simp [Lf.amo_dequeue, hq]
  · simp [Lf.lrwait_dequeue, hq]
  · simp [Lf.cas_dequeue, hq, hht, hqt]
  · simp [Lf.lock_free_lrsc_dequeue, hq, hht, hqt]
  · simp [Lf.nb_dequeue, hq, hht, hqt]

/-- Witness for `empty_dequeue_spec` at the freshly initialized queues. -/
theorem empty_dequeue_spec_witness :
    Blocking.dequeue Blocking.initQueue = (-1, Blocking.initQueue) ∧
    Lf.cas_dequeue 1 Lf.initQueue = Lf.DeqResult.empty Lf.initQueue ∧
    Lf.lock_free_lrsc_dequeue 1 Lf.initQueue =
      Lf.DeqResult.empty Lf.initQueue := by
  have hwf : Lf.WF Lf.initQueue := by
    refine ⟨?_, by decide, [0], Chain.last 0 rfl, by decide⟩
    intro a b h
    rcases a with _ | a
    · have h' : (none : Option Nat) = some b := h
      cases h'
    · rw [getp_oob (Nat.le_add_left 1 a)] at h
      cases h
  have := empty_dequeue_spec Blocking.initQueue Lf.initQueue 0 rfl hwf rfl
  exact ⟨this.1, this.2.2.2.1, this.2.2.2.2.1⟩

/-- C5: the queue structural invariant — `head` is a valid node heading a
finite acyclic chain whose last node has null `next`, and `tail` equals or
lags behind the last node reachable from `head` — is established by the
`initialize_queue` functions (successful-allocation path) and preserved by
every enqueue and every dequeue of every variant.  For the variants whose
enqueue writes `tail->next` unconditionally (the blocking queue,
`amo_enqueue`, `lrwait_enqueue`) the preserved form is the tail-exact
strengthening `WFx` (which implies the lag-tolerant `WF`); the lock-free
variants (`cas`, `lock_free_lrsc`, non-blocking `nb`) preserve `WF` itself. -/
theorem queue_invariant_spec :
    Blocking.WF Blocking.initQueue ∧
    Lf.WFx Lf.initQueue ∧
    (∀ q : Lf.Queue, Lf.WFx q → Lf.WF q) ∧
    (∀ (qb : Blocking.Queue) (v : Int), Blocking.WF qb →
      Blocking.WF (Blocking.enqueue qb v)) ∧
    (∀ qb : Blocking.Queue, Blocking.WF qb →
      Blocking.WF (Blocking.dequeue qb).2) ∧
    (∀ (q : Lf.Queue) (v : Nat), Lf.WFx q → Lf.WFx (Lf.amo_enqueue_new q v)) ∧
    (∀ (q : Lf.Queue) (v : Nat), Lf.WFx q →
      Lf.WFx (Lf.lrwait_enqueue_new q v)) ∧
    (∀ (q : Lf.Queue) (n : Nat) (q' : Lf.Queue), Lf.WFx q →
      Lf.amo_dequeue q = Lf.DeqResult.got n q' → Lf.WFx q') ∧
    (∀ (q : Lf.Queue) (n : Nat) (q' : Lf.Queue), Lf.WFx q →
      Lf.lrwait_dequeue q = Lf.DeqResult.got n q' → Lf.WFx q') ∧
    (∀ (fuel : Nat) (q : Lf.Queue) (v : Nat) (q' : Lf.Queue), Lf.WF q →
      Lf.cas_enqueue_new fuel q v = some q' → Lf.WF q') ∧
    (∀ (fuel : Nat) (q : Lf.Queue) (v : Nat) (q' : Lf.Queue), Lf.WF q →
      Lf.lrsc_enqueue_new fuel q v = some q' → Lf.WF q') ∧
    (∀ (fuel : Nat) (q : Lf.Queue) (v : Nat) (q' : Lf.Queue), Lf.WF q →
      Lf.nb_enqueue_new fuel q v = some q' → Lf.WF q') ∧
    (∀ (fuel : Nat) (q q' : Lf.Queue), Lf.WF q →
      Lf.cas_dequeue fuel q = Lf.DeqResult.empty q' → Lf.WF q') ∧
    (∀ (fuel : Nat) (q : Lf.Queue) (n : Nat) (q' : Lf.Queue), Lf.WF q →
      Lf.cas_dequeue fuel q = Lf.DeqResult.got n q' → Lf.WF q') ∧
    (∀ (fuel : Nat) (q q' : Lf.Queue), Lf.WF q →
      Lf.lock_free_lrsc_dequeue fuel q = Lf.DeqResult.empty q' → Lf.WF q') ∧
    (∀ (fuel : Nat) (q : Lf.Queue) (n : Nat) (q' : Lf.Queue), Lf.WF q →
      Lf.lock_free_lrsc_dequeue fuel q = Lf.DeqResult.got n q' → Lf.WF q') ∧
    (∀ (fuel : Nat) (q q' : Lf.Queue), Lf.WF q →
      Lf.nb_dequeue fuel q = Lf.DeqResult.empty q' → Lf.WF q') ∧
    (∀ (fuel : Nat) (q : Lf.Queue) (n : Nat) (q' : Lf.Queue), Lf.WF q →
      Lf.nb_dequeue fuel q = Lf.DeqResult.got n q' → Lf.WF q') := by
  refine ⟨Blocking.initQueue_wf, ?_, fun q h => h.toWF,
    fun qb v h => Blocking.enqueue_wf v h, fun qb h => Blocking.dequeue_wf h,
    fun q v h => Lf.amo_enqueue_new_wf v h,
    fun q v h => Lf.lrwait_enqueue_new_wf v h,
    fun q n q' h hr => Lf.amo_dequeue_wf h hr,
    fun q n q' h hr => Lf.lrwait_dequeue_wf h hr,
    fun fuel q v q' h hr => Lf.cas_enqueue_new_wf h hr,
    fun fuel q v q' h hr => Lf.lrsc_enqueue_new_wf h hr,
    fun fuel q v q' h hr => Lf.nb_enqueue_new_wf h hr,
    fun fuel q q' h hr => (Lf.cas_dequeue_wf fuel q h).1 q' hr,
    fun fuel q n q' h hr => (Lf.cas_dequeue_wf fuel q h).2 n q' hr,
    fun fuel q q' h hr => (Lf.lrsc_dequeue_wf fuel q h).1 q' hr,
    fun fuel q n q' h hr => (Lf.lrsc_dequeue_wf fuel q h).2 n q' hr,
    fun fuel q q' h hr => (Lf.nb_dequeue_wf fuel q h).1 q' hr,
    fun fuel q n q' h hr => (Lf.nb_dequeue_wf fuel q h).2 n q' hr⟩
  refine ⟨?_, by decide, [0], Chain.last 0 rfl, rfl⟩
  intro a b h
  rcases a with _ | a
  · have h' : (none : Option Nat) = some b := h
    cases h'
  · rw [getp_oob (Nat.le_add_left 1 a)] at h
    cases h

/-- Witness for `queue_invariant_spec`: a blocking enqueue onto the fresh
queue and a `cas_enqueue` onto the fresh lock-free queue preserve the
invariant at concrete inputs. -/
theorem queue_invariant_spec_witness :
    Blocking.WF (Blocking.enqueue Blocking.initQueue 5) ∧
    Lf.WF (Lf.initQueue) := by
  constructor
  · exact queue_invariant_spec.2.2.2.1 Blocking.initQueue 5
      queue_invariant_spec.1
  · exact queue_invariant_spec.2.2.1 Lf.initQueue queue_invariant_spec.2.1

/-! ## The MCS / LRWait lock: claims C1 and C2 -/

namespace Mcs

variable {C : Type} [DecidableEq C] {par : Bool}

theorem link_split {s : State C} (inv : Inv par s) :
    s.acqOrder ++ waiters s = s.linkOrder := by
  obtain ⟨t, ht⟩ := inv.prefixAcq
  have hw : waiters s = t := by
    rw [waiters, ← ht, List.drop_left]
  rw [hw, ht]

theorem waiters_nodup {s : State C} (inv : Inv par s) :
    s.acqOrder.Nodup ∧ (waiters s).Nodup ∧
      s.acqOrder.Disjoint (waiters s) := by
  have h := inv.linkNodup
  rw [← link_split inv] at h
  exact List.nodup_append.mp h

theorem mem_waiters_iff {s : State C} (inv : Inv par s) (c : C) :
    c ∈ waiters s ↔ c ∈ s.linkOrder ∧ c ∉ s.acqOrder := by
  constructor
  · intro h
    refine ⟨by rw [← link_split inv]; exact List.mem_append_right _ h, ?_⟩
    intro hacq
    exact (waiters_nodup inv).2.2 hacq h
  · rintro ⟨hl, hna⟩
    rw [← link_split inv] at hl
    rcases List.mem_append.mp hl with h | h
    · exact absurd h hna
    · exact h

theorem waiter_pc_not_acquired {p : Pc} (hw : waiterPc p) : ¬acquiredPc p := by
  rcases hw with rfl | rfl | rfl | rfl <;> simp [acquiredPc]

theorem waiter_pc_not_start {p : Pc} (hw : waiterPc p) : p ≠ Pc.start := by
  rcases hw with rfl | rfl | rfl | rfl <;> simp

theorem waiter_mem_waiters {s : State C} (inv : Inv par s) {c : C}
    (h : waiterPc (s.pc c)) : c ∈ waiters s := by
  refine (mem_waiters_iff inv c).mpr ⟨?_, ?_⟩
  · exact (inv.memLink c).mpr (waiter_pc_not_start h)
  · intro hacq
    exact waiter_pc_not_acquired h ((inv.memAcq c).mp hacq)

theorem acq_mem_of_mid {s : State C} (inv : Inv par s) {c : C}
    (h : midRel (s.pc c)) : c ∈ s.acqOrder :=
  (inv.memAcq c).mpr h.1

/-- The owner is unique: two mid-release cores coincide. -/
theorem mid_unique {s : State C} (inv : Inv par s) {c d : C}
    (hc : midRel (s.pc c)) (hd : midRel (s.pc d)) : c = d := by
  have h1 := inv.owner c hc
  have h2 := inv.owner d hd
  rw [h1] at h2
  injection h2

theorem WChain.congr_pc {s s' : State C} {a : C} {ws : List C} (h : WChain s a ws)
    (hpc : ∀ w ∈ ws, waiterPc (s'.pc w) ∧
      (published (s'.pc w) ↔ published (s.pc w)))
    (hprev : ∀ w ∈ ws, s'.prev w = s.prev w)
    (hnxt : ∀ x ∈ a :: ws, s'.nxt x = s.nxt x) :
    WChain s' a ws := by
  induction h with
  | nil a hn => exact WChain.nil a ((hnxt a (by simp)).trans hn)
  | cons a w ws hw hp hpub hunpub hch ih =>
    refine WChain.cons a w ws (hpc w (by simp)).1
      ((hprev w (by simp)).trans hp) ?_ ?_
      (ih (fun w' hw' => hpc w' (by simp [hw']))
        (fun w' hw' => hprev w' (by simp [hw']))
        (fun x hx => hnxt x (List.mem_cons_of_mem _ hx)))
    · intro hb
      exact (hnxt a (by simp)).trans (hpub ((hpc w (by simp)).2.mp hb))
    · intro hb
      exact (hnxt a (by simp)).trans
        (hunpub fun hb2 => hb ((hpc w (by simp)).2.mpr hb2))

theorem WChain.waiter_of_mem {s : State C} {a w : C} {ws : List C}
    (h : WChain s a ws) (hw : w ∈ ws) : waiterPc (s.pc w) := by
  induction h with
  | nil a hn => cases hw
  | cons a w' ws hw' hp hpub hunpub hch ih =>
    rcases List.mem_cons.mp hw with rfl | hmem
    · exact hw'
    · exact ih hmem

theorem WChain.congr_eq {s s' : State C} {a : C} {ws : List C}
    (h : WChain s a ws)
    (hpc : ∀ w ∈ ws, s'.pc w = s.pc w)
    (hprev : ∀ w ∈ ws, s'.prev w = s.prev w)
    (hnxt : ∀ x ∈ a :: ws, s'.nxt x = s.nxt x) :
    WChain s' a ws :=
  h.congr_pc
    (fun w hw => by rw [hpc w hw]; exact ⟨h.waiter_of_mem hw, Iff.rfl⟩)
    hprev hnxt

/-- A freshly linked (unpublished) core extends the wait chain at the end. -/
theorem WChain.append_waiter {s s' : State C} {a c : C} {ws : List C}
    (h : WChain s a ws)
    (hpcs : ∀ w ∈ ws, s'.pc w = s.pc w)
    (hprev : ∀ w ∈ ws, s'.prev w = s.prev w)
    (hnxt : ∀ x ∈ a :: ws, s'.nxt x = s.nxt x)
    (hcw : waiterPc (s'.pc c)) (hcp : ¬published (s'.pc c))
    (hcn : s'.nxt c = none)
    (hcprev : s'.prev c = (a :: ws).getLast?) :
    WChain s' a (ws ++ [c]) := by
  induction h with
  | nil a hn =>
    refine WChain.cons a c [] hcw ?_ (fun hb => absurd hb hcp)
      (fun _ => (hnxt a (by simp)).trans hn) (WChain.nil c hcn)
    rw [hcprev]
    simp
  | cons a w ws hw hp hpub hunpub hch ih =>
    have hpcw : s'.pc w = s.pc w := hpcs w (by simp)
    refine WChain.cons a w (ws ++ [c]) (by rw [hpcw]; exact hw)
      ((hprev w (by simp)).trans hp) ?_ ?_ ?_
    · intro hb
      rw [hpcw] at hb
      exact (hnxt a (by simp)).trans (hpub hb)
    · intro hb
      rw [hpcw] at hb
      exact (hnxt a (by simp)).trans (hunpub hb)
    · refine ih (fun w' hw' => hpcs w' (by simp [hw']))
        (fun w' hw' => hprev w' (by simp [hw']))
        (fun x hx => hnxt x (List.mem_cons_of_mem _ hx)) ?_
      rw [hcprev]
      cases ws with
      | nil => simp
      | cons w2 ws2 => rw [List.getLast?_cons_cons]

theorem WChain.prev_edge {s : State C} {a c : C} {ws : List C}
    (h : WChain s a ws) (hc : c ∈ ws) {p : C} (hp : s.prev c = some p) :
    (published (s.pc c) → s.nxt p = some c) ∧
      (¬published (s.pc c) → s.nxt p = none) := by
  induction h with
  | nil a hn => cases hc
  | cons a w ws hw hpr hpub hunpub hch ih =>
    rcases List.mem_cons.mp hc with rfl | hc'
    · have hpa : p = a := Option.some.inj (hp.symm.trans hpr)
      subst hpa
      exact ⟨hpub, hunpub⟩
    · exact ih hc'

/-- The predecessor register of any waiter points into the chain. -/
theorem WChain.prev_mem {s : State C} {a c p : C} {ws : List C}
    (h : WChain s a ws) (hc : c ∈ ws) (hp : s.prev c = some p) :
    p ∈ a :: ws := by
  induction h with
  | nil a hn => cases hc
  | cons a w ws hw hpr hpub hunpub hch ih =>
    rcases List.mem_cons.mp hc with rfl | hc'
    · rw [hp] at hpr
      injection hpr with hpr
      simp [hpr]
    · exact List.mem_cons_of_mem _ (ih hc')

/-- Publishing a waiter (linking it into its predecessor's `next`) preserves
the wait chain. -/
theorem WChain.publish_upd {s s' : State C} {a c p : C} {ws : List C} {q : Pc}
    (h : WChain s a ws) (hc : c ∈ ws) (hprevc : s.prev c = some p)
    (hnd : (a :: ws).Nodup) (hq : published q)
    (hqw : waiterPc q)
    (hs'nxt : s'.nxt = Function.update s.nxt p (some c))
    (hs'pc : s'.pc = Function.update s.pc c q)
    (hs'prev : s'.prev = s.prev) :
    WChain s' a ws := by
  induction h with
  | nil a hn => cases hc
  | cons a w ws hw hpr hpub hunpub hch ih =>
    have hnotmem : a ∉ w :: ws := (List.nodup_cons.mp hnd).1
    have hndtail : (w :: ws).Nodup := (List.nodup_cons.mp hnd).2
    rcases List.mem_cons.mp hc with rfl | hc'
    · -- the published waiter heads this link
      have hpa : p = a := Option.some.inj (hprevc.symm.trans hpr)
      subst hpa
      have hwc : c ∉ ws := (List.nodup_cons.mp hndtail).1
      refine WChain.cons p c ws ?_ ?_ ?_ ?_ ?_
      · rw [hs'pc, Function.update_same]
        exact hqw
      · rw [hs'prev]
        exact hpr
      · intro _
        rw [hs'nxt, Function.update_same]
      · intro hb
        rw [hs'pc, Function.update_same] at hb
        exact absurd hq hb
      · refine hch.congr_eq (fun w' hw' => ?_) (fun w' hw' => ?_)
          (fun x hx => ?_)
        · have hne : w' ≠ c := by
            intro he
            rw [he] at hw'
            exact hwc hw'
          rw [hs'pc, Function.update_noteq hne]
        · rw [hs'prev]
        · have hne : x ≠ p := by
            intro he
            rw [he] at hx
            exact hnotmem hx
          rw [hs'nxt, Function.update_noteq hne]
    · -- the published waiter is deeper in the chain
      have hwc : w ≠ c := fun he => (List.nodup_cons.mp hndtail).1 (he ▸ hc')
      have hpmem : p ∈ w :: ws := hch.prev_mem hc' hprevc
      have hpa : a ≠ p := fun he => hnotmem (he ▸ hpmem)
      refine WChain.cons a w ws ?_ ?_ ?_ ?_ (ih hc' hndtail)
      · rw [hs'pc, Function.update_noteq hwc]
        exact hw
      · rw [hs'prev]
        exact hpr
      · intro hb
        rw [hs'pc, Function.update_noteq hwc] at hb
        rw [hs'nxt, Function.update_noteq hpa]
        exact hpub hb
      · intro hb
        rw [hs'pc, Function.update_noteq hwc] at hb
        rw [hs'nxt, Function.update_noteq hpa]
        exact hunpub hb

/-! Step equations: the successor state of each atomic action, by program
counter and branch condition. -/

theorem step_start_none {s : State C} {c : C} (hpc : s.pc c = Pc.start)
    (ht : s.tail = none) :
    step par s c =
      { s with
        nxt := Function.update s.nxt c none
        locked := if par then s.locked else Function.update s.locked c false
        tail := some c
        prev := Function.update s.prev c none
        linkOrder := s.linkOrder ++ [c]
        pc := Function.update s.pc c Pc.relCheck
        acqOrder := s.acqOrder ++ [c] } := by
  simp [step, hpc, ht]

theorem step_start_some {s : State C} {c t : C} (hpc : s.pc c = Pc.start)
    (ht : s.tail = some t) :
    step par s c =
      { s with
        nxt := Function.update s.nxt c none
        locked := if par then s.locked else Function.update s.locked c false
        tail := some c
        prev := Function.update s.prev c (some t)
        linkOrder := s.linkOrder ++ [c]
        pc := Function.update s.pc c
          (if par then Pc.publish else Pc.setLocked) } := by
  simp [step, hpc, ht]

theorem step_setLocked {s : State C} {c : C} (hpc : s.pc c = Pc.setLocked) :
    step par s c =
      { s with
        locked := Function.update s.locked c true
        pc := Function.update s.pc c Pc.publish } := by
  simp [step, hpc]

theorem step_publish_some {s : State C} {c p : C} (hpc : s.pc c = Pc.publish)
    (hprev : s.prev c = some p) :
    step par s c =
      { s with
        nxt := Function.update s.nxt p (some c)
        pc := Function.update s.pc c (if par then Pc.wfi else Pc.spin) } := by
  simp [step, hpc, hprev]

theorem step_publish_none {s : State C} {c : C} (hpc : s.pc c = Pc.publish)
    (hprev : s.prev c = none) : step par s c = s := by
  simp [step, hpc, hprev]

theorem step_spin_poll {s : State C} {c : C} (hpc : s.pc c = Pc.spin)
    (hl : s.locked c = true) : step par s c = s := by
  simp only [step, hpc, hl, if_true]
  rw [← hl, Function.update_eq_self]

theorem step_spin_acq {s : State C} {c : C} (hpc : s.pc c = Pc.spin)
    (hl : s.locked c = false) :
    step par s c =
      { s with
        locked := Function.update s.locked c true
        pc := Function.update s.pc c Pc.relCheck
        acqOrder := s.acqOrder ++ [c] } := by
  simp [step, hpc, hl]

theorem step_wfi_poll {s : State C} {c : C} (hpc : s.pc c = Pc.wfi)
    (hw : s.woken c = false) : step par s c = s := by
  simp [step, hpc, hw]

theorem step_wfi_acq {s : State C} {c : C} (hpc : s.pc c = Pc.wfi)
    (hw : s.woken c = true) :
    step par s c =
      { s with
        pc := Function.update s.pc c Pc.relCheck
        acqOrder := s.acqOrder ++ [c] } := by
  simp [step, hpc, hw]

theorem step_relCheck_none {s : State C} {c : C} (hpc : s.pc c = Pc.relCheck)
    (hn : s.nxt c = none) :
    step par s c = { s with pc := Function.update s.pc c Pc.retract } := by
  simp [step, hpc, hn]

theorem step_relCheck_some {s : State C} {c nx : C} (hpc : s.pc c = Pc.relCheck)
    (hn : s.nxt c = some nx) :
    step par s c = { s with pc := Function.update s.pc c Pc.wakeRead } := by
  simp [step, hpc, hn]

theorem step_retract_done {s : State C} {c : C} (hpc : s.pc c = Pc.retract)
    (ht : s.tail = some c) :
    step par s c =
      { s with
        tail := none
        oldt := Function.update s.oldt c (some c)
        pc := Function.update s.pc c Pc.done } := by
  simp [step, hpc, ht]

theorem step_retract_rein {s : State C} {c : C} (hpc : s.pc c = Pc.retract)
    (ht : s.tail ≠ some c) :
    step par s c =
      { s with
        tail := none
        oldt := Function.update s.oldt c s.tail
        pc := Function.update s.pc c Pc.reinstate } := by
  simp [step, hpc, ht]

theorem step_reinstate {s : State C} {c : C} (hpc : s.pc c = Pc.reinstate) :
    step par s c =
      { s with
        tail := s.oldt c
        usur := Function.update s.usur c s.tail
        pc := Function.update s.pc c Pc.waitSucc } := by
  simp [step, hpc]

theorem step_waitSucc_none {s : State C} {c : C} (hpc : s.pc c = Pc.waitSucc)
    (hn : s.nxt c = none) : step par s c = s := by
  simp [step, hpc, hn]

theorem step_waitSucc_wake {s : State C} {c nx : C} (hpc : s.pc c = Pc.waitSucc)
    (hn : s.nxt c = some nx) (hu : s.usur c = none) :
    step par s c = { s with pc := Function.update s.pc c Pc.wakeRead } := by
  simp [step, hpc, hn, hu]

theorem step_wakeRead {s : State C} {c : C} (hpc : s.pc c = Pc.wakeRead) :
    step par s c =
      { s with
        succ := Function.update s.succ c (s.nxt c)
        pc := Function.update s.pc c Pc.wakeWrite } := by
  simp [step, hpc]

theorem step_wakeWrite_par {s : State C} {c w : C}
    (hpc : s.pc c = Pc.wakeWrite) (hsucc : s.succ c = some w) :
    step true s c =
      { s with
        woken := Function.update s.woken w true
        pc := Function.update s.pc c Pc.done } := by
  simp [step, hpc, hsucc]

theorem step_wakeWrite_nopar {s : State C} {c w : C}
    (hpc : s.pc c = Pc.wakeWrite) (hsucc : s.succ c = some w) :
    step false s c =
      { s with
        locked := Function.update s.locked w false
        pc := Function.update s.pc c Pc.done } := by
  simp [step, hpc, hsucc]

theorem step_wakeWrite_none {s : State C} {c : C}
    (hpc : s.pc c = Pc.wakeWrite) (hsucc : s.succ c = none) :
    step par s c = s := by
  simp [step, hpc, hsucc]

theorem step_done {s : State C} {c : C} (hpc : s.pc c = Pc.done) :
    step par s c = s := by
  simp [step, hpc]

/-! Further consequences of the invariant used in the preservation proof. -/

theorem no_reinstate_of_mid {s : State C} (inv : Inv par s) {c : C}
    (hmid : midRel (s.pc c)) (hne : s.pc c ≠ Pc.reinstate) :
    ∀ d, s.pc d ≠ Pc.reinstate := by
  intro d hd
  have hdm : midRel (s.pc d) := by
    rw [hd]; decide
  have he := mid_unique inv hdm hmid
  rw [he] at hd
  exact hne hd

theorem only_owner_mid {s : State C} (inv : Inv par s) {c : C}
    (hmid : midRel (s.pc c)) : ∀ d, d ≠ c → ¬midRel (s.pc d) :=
  fun _ hne hd => hne (mid_unique inv hd hmid)

theorem chain_of_owner {s : State C} (inv : Inv par s) {a : C}
    (ha : s.acqOrder.getLast? = some a) : WChain s a (waiters s) := by
  have h := inv.chainInv
  rw [ha] at h
  exact h

theorem link_nil_of_no_acq {s : State C} (inv : Inv par s)
    (ha : s.acqOrder.getLast? = none) : s.linkOrder = [] := by
  have h := inv.chainInv
  rw [ha] at h
  exact h

theorem nodup_owner_waiters {s : State C} (inv : Inv par s) {a : C}
    (ha : s.acqOrder.getLast? = some a) : (a :: waiters s).Nodup := by
  have hmem := mem_of_getLast?_eq ha
  obtain ⟨hna, hnw, hdisj⟩ := waiters_nodup inv
  exact List.nodup_cons.mpr ⟨fun hmemw => hdisj hmem hmemw, hnw⟩

theorem owner_not_waiter {s : State C} (inv : Inv par s) {a : C}
    (ha : a ∈ s.acqOrder) : a ∉ waiters s :=
  fun hw => (waiters_nodup inv).2.2 ha hw

theorem acq_last_mid {s : State C} (inv : Inv par s) {c : C}
    (hmid : midRel (s.pc c)) : s.acqOrder.getLast? = some c :=
  inv.owner c hmid

theorem waiters_congr {s s' : State C} (hlo : s'.linkOrder = s.linkOrder)
    (hao : s'.acqOrder = s.acqOrder) : waiters s' = waiters s := by
  unfold waiters
  rw [hlo, hao]

theorem expectedTail_congr {s s' : State C}
    (hlo : s'.linkOrder = s.linkOrder) (hao : s'.acqOrder = s.acqOrder)
    (hpc : ∀ a, s.acqOrder.getLast? = some a → s'.pc a = s.pc a) :
    expectedTail s' = expectedTail s := by
  unfold expectedTail waiters
  rw [hlo, hao]
  rcases hw : (s.linkOrder.drop s.acqOrder.length).getLast? with _ | w
  · rcases hg : s.acqOrder.getLast? with _ | a
    · rfl
    · show (if s'.pc a = Pc.done then none else some a) =
        (if s.pc a = Pc.done then none else some a)
      rw [hpc a hg]
  · rfl

theorem expectedTail_of_waiters {s : State C} {w : C}
    (h : (waiters s).getLast? = some w) : expectedTail s = some w := by
  unfold expectedTail
  rw [h]

theorem expectedTail_no_waiters_done {s : State C} {a : C}
    (h : (waiters s).getLast? = none) (hg : s.acqOrder.getLast? = some a)
    (hd : s.pc a = Pc.done) : expectedTail s = none := by
  unfold expectedTail
  rw [h, hg]
  show (if s.pc a = Pc.done then none else some a) = none
  rw [if_pos hd]

theorem expectedTail_no_waiters_live {s : State C} {a : C}
    (h : (waiters s).getLast? = none) (hg : s.acqOrder.getLast? = some a)
    (hd : s.pc a ≠ Pc.done) : expectedTail s = some a := by
  unfold expectedTail
  rw [h, hg]
  show (if s.pc a = Pc.done then none else some a) = some a
  rw [if_neg hd]

theorem expectedTail_empty {s : State C} (h : (waiters s).getLast? = none)
    (hg : s.acqOrder.getLast? = none) : expectedTail s = none := by
  unfold expectedTail
  rw [h, hg]

theorem exists_getLast?_cons {α : Type} (x : α) (l : List α) :
    ∃ y, (x :: l).getLast? = some y := by
  induction l generalizing x with
  | nil => exact ⟨x, rfl⟩
  | cons z t ih =>
    obtain ⟨y, hy⟩ := ih z
    exact ⟨y, by rw [List.getLast?_cons_cons]; exact hy⟩

theorem expectedTail_congr_iff {s s' : State C}
    (hlo : s'.linkOrder = s.linkOrder) (hao : s'.acqOrder = s.acqOrder)
    (hpc : ∀ a, s.acqOrder.getLast? = some a →
      (s'.pc a = Pc.done ↔ s.pc a = Pc.done)) :
    expectedTail s' = expectedTail s := by
  unfold expectedTail waiters
  rw [hlo, hao]
  rcases hw : (s.linkOrder.drop s.acqOrder.length).getLast? with _ | w
  · rcases hg : s.acqOrder.getLast? with _ | a
    · rfl
    · show (if s'.pc a = Pc.done then none else some a) =
        (if s.pc a = Pc.done then none else some a)
      rcases eq_or_ne (s.pc a) Pc.done with hd | hd
      · rw [if_pos hd, if_pos ((hpc a hg).mpr hd)]
      · rw [if_neg hd, if_neg (fun h => hd ((hpc a hg).mp h))]
  · rfl

theorem sig_false_eq (s : State C) (c : C) : sig false s c = !(s.locked c) :=
  rfl

theorem sig_true_eq (s : State C) (c : C) : sig true s c = s.woken c := rfl

theorem sig_eq_of {s s' : State C} {d : C} (hwk : s'.woken d = s.woken d)
    (hlk : s'.locked d = s.locked d) (par : Bool) :
    sig par s' d = sig par s d := by
  unfold sig
  rw [hwk, hlk]

/-- Preservation of the invariant by `node->locked = 1` of `lock_mcs`
(mcs_mutex.h line 49). -/
theorem invStep_setLocked {s s' : State C} (inv : Inv par s) {c : C}
    (hpc : s.pc c = Pc.setLocked)
    (htl : s'.tail = s.tail) (hnx : s'.nxt = s.nxt)
    (hlk : s'.locked = Function.update s.locked c true)
    (hwk : s'.woken = s.woken)
    (hpcs : s'.pc = Function.update s.pc c Pc.publish)
    (hpv : s'.prev = s.prev) (hod : s'.oldt = s.oldt)
    (hus : s'.usur = s.usur) (hsc : s'.succ = s.succ)
    (hlo : s'.linkOrder = s.linkOrder) (hao : s'.acqOrder = s.acqOrder) :
    Inv par s' := by
  have hpar : par = false := by
    cases par
    · rfl
    · exact absurd hpc ((inv.variantPc c).1 rfl).1
  have hw : waiterPc (s.pc c) := by rw [hpc]; decide
  have hcw : c ∈ waiters s := waiter_mem_waiters inv hw
  have hcna : c ∉ s.acqOrder := ((mem_waiters_iff inv c).mp hcw).2
  have hwaiters : waiters s' = waiters s := waiters_congr hlo hao
  have hpcne : ∀ d, d ≠ c → s'.pc d = s.pc d := fun d hd => by
    rw [hpcs, Function.update_noteq hd]
  have hpcc : s'.pc c = Pc.publish := by rw [hpcs, Function.update_same]
  have hacne : ∀ a, s.acqOrder.getLast? = some a → a ≠ c := fun a hga he =>
    hcna (by rw [← he]; exact mem_of_getLast?_eq hga)
  refine
    { prefixAcq := ?_, linkNodup := ?_, memLink := ?_, memAcq := ?_,
      owner := ?_, noPatch := ?_, usurNone := ?_, chainInv := ?_,
      tailReinstate := ?_, tailSpec := ?_, ownerNoWait := ?_, oldtSpec := ?_,
      succSpec := ?_, wakeReadNxt := ?_, sigTail := ?_, sigHead := ?_,
      variantPc := ?_, publishSig := ?_, startSig := ?_ }
  · rw [hao, hlo]; exact inv.prefixAcq
  · rw [hlo]; exact inv.linkNodup
  · intro d
    rw [hlo]
    rcases eq_or_ne d c with rfl | hdc
    · rw [hpcc]
      constructor
      · intro _; decide
      · intro _
        exact (inv.memLink d).mpr (by rw [hpc]; decide)
    · rw [hpcne d hdc]; exact inv.memLink d
  · intro d
    rw [hao]
    rcases eq_or_ne d c with rfl | hdc
    · rw [hpcc]
      constructor
      · intro h; exact absurd h hcna
      · intro h; exact absurd h (by decide)
    · rw [hpcne d hdc]; exact inv.memAcq d
  · intro d hd
    rw [hao]
    rcases eq_or_ne d c with rfl | hdc
    · rw [hpcc] at hd; exact absurd hd (by decide)
    · rw [hpcne d hdc] at hd; exact inv.owner d hd
  · intro d
    rcases eq_or_ne d c with rfl | hdc
    · rw [hpcc]; exact ⟨by decide, by decide⟩
    · rw [hpcne d hdc]; exact inv.noPatch d
  · intro d hd
    rw [hus]
    rcases eq_or_ne d c with rfl | hdc
    · rw [hpcc] at hd; exact absurd hd (by decide)
    · rw [hpcne d hdc] at hd; exact inv.usurNone d hd
  · rw [hao, hwaiters, hlo]
    rcases ha : s.acqOrder.getLast? with _ | a
    · exact link_nil_of_no_acq inv ha
    · refine (chain_of_owner inv ha).congr_pc (fun w hw2 => ?_)
        (fun w hw2 => by rw [hpv]) (fun x hx => by rw [hnx])
      rcases eq_or_ne w c with rfl | hwc
      · rw [hpcc]
        refine ⟨by decide, ?_⟩
        rw [hpc]
        exact iff_of_false (by decide) (by decide)
      · rw [hpcne w hwc]
        exact ⟨(chain_of_owner inv ha).waiter_of_mem hw2, Iff.rfl⟩
  · intro d hd
    rw [htl]
    rcases eq_or_ne d c with rfl | hdc
    · rw [hpcc] at hd; exact absurd hd (by decide)
    · rw [hpcne d hdc] at hd; exact inv.tailReinstate d hd
  · intro hall
    have hall' : ∀ d, s.pc d ≠ Pc.reinstate := by
      intro d hd
      rcases eq_or_ne d c with rfl | hdc
      · rw [hpc] at hd; exact absurd hd (by decide)
      · exact hall d (by rw [hpcne d hdc]; exact hd)
    rw [htl, inv.tailSpec hall']
    exact (expectedTail_congr hlo hao (fun a hga => hpcne a (hacne a hga))).symm
  · intro a hga hwnil
    rw [hwaiters] at hwnil
    rw [hwnil] at hcw
    exact absurd hcw (List.not_mem_nil c)
  · intro d hd
    rcases eq_or_ne d c with rfl | hdc
    · rw [hpcc] at hd; exact absurd hd (by decide)
    · rw [hpcne d hdc] at hd
      rw [hod, hwaiters]
      exact inv.oldtSpec d hd
  · intro d hd
    rcases eq_or_ne d c with rfl | hdc
    · rw [hpcc] at hd; exact absurd hd (by decide)
    · rw [hpcne d hdc] at hd
      obtain ⟨w1, ws, hw1, hsucc1, hpub1⟩ := inv.succSpec d hd
      refine ⟨w1, ws, by rw [hwaiters, hw1], by rw [hsc, hsucc1], ?_⟩
      rcases eq_or_ne w1 c with rfl | hw1c
      · rw [hpc] at hpub1; exact absurd hpub1 (by decide)
      · rw [hpcne w1 hw1c]; exact hpub1
  · intro d hd
    rcases eq_or_ne d c with rfl | hdc
    · rw [hpcc] at hd; exact absurd hd (by decide)
    · rw [hpcne d hdc] at hd
      obtain ⟨w, hw2⟩ := inv.wakeReadNxt d hd
      exact ⟨w, by rw [hnx]; exact hw2⟩
  · intro w1 ws hw1 w hwmem hpubw
    rw [hwaiters] at hw1
    rcases eq_or_ne w c with rfl | hwc
    · rw [hpar, sig_false_eq, hlk, Function.update_same]
      rfl
    · have hsg : sig par s' w = sig par s w :=
        sig_eq_of (by rw [hwk]) (by rw [hlk, Function.update_noteq hwc]) par
      rw [hsg]
      have hpubw' : published (s.pc w) := by
        rw [← hpcne w hwc]; exact hpubw
      exact inv.sigTail w1 ws hw1 w hwmem hpubw'
  · intro w1 ws hw1 hpub1 hsig1 d
    rw [hwaiters] at hw1
    rcases eq_or_ne w1 c with rfl | hw1c
    · rw [hpcc] at hpub1; exact absurd hpub1 (by decide)
    · have hpub1' : published (s.pc w1) := by
        rw [← hpcne w1 hw1c]; exact hpub1
      have hsg : sig par s' w1 = sig par s w1 :=
        sig_eq_of (by rw [hwk]) (by rw [hlk, Function.update_noteq hw1c]) par
      have hsig1' : sig par s w1 = true := by rw [← hsg]; exact hsig1
      have hall := inv.sigHead w1 ws hw1 hpub1' hsig1'
      rcases eq_or_ne d c with rfl | hdc
      · rw [hpcc]; decide
      · rw [hpcne d hdc]; exact hall d
  · intro d
    rcases eq_or_ne d c with rfl | hdc
    · rw [hpcc]
      exact ⟨fun _ => ⟨by decide, by decide⟩, fun _ => by decide⟩
    · rw [hpcne d hdc]; exact inv.variantPc d
  · intro d hd
    rcases eq_or_ne d c with rfl | hdc
    · rw [hpar, sig_false_eq, hlk, Function.update_same]; rfl
    · rw [hpcne d hdc] at hd
      have hsg : sig par s' d = sig par s d :=
        sig_eq_of (by rw [hwk]) (by rw [hlk, Function.update_noteq hdc]) par
      rw [hsg]
      exact inv.publishSig d hd
  · intro hp d hd
    rw [hwk]
    rcases eq_or_ne d c with rfl | hdc
    · rw [hpcc] at hd; exact absurd hd (by decide)
    · rw [hpcne d hdc] at hd
      exact inv.startSig hp d hd

/-- Preservation of the invariant by the tail swap of an acquire that finds
the lock free (`amo_swap(&(lock->next), node)` returning NULL, mcs_mutex.h
lines 42-47 / 107-110): the core acquires immediately.  The step must be
usurper-free: no core is mid-reinstate. -/
theorem invStep_start_none {s s' : State C} (inv : Inv par s) {c : C}
    (hpc : s.pc c = Pc.start) (hok : ∀ d, s.pc d ≠ Pc.reinstate)
    (ht : s.tail = none)
    (htl : s'.tail = some c)
    (hnx : s'.nxt = Function.update s.nxt c none)
    (hlkne : ∀ d, d ≠ c → s'.locked d = s.locked d)
    (hwk : s'.woken = s.woken)
    (hpcs : s'.pc = Function.update s.pc c Pc.relCheck)
    (hpv : s'.prev = Function.update s.prev c none)
    (hod : s'.oldt = s.oldt) (hus : s'.usur = s.usur) (hsc : s'.succ = s.succ)
    (hlo : s'.linkOrder = s.linkOrder ++ [c])
    (hao : s'.acqOrder = s.acqOrder ++ [c]) :
    Inv par s' := by
  have hexp : expectedTail s = none := by rw [← inv.tailSpec hok]; exact ht
  have hwl : (waiters s).getLast? = none := by
    rcases hwl : (waiters s).getLast? with _ | w
    · rfl
    · rw [expectedTail_of_waiters hwl] at hexp
      exact Option.noConfusion hexp
  have hwnil : waiters s = [] := by
    cases hwx : waiters s with
    | nil => rfl
    | cons w2 t2 =>
      obtain ⟨y, hy⟩ := exists_getLast?_cons w2 t2
      rw [hwx, hy] at hwl
      exact Option.noConfusion hwl
  have hla : s.linkOrder = s.acqOrder := by
    rw [← link_split inv, hwnil, List.append_nil]
  have hcl : c ∉ s.linkOrder := fun h => ((inv.memLink c).mp h) hpc
  have hca : c ∉ s.acqOrder := fun h => hcl (by rw [hla]; exact h)
  have hnomid : ∀ d, ¬midRel (s.pc d) := by
    intro d hd
    have h2 : expectedTail s = some d :=
      expectedTail_no_waiters_live hwl (inv.owner d hd) hd.2
    rw [h2] at hexp
    exact Option.noConfusion hexp
  have hwaiters : waiters s' = [] := by
    unfold waiters
    rw [hlo, hao, hla]
    exact List.drop_eq_nil_of_le (Nat.le_refl _)
  have hpcne : ∀ d, d ≠ c → s'.pc d = s.pc d := fun d hd => by
    rw [hpcs, Function.update_noteq hd]
  have hpcc : s'.pc c = Pc.relCheck := by rw [hpcs, Function.update_same]
  have hgc : s'.acqOrder.getLast? = some c := by
    rw [hao, List.getLast?_concat]
  refine
    { prefixAcq := ?_, linkNodup := ?_, memLink := ?_, memAcq := ?_,
      owner := ?_, noPatch := ?_, usurNone := ?_, chainInv := ?_,
      tailReinstate := ?_, tailSpec := ?_, ownerNoWait := ?_, oldtSpec := ?_,
      succSpec := ?_, wakeReadNxt := ?_, sigTail := ?_, sigHead := ?_,
      variantPc := ?_, publishSig := ?_, startSig := ?_ }
  · refine ⟨[], ?_⟩
    rw [hao, hlo, hla]
    simp
  · rw [hlo]
    refine List.nodup_append.mpr ⟨inv.linkNodup, List.nodup_singleton c, ?_⟩
    intro x hx hxc
    exact hcl (by rw [← List.mem_singleton.mp hxc]; exact hx)
  · intro d
    rw [hlo]
    rcases eq_or_ne d c with rfl | hdc
    · rw [hpcc]
      constructor
      · intro _; decide
      · intro _; simp
    · rw [hpcne d hdc]
      constructor
      · intro h
        rcases List.mem_append.mp h with h | h
        · exact (inv.memLink d).mp h
        · exact absurd (List.mem_singleton.mp h) hdc
      · intro h
        exact List.mem_append_left _ ((inv.memLink d).mpr h)
  · intro d
    rw [hao]
    rcases eq_or_ne d c with rfl | hdc
    · rw [hpcc]
      constructor
      · intro _; decide
      · intro _; simp
    · rw [hpcne d hdc]
      constructor
      · intro h
        rcases List.mem_append.mp h with h | h
        · exact (inv.memAcq d).mp h
        · exact absurd (List.mem_singleton.mp h) hdc
      · intro h
        exact List.mem_append_left _ ((inv.memAcq d).mpr h)
  · intro d hd
    rw [hao, List.getLast?_concat]
    rcases eq_or_ne d c with rfl | hdc
    · rfl
    · rw [hpcne d hdc] at hd
      exact absurd hd (hnomid d)
  · intro d
    rcases eq_or_ne d c with rfl | hdc
    · rw [hpcc]; exact ⟨by decide, by decide⟩
    · rw [hpcne d hdc]; exact inv.noPatch d
  · intro d hd
    rw [hus]
    rcases eq_or_ne d c with rfl | hdc
    · rw [hpcc] at hd; exact absurd hd (by decide)
    · rw [hpcne d hdc] at hd; exact inv.usurNone d hd
  · rw [hgc, hwaiters]
    exact WChain.nil c (by rw [hnx, Function.update_same])
  · intro d hd
    rcases eq_or_ne d c with rfl | hdc
    · rw [hpcc] at hd; exact absurd hd (by decide)
    · rw [hpcne d hdc] at hd; exact absurd hd (hok d)
  · intro _
    rw [htl]
    exact (expectedTail_no_waiters_live (by rw [hwaiters]; rfl) hgc
      (by rw [hpcc]; decide)).symm
  · intro a2 hga2 hwnil2
    rw [hgc] at hga2
    have ha2 : a2 = c := (Option.some.inj hga2).symm
    subst ha2
    exact Or.inl hpcc
  · intro d hd
    rcases eq_or_ne d c with rfl | hdc
    · rw [hpcc] at hd; exact absurd hd (by decide)
    · rw [hpcne d hdc] at hd; exact absurd hd (hok d)
  · intro d hd
    rcases eq_or_ne d c with rfl | hdc
    · rw [hpcc] at hd; exact absurd hd (by decide)
    · rw [hpcne d hdc] at hd
      have hdm : midRel (s.pc d) := by rw [hd]; decide
      exact absurd hdm (hnomid d)
  · intro d hd
    rcases eq_or_ne d c with rfl | hdc
    · rw [hpcc] at hd; exact absurd hd (by decide)
    · rw [hpcne d hdc] at hd
      have hdm : midRel (s.pc d) := by rw [hd]; decide
      exact absurd hdm (hnomid d)
  · intro w1' ws' hw1' w hwm hpubw
    rw [hwaiters] at hw1'
    exact List.noConfusion hw1'
  · intro w1' ws' hw1' hpub1 hsig1 d
    rw [hwaiters] at hw1'
    exact List.noConfusion hw1'
  · intro d
    rcases eq_or_ne d c with rfl | hdc
    · rw [hpcc]
      exact ⟨fun _ => ⟨by decide, by decide⟩, fun _ => by decide⟩
    · rw [hpcne d hdc]; exact inv.variantPc d
  · intro d hd
    rcases eq_or_ne d c with rfl | hdc
    · rw [hpcc] at hd; exact absurd hd (by decide)
    · rw [hpcne d hdc] at hd
      have hsgd : sig par s' d = sig par s d :=
        sig_eq_of (by rw [hwk]) (hlkne d hdc) par
      rw [hsgd]
      exact inv.publishSig d hd
  · intro hp d hd
    rw [hwk]
    rcases eq_or_ne d c with rfl | hdc
    · rw [hpcc] at hd; exact absurd hd (by decide)
    · rw [hpcne d hdc] at hd
      exact inv.startSig hp d hd

/-- Preservation of the invariant by the tail swap of an acquire that finds
a previous tail (`amo_swap(&(lock->next), node)` returning a node,
mcs_mutex.h lines 42-49 / 107-111): the core queues behind it. -/
theorem invStep_start_some {s s' : State C} (inv : Inv par s) {c t : C}
    (hpc : s.pc c = Pc.start) (hok : ∀ d, s.pc d ≠ Pc.reinstate)
    (ht : s.tail = some t)
    (htl : s'.tail = some c)
    (hnx : s'.nxt = Function.update s.nxt c none)
    (hlkne : ∀ d, d ≠ c → s'.locked d = s.locked d)
    (hwk : s'.woken = s.woken)
    (hpcs : s'.pc = Function.update s.pc c
      (if par then Pc.publish else Pc.setLocked))
    (hpv : s'.prev = Function.update s.prev c (some t))
    (hod : s'.oldt = s.oldt) (hus : s'.usur = s.usur) (hsc : s'.succ = s.succ)
    (hlo : s'.linkOrder = s.linkOrder ++ [c])
    (hao : s'.acqOrder = s.acqOrder) :
    Inv par s' := by
  have hexp : expectedTail s = some t := by rw [← inv.tailSpec hok]; exact ht
  have hcl : c ∉ s.linkOrder := fun h => ((inv.memLink c).mp h) hpc
  have hca : c ∉ s.acqOrder := by
    obtain ⟨tl2, htl2⟩ := inv.prefixAcq
    exact fun h => hcl (by rw [← htl2]; exact List.mem_append_left _ h)
  have hcw : c ∉ waiters s := fun h =>
    hcl ((mem_waiters_iff inv c).mp h).1
  have hpcne : ∀ d, d ≠ c → s'.pc d = s.pc d := fun d hd => by
    rw [hpcs, Function.update_noteq hd]
  have hpcc : s'.pc c = if par then Pc.publish else Pc.setLocked := by
    rw [hpcs, Function.update_same]
  have hwaiters : waiters s' = waiters s ++ [c] := by
    unfold waiters
    rw [hlo, hao]
    exact List.drop_append_of_le_length inv.prefixAcq.length_le
  obtain ⟨a, hga⟩ : ∃ a, s.acqOrder.getLast? = some a := by
    rcases hg : s.acqOrder.getLast? with _ | a
    · have hl0 := link_nil_of_no_acq inv hg
      have hw0 : (waiters s).getLast? = none := by
        unfold waiters
        rw [hl0, List.drop_nil]
        rfl
      rw [expectedTail_empty hw0 hg] at hexp
      exact Option.noConfusion hexp
    · exact ⟨a, rfl⟩
  have hac : a ≠ c := fun he => hca (by rw [← he]; exact mem_of_getLast?_eq hga)
  have hchain := chain_of_owner inv hga
  have hglast : (a :: waiters s).getLast? = some t := by
    cases hwx : waiters s with
    | nil =>
      have hwl : (waiters s).getLast? = none := by rw [hwx]; rfl
      rcases eq_or_ne (s.pc a) Pc.done with hdone | hdone
      · rw [expectedTail_no_waiters_done hwl hga hdone] at hexp
        exact Option.noConfusion hexp
      · rw [expectedTail_no_waiters_live hwl hga hdone] at hexp
        exact congrArg some (Option.some.inj hexp)
    | cons w2 t2 =>
      obtain ⟨lst, hl⟩ := exists_getLast?_cons w2 t2
      have h1 : expectedTail s = some lst :=
        expectedTail_of_waiters (by rw [hwx]; exact hl)
      have hlt : lst = t := Option.some.inj (h1.symm.trans hexp)
      rw [List.getLast?_cons_cons, hl, hlt]
  refine
    { prefixAcq := ?_, linkNodup := ?_, memLink := ?_, memAcq := ?_,
      owner := ?_, noPatch := ?_, usurNone := ?_, chainInv := ?_,
      tailReinstate := ?_, tailSpec := ?_, ownerNoWait := ?_, oldtSpec := ?_,
      succSpec := ?_, wakeReadNxt := ?_, sigTail := ?_, sigHead := ?_,
      variantPc := ?_, publishSig := ?_, startSig := ?_ }
  · obtain ⟨tl2, htl2⟩ := inv.prefixAcq
    refine ⟨tl2 ++ [c], ?_⟩
    rw [hao, hlo, ← htl2]
    simp
  · rw [hlo]
    refine List.nodup_append.mpr ⟨inv.linkNodup, List.nodup_singleton c, ?_⟩
    intro x hx hxc
    exact hcl (by rw [← List.mem_singleton.mp hxc]; exact hx)
  · intro d
    rw [hlo]
    rcases eq_or_ne d c with rfl | hdc
    · rw [hpcc]
      constructor
      · intro _; cases par <;> decide
      · intro _; simp
    · rw [hpcne d hdc]
      constructor
      · intro h
        rcases List.mem_append.mp h with h | h
        · exact (inv.memLink d).mp h
        · exact absurd (List.mem_singleton.mp h) hdc
      · intro h
        exact List.mem_append_left _ ((inv.memLink d).mpr h)
  · intro d
    rw [hao]
    rcases eq_or_ne d c with rfl | hdc
    · rw [hpcc]
      constructor
      · intro h; exact absurd h hca
      · intro h; exact absurd h (by cases par <;> decide)
    · rw [hpcne d hdc]; exact inv.memAcq d
  · intro d hd
    rw [hao]
    rcases eq_or_ne d c with rfl | hdc
    · rw [hpcc] at hd; exact absurd hd (by cases par <;> decide)
    · rw [hpcne d hdc] at hd; exact inv.owner d hd
  · intro d
    rcases eq_or_ne d c with rfl | hdc
    · rw [hpcc]; exact ⟨by cases par <;> decide, by cases par <;> decide⟩
    · rw [hpcne d hdc]; exact inv.noPatch d
  · intro d hd
    rw [hus]
    rcases eq_or_ne d c with rfl | hdc
    · rw [hpcc] at hd; exact absurd hd (by cases par <;> decide)
    · rw [hpcne d hdc] at hd; exact inv.usurNone d hd
  · rw [hao, hga, hwaiters]
    refine hchain.append_waiter
      (fun w hw2 => hpcne w (fun he => hcw (by rw [← he]; exact hw2)))
      (fun w hw2 => by
        rw [hpv, Function.update_noteq (fun he => hcw (by rw [← he]; exact hw2))])
      (fun x hx => ?_) (by rw [hpcc]; cases par <;> decide)
      (by rw [hpcc]; cases par <;> decide)
      (by rw [hnx, Function.update_same])
      (by rw [hpv, Function.update_same]; exact hglast.symm)
    rcases List.mem_cons.mp hx with rfl | hx'
    · rw [hnx, Function.update_noteq hac]
    · rw [hnx, Function.update_noteq (fun he => hcw (by rw [← he]; exact hx'))]
  · intro d hd
    rcases eq_or_ne d c with rfl | hdc
    · rw [hpcc] at hd; exact absurd hd (by cases par <;> decide)
    · rw [hpcne d hdc] at hd; exact absurd hd (hok d)
  · intro _
    rw [htl]
    exact (expectedTail_of_waiters
      (by rw [hwaiters, List.getLast?_concat])).symm
  · intro a2 hga2 hwnil2
    rw [hwaiters] at hwnil2
    exact absurd hwnil2 (by simp)
  · intro d hd
    rcases eq_or_ne d c with rfl | hdc
    · rw [hpcc] at hd; exact absurd hd (by cases par <;> decide)
    · rw [hpcne d hdc] at hd; exact absurd hd (hok d)
  · intro d hd
    rcases eq_or_ne d c with rfl | hdc
    · rw [hpcc] at hd; exact absurd hd (by cases par <;> decide)
    · rw [hpcne d hdc] at hd
      obtain ⟨w1, ws, hw1, hsucc1, hpub1⟩ := inv.succSpec d hd
      have hw1c : w1 ≠ c := fun he =>
        hcw (by rw [← he, hw1]; exact List.mem_cons_self w1 ws)
      refine ⟨w1, ws ++ [c], ?_, by rw [hsc, hsucc1], ?_⟩
      · rw [hwaiters, hw1, List.cons_append]
      · rw [hpcne w1 hw1c]; exact hpub1
  · intro d hd
    rcases eq_or_ne d c with rfl | hdc
    · rw [hpcc] at hd; exact absurd hd (by cases par <;> decide)
    · rw [hpcne d hdc] at hd
      obtain ⟨w2, hw2⟩ := inv.wakeReadNxt d hd
      exact ⟨w2, by rw [hnx, Function.update_noteq hdc]; exact hw2⟩
  · intro w1' ws' hw1' w hwm hpubw
    rw [hwaiters] at hw1'
    cases hwx : waiters s with
    | nil =>
      rw [hwx] at hw1'
      have h1 : c = w1' ∧ ([] : List C) = ws' := by
        rw [List.nil_append] at hw1'
        exact ⟨(List.cons.injEq _ _ _ _ ▸ hw1').1, (List.cons.injEq _ _ _ _ ▸ hw1').2⟩
      obtain ⟨rfl, h2⟩ := h1
      rw [← h2] at hwm
      exact absurd hwm (List.not_mem_nil w)
    | cons w2 t2 =>
      rw [hwx, List.cons_append] at hw1'
      obtain ⟨rfl, h2⟩ : w2 = w1' ∧ t2 ++ [c] = ws' :=
        ⟨(List.cons.injEq _ _ _ _ ▸ hw1').1, (List.cons.injEq _ _ _ _ ▸ hw1').2⟩
      rw [← h2] at hwm
      rcases List.mem_append.mp hwm with hw2m | hw2m
      · have hwc : w ≠ c := fun he =>
          hcw (by rw [hwx, ← he]; exact List.mem_cons_of_mem _ hw2m)
        have hsgd : sig par s' w = sig par s w :=
          sig_eq_of (by rw [hwk]) (hlkne w hwc) par
        rw [hsgd]
        have hpubw' : published (s.pc w) := by
          rw [← hpcne w hwc]; exact hpubw
        exact inv.sigTail w2 t2 hwx w hw2m hpubw'
      · have hwc : w = c := List.mem_singleton.mp hw2m
        subst hwc
        rw [hpcc] at hpubw
        exact absurd hpubw (by cases par <;> decide)
  · intro w1' ws' hw1' hpub1 hsig1 d
    rw [hwaiters] at hw1'
    cases hwx : waiters s with
    | nil =>
      rw [hwx, List.nil_append] at hw1'
      obtain ⟨rfl, h2⟩ : c = w1' ∧ ([] : List C) = ws' :=
        ⟨(List.cons.injEq _ _ _ _ ▸ hw1').1, (List.cons.injEq _ _ _ _ ▸ hw1').2⟩
      rw [hpcc] at hpub1
      exact absurd hpub1 (by cases par <;> decide)
    | cons w2 t2 =>
      rw [hwx, List.cons_append] at hw1'
      obtain ⟨rfl, h2⟩ : w2 = w1' ∧ t2 ++ [c] = ws' :=
        ⟨(List.cons.injEq _ _ _ _ ▸ hw1').1, (List.cons.injEq _ _ _ _ ▸ hw1').2⟩
      have hw1c : w2 ≠ c := fun he =>
        hcw (by rw [hwx, ← he]; exact List.mem_cons_self w2 t2)
      have hpub1' : published (s.pc w2) := by
        rw [← hpcne w2 hw1c]; exact hpub1
      have hsg1 : sig par s' w2 = sig par s w2 :=
        sig_eq_of (by rw [hwk]) (hlkne w2 hw1c) par
      rw [hsg1] at hsig1
      have hall := inv.sigHead w2 t2 hwx hpub1' hsig1
      rcases eq_or_ne d c with rfl | hdc
      · rw [hpcc]; cases par <;> decide
      · rw [hpcne d hdc]; exact hall d
  · intro d
    rcases eq_or_ne d c with rfl | hdc
    · constructor
      · intro hp
        rw [hpcc, hp]
        exact ⟨by decide, by decide⟩
      · intro hp
        rw [hpcc, hp]
        decide
    · rw [hpcne d hdc]; exact inv.variantPc d
  · intro d hd
    rcases eq_or_ne d c with rfl | hdc
    · rw [hpcc] at hd
      cases par with
      | false => exact absurd hd (by decide)
      | true =>
        rw [sig_true_eq, hwk]
        exact inv.startSig rfl d hpc
    · rw [hpcne d hdc] at hd
      have hsgd : sig par s' d = sig par s d :=
        sig_eq_of (by rw [hwk]) (hlkne d hdc) par
      rw [hsgd]
      exact inv.publishSig d hd
  · intro hp d hd
    rw [hwk]
    rcases eq_or_ne d c with rfl | hdc
    · rw [hpcc, hp] at hd
      exact absurd hd (by decide)
    · rw [hpcne d hdc] at hd
      exact inv.startSig hp d hd

/-- Preservation of the invariant when a signalled first waiter acquires the
lock: the successful exit of `while (amo_swap(&node->locked, 1))`
(mcs_mutex.h line 55) resp. of the woken `mempool_wfi()` (line 115). -/
theorem invStep_acquire {s s' : State C} (inv : Inv par s) {c : C}
    (hpcw : s.pc c = Pc.spin ∨ s.pc c = Pc.wfi)
    (hsigc : sig par s c = true)
    (htl : s'.tail = s.tail) (hnx : s'.nxt = s.nxt)
    (hlkne : ∀ d, d ≠ c → s'.locked d = s.locked d)
    (hwk : s'.woken = s.woken)
    (hpcs : s'.pc = Function.update s.pc c Pc.relCheck)
    (hpv : s'.prev = s.prev) (hod : s'.oldt = s.oldt)
    (hus : s'.usur = s.usur) (hsc : s'.succ = s.succ)
    (hlo : s'.linkOrder = s.linkOrder)
    (hao : s'.acqOrder = s.acqOrder ++ [c]) :
    Inv par s' := by
  have hpub : published (s.pc c) := by
    rcases hpcw with h | h <;> rw [h] <;> decide
  have hw : waiterPc (s.pc c) := by
    rcases hpcw with h | h <;> rw [h] <;> decide
  have hcw : c ∈ waiters s := waiter_mem_waiters inv hw
  have hcna : c ∉ s.acqOrder := ((mem_waiters_iff inv c).mp hcw).2
  have hcl : c ∈ s.linkOrder := ((mem_waiters_iff inv c).mp hcw).1
  have hpcne : ∀ d, d ≠ c → s'.pc d = s.pc d := fun d hd => by
    rw [hpcs, Function.update_noteq hd]
  have hpcc : s'.pc c = Pc.relCheck := by rw [hpcs, Function.update_same]
  obtain ⟨ws, hwe⟩ : ∃ ws, waiters s = c :: ws := by
    rcases hwx : waiters s with _ | ⟨w1, ws⟩
    · rw [hwx] at hcw; exact absurd hcw (List.not_mem_nil c)
    · rw [hwx] at hcw
      rcases List.mem_cons.mp hcw with rfl | hcin
      · exact ⟨ws, rfl⟩
      · have := inv.sigTail w1 ws hwx c hcin hpub
        rw [hsigc] at this
        exact absurd this (by decide)
  have hnomid : ∀ d, ¬midRel (s.pc d) :=
    inv.sigHead c ws hwe hpub hsigc
  obtain ⟨a, hga⟩ : ∃ a, s.acqOrder.getLast? = some a := by
    rcases hgx : s.acqOrder.getLast? with _ | a
    · rw [link_nil_of_no_acq inv hgx] at hcl
      exact absurd hcl (List.not_mem_nil c)
    · exact ⟨a, rfl⟩
  have hwaiters : waiters s' = ws := by
    unfold waiters
    rw [hlo, hao, ← link_split inv, hwe]
    have h1 : s.acqOrder ++ c :: ws = (s.acqOrder ++ [c]) ++ ws := by simp
    rw [h1, List.drop_left]
  have hchain0 := chain_of_owner inv hga
  rw [hwe] at hchain0
  have hnd0 := nodup_owner_waiters inv hga
  rw [hwe] at hnd0
  have hcnws : c ∉ ws := (List.nodup_cons.mp (List.nodup_cons.mp hnd0).2).1
  have hch : WChain s c ws := by
    cases hchain0 with
    | cons _ _ _ hw1 hp1 hpub1 hunpub1 hch0 => exact hch0
  have hgc : s'.acqOrder.getLast? = some c := by
    rw [hao, List.getLast?_concat]
  refine
    { prefixAcq := ?_, linkNodup := ?_, memLink := ?_, memAcq := ?_,
      owner := ?_, noPatch := ?_, usurNone := ?_, chainInv := ?_,
      tailReinstate := ?_, tailSpec := ?_, ownerNoWait := ?_, oldtSpec := ?_,
      succSpec := ?_, wakeReadNxt := ?_, sigTail := ?_, sigHead := ?_,
      variantPc := ?_, publishSig := ?_, startSig := ?_ }
  · refine ⟨ws, ?_⟩
    rw [hao, hlo, ← link_split inv, hwe]
    simp
  · rw [hlo]; exact inv.linkNodup
  · intro d
    rw [hlo]
    rcases eq_or_ne d c with rfl | hdc
    · rw [hpcc]
      constructor
      · intro _; decide
      · intro _; exact hcl
    · rw [hpcne d hdc]; exact inv.memLink d
  · intro d
    rw [hao]
    rcases eq_or_ne d c with rfl | hdc
    · rw [hpcc]
      constructor
      · intro _; decide
      · intro _; simp
    · rw [hpcne d hdc]
      constructor
      · intro h
        rcases List.mem_append.mp h with h | h
        · exact (inv.memAcq d).mp h
        · exact absurd (List.mem_singleton.mp h) hdc
      · intro h
        exact List.mem_append_left _ ((inv.memAcq d).mpr h)
  · intro d hd
    rw [hao, List.getLast?_concat]
    rcases eq_or_ne d c with rfl | hdc
    · rfl
    · rw [hpcne d hdc] at hd
      exact absurd hd (hnomid d)
  · intro d
    rcases eq_or_ne d c with rfl | hdc
    · rw [hpcc]; exact ⟨by decide, by decide⟩
    · rw [hpcne d hdc]; exact inv.noPatch d
  · intro d hd
    rw [hus]
    rcases eq_or_ne d c with rfl | hdc
    · rw [hpcc] at hd; exact absurd hd (by decide)
    · rw [hpcne d hdc] at hd; exact inv.usurNone d hd
  · rw [hgc, hwaiters]
    exact hch.congr_eq
      (fun w hw2 => hpcne w (fun he => hcnws (by rw [← he]; exact hw2)))
      (fun w hw2 => by rw [hpv]) (fun x hx => by rw [hnx])
  · intro d hd
    rcases eq_or_ne d c with rfl | hdc
    · rw [hpcc] at hd; exact absurd hd (by decide)
    · rw [hpcne d hdc] at hd
      have hdm : midRel (s.pc d) := by rw [hd]; decide
      exact absurd hdm (hnomid d)
  · intro hall
    have hall0 : ∀ d, s.pc d ≠ Pc.reinstate := fun d hd =>
      hnomid d (by rw [hd]; decide)
    have ht0 := inv.tailSpec hall0
    cases ws with
    | nil =>
      have h1 : expectedTail s = some c :=
        expectedTail_of_waiters (by rw [hwe]; rfl)
      have h2 : expectedTail s' = some c :=
        expectedTail_no_waiters_live (by rw [hwaiters]; rfl) hgc
          (by rw [hpcc]; decide)
      rw [htl, ht0, h1, h2]
    | cons w2 ws2 =>
      obtain ⟨lst, hl⟩ := exists_getLast?_cons w2 ws2
      have h1 : expectedTail s = some lst :=
        expectedTail_of_waiters (by rw [hwe, List.getLast?_cons_cons]; exact hl)
      have h2 : expectedTail s' = some lst :=
        expectedTail_of_waiters (by rw [hwaiters]; exact hl)
      rw [htl, ht0, h1, h2]
  · intro a2 hga2 hwnil
    rw [hgc] at hga2
    have ha2 : a2 = c := (Option.some.inj hga2).symm
    subst ha2
    exact Or.inl hpcc
  · intro d hd
    rcases eq_or_ne d c with rfl | hdc
    · rw [hpcc] at hd; exact absurd hd (by decide)
    · rw [hpcne d hdc] at hd
      have hdm : midRel (s.pc d) := by rw [hd]; decide
      exact absurd hdm (hnomid d)
  · intro d hd
    rcases eq_or_ne d c with rfl | hdc
    · rw [hpcc] at hd; exact absurd hd (by decide)
    · rw [hpcne d hdc] at hd
      have hdm : midRel (s.pc d) := by rw [hd]; decide
      exact absurd hdm (hnomid d)
  · intro d hd
    rcases eq_or_ne d c with rfl | hdc
    · rw [hpcc] at hd; exact absurd hd (by decide)
    · rw [hpcne d hdc] at hd
      have hdm : midRel (s.pc d) := by rw [hd]; decide
      exact absurd hdm (hnomid d)
  · intro w1' ws' hw1' w hwm hpubw
    rw [hwaiters] at hw1'
    have hwc : w ≠ c := fun he =>
      hcnws (by rw [← he, hw1']; exact List.mem_cons_of_mem _ hwm)
    have hsgd : sig par s' w = sig par s w :=
      sig_eq_of (by rw [hwk]) (hlkne w hwc) par
    rw [hsgd]
    have hpubw' : published (s.pc w) := by
      rw [← hpcne w hwc]; exact hpubw
    exact inv.sigTail c (w1' :: ws') (by rw [hwe, hw1']) w
      (List.mem_cons_of_mem _ hwm) hpubw'
  · intro w1' ws' hw1' hpub1 hsig1 d
    rw [hwaiters] at hw1'
    have hw1c : w1' ≠ c := fun he =>
      hcnws (by rw [← he, hw1']; exact List.mem_cons_self w1' ws')
    have hpub1' : published (s.pc w1') := by
      rw [← hpcne w1' hw1c]; exact hpub1
    have hsg1 : sig par s' w1' = sig par s w1' :=
      sig_eq_of (by rw [hwk]) (hlkne w1' hw1c) par
    rw [hsg1] at hsig1
    have hfalse := inv.sigTail c (w1' :: ws') (by rw [hwe, hw1']) w1'
      (List.mem_cons_self _ _) hpub1'
    rw [hfalse] at hsig1
    exact absurd hsig1 (by decide)
  · intro d
    rcases eq_or_ne d c with rfl | hdc
    · rw [hpcc]
      exact ⟨fun _ => ⟨by decide, by decide⟩, fun _ => by decide⟩
    · rw [hpcne d hdc]; exact inv.variantPc d
  · intro d hd
    rcases eq_or_ne d c with rfl | hdc
    · rw [hpcc] at hd; exact absurd hd (by decide)
    · rw [hpcne d hdc] at hd
      have hsgd : sig par s' d = sig par s d :=
        sig_eq_of (by rw [hwk]) (hlkne d hdc) par
      rw [hsgd]
      exact inv.publishSig d hd
  · intro hp d hd
    rw [hwk]
    rcases eq_or_ne d c with rfl | hdc
    · rw [hpcc] at hd; exact absurd hd (by decide)
    · rw [hpcne d hdc] at hd
      exact inv.startSig hp d hd

/-- Preservation of the invariant by `amo_swap(&(next->next), node)` of
`lock_mcs`/`lrwait_mcs`: the waiter publishes itself as its predecessor's
successor (mcs_mutex.h line 52 / 112). -/
theorem invStep_publish {s s' : State C} (inv : Inv par s) {c p : C}
    (hpc : s.pc c = Pc.publish) (hprev0 : s.prev c = some p)
    (htl : s'.tail = s.tail)
    (hnx : s'.nxt = Function.update s.nxt p (some c))
    (hlk : s'.locked = s.locked) (hwk : s'.woken = s.woken)
    (hpcs : s'.pc = Function.update s.pc c (if par then Pc.wfi else Pc.spin))
    (hpv : s'.prev = s.prev) (hod : s'.oldt = s.oldt)
    (hus : s'.usur = s.usur) (hsc : s'.succ = s.succ)
    (hlo : s'.linkOrder = s.linkOrder) (hao : s'.acqOrder = s.acqOrder) :
    Inv par s' := by
  have hw : waiterPc (s.pc c) := by rw [hpc]; decide
  have hcw : c ∈ waiters s := waiter_mem_waiters inv hw
  have hcna : c ∉ s.acqOrder := ((mem_waiters_iff inv c).mp hcw).2
  have hcl : c ∈ s.linkOrder := ((mem_waiters_iff inv c).mp hcw).1
  have hwaiters : waiters s' = waiters s := waiters_congr hlo hao
  have hpcne : ∀ d, d ≠ c → s'.pc d = s.pc d := fun d hd => by
    rw [hpcs, Function.update_noteq hd]
  have hpcc : s'.pc c = if par then Pc.wfi else Pc.spin := by
    rw [hpcs, Function.update_same]
  have hacne : ∀ a, s.acqOrder.getLast? = some a → a ≠ c := fun a hga he =>
    hcna (by rw [← he]; exact mem_of_getLast?_eq hga)
  have hsg : ∀ d, sig par s' d = sig par s d := fun d =>
    sig_eq_of (by rw [hwk]) (by rw [hlk]) par
  obtain ⟨a, hga⟩ : ∃ a, s.acqOrder.getLast? = some a := by
    rcases hga : s.acqOrder.getLast? with _ | a
    · rw [link_nil_of_no_acq inv hga] at hcl
      exact absurd hcl (List.not_mem_nil c)
    · exact ⟨a, rfl⟩
  have hchain := chain_of_owner inv hga
  have hedge := hchain.prev_edge hcw hprev0
  have hnxtp : s.nxt p = none := hedge.2 (by rw [hpc]; decide)
  have hnxne : ∀ d, d ≠ p → s'.nxt d = s.nxt d := fun d hd => by
    rw [hnx, Function.update_noteq hd]
  refine
    { prefixAcq := ?_, linkNodup := ?_, memLink := ?_, memAcq := ?_,
      owner := ?_, noPatch := ?_, usurNone := ?_, chainInv := ?_,
      tailReinstate := ?_, tailSpec := ?_, ownerNoWait := ?_, oldtSpec := ?_,
      succSpec := ?_, wakeReadNxt := ?_, sigTail := ?_, sigHead := ?_,
      variantPc := ?_, publishSig := ?_, startSig := ?_ }
  · rw [hao, hlo]; exact inv.prefixAcq
  · rw [hlo]; exact inv.linkNodup
  · intro d
    rw [hlo]
    rcases eq_or_ne d c with rfl | hdc
    · rw [hpcc]
      constructor
      · intro _; cases par <;> decide
      · intro _; exact hcl
    · rw [hpcne d hdc]; exact inv.memLink d
  · intro d
    rw [hao]
    rcases eq_or_ne d c with rfl | hdc
    · rw [hpcc]
      constructor
      · intro h; exact absurd h hcna
      · intro h; exact absurd h (by cases par <;> decide)
    · rw [hpcne d hdc]; exact inv.memAcq d
  · intro d hd
    rw [hao]
    rcases eq_or_ne d c with rfl | hdc
    · rw [hpcc] at hd; exact absurd hd (by cases par <;> decide)
    · rw [hpcne d hdc] at hd; exact inv.owner d hd
  · intro d
    rcases eq_or_ne d c with rfl | hdc
    · rw [hpcc]; exact ⟨by cases par <;> decide, by cases par <;> decide⟩
    · rw [hpcne d hdc]; exact inv.noPatch d
  · intro d hd
    rw [hus]
    rcases eq_or_ne d c with rfl | hdc
    · rw [hpcc] at hd; exact absurd hd (by cases par <;> decide)
    · rw [hpcne d hdc] at hd; exact inv.usurNone d hd
  · rw [hao, hwaiters, hlo]
    rcases ha : s.acqOrder.getLast? with _ | a2
    · exact link_nil_of_no_acq inv ha
    · have ha2 : a2 = a := Option.some.inj (ha.symm.trans hga)
      subst ha2
      exact hchain.publish_upd hcw hprev0 (nodup_owner_waiters inv hga)
        (by cases par <;> decide)
        (by cases par <;> decide) hnx hpcs hpv
  · intro d hd
    rw [htl]
    rcases eq_or_ne d c with rfl | hdc
    · rw [hpcc] at hd; exact absurd hd (by cases par <;> decide)
    · rw [hpcne d hdc] at hd; exact inv.tailReinstate d hd
  · intro hall
    have hall' : ∀ d, s.pc d ≠ Pc.reinstate := by
      intro d hd
      rcases eq_or_ne d c with rfl | hdc
      · rw [hpc] at hd; exact absurd hd (by decide)
      · exact hall d (by rw [hpcne d hdc]; exact hd)
    rw [htl, inv.tailSpec hall']
    exact (expectedTail_congr hlo hao (fun a2 hga2 => hpcne a2 (hacne a2 hga2))).symm
  · intro a2 hga2 hwnil
    rw [hwaiters] at hwnil
    rw [hwnil] at hcw
    exact absurd hcw (List.not_mem_nil c)
  · intro d hd
    rcases eq_or_ne d c with rfl | hdc
    · rw [hpcc] at hd; exact absurd hd (by cases par <;> decide)
    · rw [hpcne d hdc] at hd
      rw [hod, hwaiters]
      exact inv.oldtSpec d hd
  · intro d hd
    rcases eq_or_ne d c with rfl | hdc
    · rw [hpcc] at hd; exact absurd hd (by cases par <;> decide)
    · rw [hpcne d hdc] at hd
      obtain ⟨w1, ws, hw1, hsucc1, hpub1⟩ := inv.succSpec d hd
      refine ⟨w1, ws, by rw [hwaiters, hw1], by rw [hsc, hsucc1], ?_⟩
      rcases eq_or_ne w1 c with rfl | hw1c
      · rw [hpc] at hpub1; exact absurd hpub1 (by decide)
      · rw [hpcne w1 hw1c]; exact hpub1
  · intro d hd
    rcases eq_or_ne d c with rfl | hdc
    · rw [hpcc] at hd; exact absurd hd (by cases par <;> decide)
    · rw [hpcne d hdc] at hd
      obtain ⟨w2, hw2⟩ := inv.wakeReadNxt d hd
      have hdp : d ≠ p := fun he => by
        rw [he, hnxtp] at hw2
        exact Option.noConfusion hw2
      exact ⟨w2, by rw [hnxne d hdp]; exact hw2⟩
  · intro w1 ws hw1 w hwmem hpubw
    rw [hwaiters] at hw1
    rw [hsg w]
    rcases eq_or_ne w c with rfl | hwc
    · exact inv.publishSig w hpc
    · have hpubw' : published (s.pc w) := by
        rw [← hpcne w hwc]; exact hpubw
      exact inv.sigTail w1 ws hw1 w hwmem hpubw'
  · intro w1 ws hw1 hpub1 hsig1 d
    rw [hwaiters] at hw1
    rw [hsg w1] at hsig1
    rcases eq_or_ne w1 c with rfl | hw1c
    · rw [inv.publishSig w1 hpc] at hsig1
      exact absurd hsig1 (by decide)
    · have hpub1' : published (s.pc w1) := by
        rw [← hpcne w1 hw1c]; exact hpub1
      have hall := inv.sigHead w1 ws hw1 hpub1' hsig1
      rcases eq_or_ne d c with rfl | hdc
      · rw [hpcc]; cases par <;> decide
      · rw [hpcne d hdc]; exact hall d
  · intro d
    rcases eq_or_ne d c with rfl | hdc
    · constructor
      · intro hp
        rw [hpcc, hp]
        exact ⟨by decide, by decide⟩
      · intro hp
        rw [hpcc, hp]
        decide
    · rw [hpcne d hdc]; exact inv.variantPc d
  · intro d hd
    rw [hsg d]
    rcases eq_or_ne d c with rfl | hdc
    · rw [hpcc] at hd
      exact absurd hd (by cases par <;> decide)
    · rw [hpcne d hdc] at hd
      exact inv.publishSig d hd
  · intro hp d hd
    rw [hwk]
    rcases eq_or_ne d c with rfl | hdc
    · rw [hpcc] at hd; exact absurd hd (by cases par <;> decide)
    · rw [hpcne d hdc] at hd
      exact inv.startSig hp d hd

/-- Preservation of the invariant when the owner moves from one in-release
program point to another without touching shared memory: the release branch
reads (`node->next` at mcs_mutex.h line 66 / 124) and the successor poll
(`while (node->next == NULL)` with a null `usurper`, lines 74-77 / 132-135). -/
theorem invStep_ownerPc {s s' : State C} (inv : Inv par s) {c : C}
    (hmid : midRel (s.pc c)) (hnrein : s.pc c ≠ Pc.reinstate)
    {q : Pc} (hqn : q = Pc.retract ∨ q = Pc.wakeRead)
    (hwr : q = Pc.wakeRead → ∃ w, s.nxt c = some w)
    (htl : s'.tail = s.tail) (hnx : s'.nxt = s.nxt)
    (hlk : s'.locked = s.locked) (hwk : s'.woken = s.woken)
    (hpcs : s'.pc = Function.update s.pc c q)
    (hpv : s'.prev = s.prev) (hod : s'.oldt = s.oldt)
    (hus : s'.usur = s.usur) (hsc : s'.succ = s.succ)
    (hlo : s'.linkOrder = s.linkOrder) (hao : s'.acqOrder = s.acqOrder) :
    Inv par s' := by
  have hgc : s.acqOrder.getLast? = some c := inv.owner c hmid
  have hcacq : c ∈ s.acqOrder := (inv.memAcq c).mpr hmid.1
  obtain ⟨tl2, htl2⟩ := inv.prefixAcq
  have hcl : c ∈ s.linkOrder := by
    rw [← htl2]; exact List.mem_append_left _ hcacq
  have hcnw : c ∉ waiters s := owner_not_waiter inv hcacq
  have hpcne : ∀ d, d ≠ c → s'.pc d = s.pc d := fun d hd => by
    rw [hpcs, Function.update_noteq hd]
  have hpcc : s'.pc c = q := by rw [hpcs, Function.update_same]
  have hwaiters : waiters s' = waiters s := waiters_congr hlo hao
  have hsg : ∀ d, sig par s' d = sig par s d := fun d =>
    sig_eq_of (by rw [hwk]) (by rw [hlk]) par
  have hqmid : midRel q := by rcases hqn with rfl | rfl <;> decide
  refine
    { prefixAcq := ?_, linkNodup := ?_, memLink := ?_, memAcq := ?_,
      owner := ?_, noPatch := ?_, usurNone := ?_, chainInv := ?_,
      tailReinstate := ?_, tailSpec := ?_, ownerNoWait := ?_, oldtSpec := ?_,
      succSpec := ?_, wakeReadNxt := ?_, sigTail := ?_, sigHead := ?_,
      variantPc := ?_, publishSig := ?_, startSig := ?_ }
  · rw [hao, hlo]; exact inv.prefixAcq
  · rw [hlo]; exact inv.linkNodup
  · intro d
    rw [hlo]
    rcases eq_or_ne d c with rfl | hdc
    · rw [hpcc]
      constructor
      · intro _
        rcases hqn with rfl | rfl <;> decide
      · intro _; exact hcl
    · rw [hpcne d hdc]; exact inv.memLink d
  · intro d
    rw [hao]
    rcases eq_or_ne d c with rfl | hdc
    · rw [hpcc]
      constructor
      · intro _; exact hqmid.1
      · intro _; exact hcacq
    · rw [hpcne d hdc]; exact inv.memAcq d
  · intro d hd
    rw [hao]
    rcases eq_or_ne d c with rfl | hdc
    · exact hgc
    · rw [hpcne d hdc] at hd; exact inv.owner d hd
  · intro d
    rcases eq_or_ne d c with rfl | hdc
    · rw [hpcc]
      rcases hqn with rfl | rfl <;> exact ⟨by decide, by decide⟩
    · rw [hpcne d hdc]; exact inv.noPatch d
  · intro d hd
    rw [hus]
    rcases eq_or_ne d c with rfl | hdc
    · rw [hpcc] at hd
      rcases hqn with rfl | rfl <;> exact absurd hd (by decide)
    · rw [hpcne d hdc] at hd; exact inv.usurNone d hd
  · rw [hao, hgc, hwaiters]
    exact (chain_of_owner inv hgc).congr_eq
      (fun w hw2 => hpcne w (fun he => hcnw (by rw [← he]; exact hw2)))
      (fun w hw2 => by rw [hpv]) (fun x hx => by rw [hnx])
  · intro d hd
    rw [htl]
    rcases eq_or_ne d c with rfl | hdc
    · rw [hpcc] at hd
      rcases hqn with rfl | rfl <;> exact absurd hd (by decide)
    · rw [hpcne d hdc] at hd; exact inv.tailReinstate d hd
  · intro hall
    have hall' : ∀ d, s.pc d ≠ Pc.reinstate := by
      intro d hd
      rcases eq_or_ne d c with rfl | hdc
      · exact hnrein hd
      · exact hall d (by rw [hpcne d hdc]; exact hd)
    rw [htl, inv.tailSpec hall']
    refine (expectedTail_congr_iff hlo hao (fun a hga => ?_)).symm
    have hac : a = c := Option.some.inj (hga.symm.trans hgc)
    subst hac
    rw [hpcc]
    exact iff_of_false (by rcases hqn with rfl | rfl <;> decide) hmid.2
  · intro a2 hga2 hwnil
    rw [hao] at hga2
    have ha2 : a2 = c := Option.some.inj (hga2.symm.trans hgc)
    subst ha2
    rw [hwaiters] at hwnil
    rw [hpcc]
    rcases hqn with rfl | rfl
    · exact Or.inr (Or.inl rfl)
    · obtain ⟨w, hw2⟩ := hwr rfl
      have hch0 := chain_of_owner inv hgc
      rw [hwnil] at hch0
      cases hch0 with
      | nil _ hn =>
        rw [hw2] at hn
        exact Option.noConfusion hn
  · intro d hd
    rcases eq_or_ne d c with rfl | hdc
    · rw [hpcc] at hd
      rcases hqn with rfl | rfl <;> exact absurd hd (by decide)
    · rw [hpcne d hdc] at hd
      rw [hod, hwaiters]
      exact inv.oldtSpec d hd
  · intro d hd
    rcases eq_or_ne d c with rfl | hdc
    · rw [hpcc] at hd
      rcases hqn with rfl | rfl <;> exact absurd hd (by decide)
    · rw [hpcne d hdc] at hd
      obtain ⟨w1, ws, hw1, hsucc1, hpub1⟩ := inv.succSpec d hd
      have hw1c : w1 ≠ c := fun he =>
        hcnw (by rw [← he, hw1]; exact List.mem_cons_self w1 ws)
      refine ⟨w1, ws, by rw [hwaiters, hw1], by rw [hsc, hsucc1], ?_⟩
      rw [hpcne w1 hw1c]; exact hpub1
  · intro d hd
    rcases eq_or_ne d c with rfl | hdc
    · rw [hpcc] at hd
      rcases hqn with rfl | rfl
      · exact absurd hd (by decide)
      · obtain ⟨w, hw2⟩ := hwr rfl
        exact ⟨w, by rw [hnx]; exact hw2⟩
    · rw [hpcne d hdc] at hd
      obtain ⟨w2, hw2⟩ := inv.wakeReadNxt d hd
      exact ⟨w2, by rw [hnx]; exact hw2⟩
  · intro w1' ws' hw1' w hwm hpubw
    rw [hwaiters] at hw1'
    have hwc : w ≠ c := fun he =>
      hcnw (by rw [← he, hw1']; exact List.mem_cons_of_mem _ hwm)
    rw [hsg w]
    have hpubw' : published (s.pc w) := by
      rw [← hpcne w hwc]; exact hpubw
    exact inv.sigTail w1' ws' hw1' w hwm hpubw'
  · intro w1' ws' hw1' hpub1 hsig1 d
    rw [hwaiters] at hw1'
    have hw1c : w1' ≠ c := fun he =>
      hcnw (by rw [← he, hw1']; exact List.mem_cons_self w1' ws')
    have hpub1' : published (s.pc w1') := by
      rw [← hpcne w1' hw1c]; exact hpub1
    rw [hsg w1'] at hsig1
    have hall := inv.sigHead w1' ws' hw1' hpub1' hsig1
    exact absurd hmid (hall c)
  · intro d
    rcases eq_or_ne d c with rfl | hdc
    · rw [hpcc]
      rcases hqn with rfl | rfl <;>
        exact ⟨fun _ => ⟨by decide, by decide⟩, fun _ => by decide⟩
    · rw [hpcne d hdc]; exact inv.variantPc d
  · intro d hd
    rcases eq_or_ne d c with rfl | hdc
    · rw [hpcc] at hd
      rcases hqn with rfl | rfl <;> exact absurd hd (by decide)
    · rw [hpcne d hdc] at hd
      rw [hsg d]
      exact inv.publishSig d hd
  · intro hp d hd
    rw [hwk]
    rcases eq_or_ne d c with rfl | hdc
    · rw [hpcc] at hd
      rcases hqn with rfl | rfl <;> exact absurd hd (by decide)
    · rw [hpcne d hdc] at hd
      exact inv.startSig hp d hd

/-- Preservation of the invariant by the tail retraction of a release that
finds its own node as tail (`amo_swap(&(lock->next), NULL)` returning the
own node, mcs_mutex.h lines 68-72 / 126-130): the release completes. -/
theorem invStep_retract_done {s s' : State C} (inv : Inv par s) {c : C}
    (hpc : s.pc c = Pc.retract) (ht : s.tail = some c)
    (htl : s'.tail = none)
    (hnx : s'.nxt = s.nxt) (hlk : s'.locked = s.locked)
    (hwk : s'.woken = s.woken)
    (hpcs : s'.pc = Function.update s.pc c Pc.done)
    (hpv : s'.prev = s.prev)
    (hodE : s'.oldt = Function.update s.oldt c (some c))
    (hus : s'.usur = s.usur) (hsc : s'.succ = s.succ)
    (hlo : s'.linkOrder = s.linkOrder) (hao : s'.acqOrder = s.acqOrder) :
    Inv par s' := by
  have hmid : midRel (s.pc c) := by rw [hpc]; decide
  have hgc : s.acqOrder.getLast? = some c := inv.owner c hmid
  have hcacq : c ∈ s.acqOrder := (inv.memAcq c).mpr hmid.1
  obtain ⟨tl2, htl2⟩ := inv.prefixAcq
  have hcl : c ∈ s.linkOrder := by
    rw [← htl2]; exact List.mem_append_left _ hcacq
  have hcnw : c ∉ waiters s := owner_not_waiter inv hcacq
  have hpcne : ∀ d, d ≠ c → s'.pc d = s.pc d := fun d hd => by
    rw [hpcs, Function.update_noteq hd]
  have hpcc : s'.pc c = Pc.done := by rw [hpcs, Function.update_same]
  have hwaiters : waiters s' = waiters s := waiters_congr hlo hao
  have hsg : ∀ d, sig par s' d = sig par s d := fun d =>
    sig_eq_of (by rw [hwk]) (by rw [hlk]) par
  have hall0 : ∀ d, s.pc d ≠ Pc.reinstate :=
    no_reinstate_of_mid inv hmid (by rw [hpc]; decide)
  have hexp : s.tail = expectedTail s := inv.tailSpec hall0
  have hwnil : waiters s = [] := by
    cases hwx : waiters s with
    | nil => rfl
    | cons w2 t2 =>
      obtain ⟨lst, hl⟩ := exists_getLast?_cons w2 t2
      have h1 : expectedTail s = some lst :=
        expectedTail_of_waiters (by rw [hwx]; exact hl)
      have hlc : lst = c := Option.some.inj ((h1.symm.trans hexp.symm).trans ht)
      have hlm : lst ∈ waiters s := by
        rw [hwx]; exact mem_of_getLast?_eq hl
      rw [hlc] at hlm
      exact absurd hlm hcnw
  have hnxc : s.nxt c = none := by
    have hch0 := chain_of_owner inv hgc
    rw [hwnil] at hch0
    cases hch0 with
    | nil _ hn => exact hn
  refine
    { prefixAcq := ?_, linkNodup := ?_, memLink := ?_, memAcq := ?_,
      owner := ?_, noPatch := ?_, usurNone := ?_, chainInv := ?_,
      tailReinstate := ?_, tailSpec := ?_, ownerNoWait := ?_, oldtSpec := ?_,
      succSpec := ?_, wakeReadNxt := ?_, sigTail := ?_, sigHead := ?_,
      variantPc := ?_, publishSig := ?_, startSig := ?_ }
  · rw [hao, hlo]; exact inv.prefixAcq
  · rw [hlo]; exact inv.linkNodup
  · intro d
    rw [hlo]
    rcases eq_or_ne d c with rfl | hdc
    · rw [hpcc]
      exact ⟨fun _ => by decide, fun _ => hcl⟩
    · rw [hpcne d hdc]; exact inv.memLink d
  · intro d
    rw [hao]
    rcases eq_or_ne d c with rfl | hdc
    · rw [hpcc]
      exact ⟨fun _ => by decide, fun _ => hcacq⟩
    · rw [hpcne d hdc]; exact inv.memAcq d
  · intro d hd
    rcases eq_or_ne d c with rfl | hdc
    · rw [hpcc] at hd; exact absurd hd (by decide)
    · rw [hpcne d hdc] at hd
      exact absurd hd (only_owner_mid inv hmid d hdc)
  · intro d
    rcases eq_or_ne d c with rfl | hdc
    · rw [hpcc]; exact ⟨by decide, by decide⟩
    · rw [hpcne d hdc]; exact inv.noPatch d
  · intro d hd
    rw [hus]
    rcases eq_or_ne d c with rfl | hdc
    · rw [hpcc] at hd; exact absurd hd (by decide)
    · rw [hpcne d hdc] at hd; exact inv.usurNone d hd
  · rw [hao, hgc, hwaiters, hwnil]
    exact WChain.nil c (by rw [hnx]; exact hnxc)
  · intro d hd
    exact htl
  · intro _
    rw [htl]
    exact (expectedTail_no_waiters_done (by rw [hwaiters, hwnil]; rfl)
      (by rw [hao]; exact hgc) hpcc).symm
  · intro a2 hga2 hwnil2
    rw [hao] at hga2
    have ha2 : a2 = c := Option.some.inj (hga2.symm.trans hgc)
    subst ha2
    exact Or.inr (Or.inr hpcc)
  · intro d hd
    rcases eq_or_ne d c with rfl | hdc
    · rw [hpcc] at hd; exact absurd hd (by decide)
    · rw [hpcne d hdc] at hd; exact absurd hd (hall0 d)
  · intro d hd
    rcases eq_or_ne d c with rfl | hdc
    · rw [hpcc] at hd; exact absurd hd (by decide)
    · rw [hpcne d hdc] at hd
      have hdm : midRel (s.pc d) := by rw [hd]; decide
      exact absurd hdm (only_owner_mid inv hmid d hdc)
  · intro d hd
    rcases eq_or_ne d c with rfl | hdc
    · rw [hpcc] at hd; exact absurd hd (by decide)
    · rw [hpcne d hdc] at hd
      have hdm : midRel (s.pc d) := by rw [hd]; decide
      exact absurd hdm (only_owner_mid inv hmid d hdc)
  · intro w1' ws' hw1' w hwm hpubw
    rw [hwaiters, hwnil] at hw1'
    exact List.noConfusion hw1'
  · intro w1' ws' hw1' hpub1 hsig1 d
    rw [hwaiters, hwnil] at hw1'
    exact List.noConfusion hw1'
  · intro d
    rcases eq_or_ne d c with rfl | hdc
    · rw [hpcc]
      exact ⟨fun _ => ⟨by decide, by decide⟩, fun _ => by decide⟩
    · rw [hpcne d hdc]; exact inv.variantPc d
  · intro d hd
    rcases eq_or_ne d c with rfl | hdc
    · rw [hpcc] at hd; exact absurd hd (by decide)
    · rw [hpcne d hdc] at hd
      rw [hsg d]
      exact inv.publishSig d hd
  · intro hp d hd
    rw [hwk]
    rcases eq_or_ne d c with rfl | hdc
    · rw [hpcc] at hd; exact absurd hd (by decide)
    · rw [hpcne d hdc] at hd
      exact inv.startSig hp d hd

/-- Preservation of the invariant by the tail retraction of a release that
finds a foreign tail (`amo_swap(&(lock->next), NULL)` returning another
node, mcs_mutex.h lines 68-73 / 126-131): the owner must reinstate. -/
theorem invStep_retract_rein {s s' : State C} (inv : Inv par s) {c : C}
    (hpc : s.pc c = Pc.retract) (ht : s.tail ≠ some c)
    (htl : s'.tail = none)
    (hnx : s'.nxt = s.nxt) (hlk : s'.locked = s.locked)
    (hwk : s'.woken = s.woken)
    (hpcs : s'.pc = Function.update s.pc c Pc.reinstate)
    (hpv : s'.prev = s.prev)
    (hodE : s'.oldt = Function.update s.oldt c s.tail)
    (hus : s'.usur = s.usur) (hsc : s'.succ = s.succ)
    (hlo : s'.linkOrder = s.linkOrder) (hao : s'.acqOrder = s.acqOrder) :
    Inv par s' := by
  have hmid : midRel (s.pc c) := by rw [hpc]; decide
  have hgc : s.acqOrder.getLast? = some c := inv.owner c hmid
  have hcacq : c ∈ s.acqOrder := (inv.memAcq c).mpr hmid.1
  obtain ⟨tl2, htl2⟩ := inv.prefixAcq
  have hcl : c ∈ s.linkOrder := by
    rw [← htl2]; exact List.mem_append_left _ hcacq
  have hcnw : c ∉ waiters s := owner_not_waiter inv hcacq
  have hpcne : ∀ d, d ≠ c → s'.pc d = s.pc d := fun d hd => by
    rw [hpcs, Function.update_noteq hd]
  have hpcc : s'.pc c = Pc.reinstate := by rw [hpcs, Function.update_same]
  have hwaiters : waiters s' = waiters s := waiters_congr hlo hao
  have hsg : ∀ d, sig par s' d = sig par s d := fun d =>
    sig_eq_of (by rw [hwk]) (by rw [hlk]) par
  have hall0 : ∀ d, s.pc d ≠ Pc.reinstate :=
    no_reinstate_of_mid inv hmid (by rw [hpc]; decide)
  have hexp : s.tail = expectedTail s := inv.tailSpec hall0
  have hstal : s.tail = (waiters s).getLast? ∧ waiters s ≠ [] := by
    cases hwx : waiters s with
    | nil =>
      have hwl : (waiters s).getLast? = none := by rw [hwx]; rfl
      have h1 := expectedTail_no_waiters_live hwl hgc (by rw [hpc]; decide)
      rw [h1] at hexp
      exact absurd hexp ht
    | cons w2 t2 =>
      obtain ⟨lst, hl⟩ := exists_getLast?_cons w2 t2
      have h1 : expectedTail s = some lst :=
        expectedTail_of_waiters (by rw [hwx]; exact hl)
      exact ⟨by rw [hl]; exact hexp.trans h1, by simp⟩
  refine
    { prefixAcq := ?_, linkNodup := ?_, memLink := ?_, memAcq := ?_,
      owner := ?_, noPatch := ?_, usurNone := ?_, chainInv := ?_,
      tailReinstate := ?_, tailSpec := ?_, ownerNoWait := ?_, oldtSpec := ?_,
      succSpec := ?_, wakeReadNxt := ?_, sigTail := ?_, sigHead := ?_,
      variantPc := ?_, publishSig := ?_, startSig := ?_ }
  · rw [hao, hlo]; exact inv.prefixAcq
  · rw [hlo]; exact inv.linkNodup
  · intro d
    rw [hlo]
    rcases eq_or_ne d c with rfl | hdc
    · rw [hpcc]
      exact ⟨fun _ => by decide, fun _ => hcl⟩
    · rw [hpcne d hdc]; exact inv.memLink d
  · intro d
    rw [hao]
    rcases eq_or_ne d c with rfl | hdc
    · rw [hpcc]
      exact ⟨fun _ => by decide, fun _ => hcacq⟩
    · rw [hpcne d hdc]; exact inv.memAcq d
  · intro d hd
    rw [hao]
    rcases eq_or_ne d c with rfl | hdc
    · exact hgc
    · rw [hpcne d hdc] at hd
      exact absurd hd (only_owner_mid inv hmid d hdc)
  · intro d
    rcases eq_or_ne d c with rfl | hdc
    · rw [hpcc]; exact ⟨by decide, by decide⟩
    · rw [hpcne d hdc]; exact inv.noPatch d
  · intro d hd
    rw [hus]
    rcases eq_or_ne d c with rfl | hdc
    · rw [hpcc] at hd; exact absurd hd (by decide)
    · rw [hpcne d hdc] at hd; exact inv.usurNone d hd
  · rw [hao, hgc, hwaiters]
    exact (chain_of_owner inv hgc).congr_eq
      (fun w hw2 => hpcne w (fun he => hcnw (by rw [← he]; exact hw2)))
      (fun w hw2 => by rw [hpv]) (fun x hx => by rw [hnx])
  · intro d hd
    exact htl
  · intro hall
    exact absurd hpcc (hall c)
  · intro a2 hga2 hwnil2
    rw [hwaiters] at hwnil2
    exact absurd hwnil2 hstal.2
  · intro d hd
    rcases eq_or_ne d c with rfl | hdc
    · rw [hodE, Function.update_same, hwaiters]
      exact ⟨hstal.1, hstal.2⟩
    · rw [hpcne d hdc] at hd
      exact absurd hd (hall0 d)
  · intro d hd
    rcases eq_or_ne d c with rfl | hdc
    · rw [hpcc] at hd; exact absurd hd (by decide)
    · rw [hpcne d hdc] at hd
      obtain ⟨w1, ws, hw1, hsucc1, hpub1⟩ := inv.succSpec d hd
      have hw1c : w1 ≠ c := fun he =>
        hcnw (by rw [← he, hw1]; exact List.mem_cons_self w1 ws)
      refine ⟨w1, ws, by rw [hwaiters, hw1], by rw [hsc, hsucc1], ?_⟩
      rw [hpcne w1 hw1c]; exact hpub1
  · intro d hd
    rcases eq_or_ne d c with rfl | hdc
    · rw [hpcc] at hd; exact absurd hd (by decide)
    · rw [hpcne d hdc] at hd
      obtain ⟨w2, hw2⟩ := inv.wakeReadNxt d hd
      exact ⟨w2, by rw [hnx]; exact hw2⟩
  · intro w1' ws' hw1' w hwm hpubw
    rw [hwaiters] at hw1'
    have hwc : w ≠ c := fun he =>
      hcnw (by rw [← he, hw1']; exact List.mem_cons_of_mem _ hwm)
    rw [hsg w]
    have hpubw' : published (s.pc w) := by
      rw [← hpcne w hwc]; exact hpubw
    exact inv.sigTail w1' ws' hw1' w hwm hpubw'
  · intro w1' ws' hw1' hpub1 hsig1 d
    rw [hwaiters] at hw1'
    have hw1c : w1' ≠ c := fun he =>
      hcnw (by rw [← he, hw1']; exact List.mem_cons_self w1' ws')
    have hpub1' : published (s.pc w1') := by
      rw [← hpcne w1' hw1c]; exact hpub1
    rw [hsg w1'] at hsig1
    have hall := inv.sigHead w1' ws' hw1' hpub1' hsig1
    exact absurd hmid (hall c)
  · intro d
    rcases eq_or_ne d c with rfl | hdc
    · rw [hpcc]
      exact ⟨fun _ => ⟨by decide, by decide⟩, fun _ => by decide⟩
    · rw [hpcne d hdc]; exact inv.variantPc d
  · intro d hd
    rcases eq_or_ne d c with rfl | hdc
    · rw [hpcc] at hd; exact absurd hd (by decide)
    · rw [hpcne d hdc] at hd
      rw [hsg d]
      exact inv.publishSig d hd
  · intro hp d hd
    rw [hwk]
    rcases eq_or_ne d c with rfl | hdc
    · rw [hpcc] at hd; exact absurd hd (by decide)
    · rw [hpcne d hdc] at hd
      exact inv.startSig hp d hd

/-- Preservation of the invariant by the reinstating swap
(`usurper = amo_swap(&(lock->next), old_tail)`, mcs_mutex.h line 73 / 131):
in a usurper-free run the lock word was still null, so `usurper` is null. -/
theorem invStep_reinstate {s s' : State C} (inv : Inv par s) {c : C}
    (hpc : s.pc c = Pc.reinstate)
    (htl : s'.tail = s.oldt c)
    (hnx : s'.nxt = s.nxt) (hlk : s'.locked = s.locked)
    (hwk : s'.woken = s.woken)
    (hpcs : s'.pc = Function.update s.pc c Pc.waitSucc)
    (hpv : s'.prev = s.prev) (hod : s'.oldt = s.oldt)
    (husE : s'.usur = Function.update s.usur c s.tail)
    (hsc : s'.succ = s.succ)
    (hlo : s'.linkOrder = s.linkOrder) (hao : s'.acqOrder = s.acqOrder) :
    Inv par s' := by
  have hmid : midRel (s.pc c) := by rw [hpc]; decide
  have hgc : s.acqOrder.getLast? = some c := inv.owner c hmid
  have hcacq : c ∈ s.acqOrder := (inv.memAcq c).mpr hmid.1
  obtain ⟨tl2, htl2⟩ := inv.prefixAcq
  have hcl : c ∈ s.linkOrder := by
    rw [← htl2]; exact List.mem_append_left _ hcacq
  have hcnw : c ∉ waiters s := owner_not_waiter inv hcacq
  have hpcne : ∀ d, d ≠ c → s'.pc d = s.pc d := fun d hd => by
    rw [hpcs, Function.update_noteq hd]
  have hpcc : s'.pc c = Pc.waitSucc := by rw [hpcs, Function.update_same]
  have hwaiters : waiters s' = waiters s := waiters_congr hlo hao
  have hsg : ∀ d, sig par s' d = sig par s d := fun d =>
    sig_eq_of (by rw [hwk]) (by rw [hlk]) par
  have htail0 : s.tail = none := inv.tailReinstate c hpc
  obtain ⟨holdt, hwne⟩ := inv.oldtSpec c hpc
  refine
    { prefixAcq := ?_, linkNodup := ?_, memLink := ?_, memAcq := ?_,
      owner := ?_, noPatch := ?_, usurNone := ?_, chainInv := ?_,
      tailReinstate := ?_, tailSpec := ?_, ownerNoWait := ?_, oldtSpec := ?_,
      succSpec := ?_, wakeReadNxt := ?_, sigTail := ?_, sigHead := ?_,
      variantPc := ?_, publishSig := ?_, startSig := ?_ }
  · rw [hao, hlo]; exact inv.prefixAcq
  · rw [hlo]; exact inv.linkNodup
  · intro d
    rw [hlo]
    rcases eq_or_ne d c with rfl | hdc
    · rw [hpcc]
      exact ⟨fun _ => by decide, fun _ => hcl⟩
    · rw [hpcne d hdc]; exact inv.memLink d
  · intro d
    rw [hao]
    rcases eq_or_ne d c with rfl | hdc
    · rw [hpcc]
      exact ⟨fun _ => by decide, fun _ => hcacq⟩
    · rw [hpcne d hdc]; exact inv.memAcq d
  · intro d hd
    rw [hao]
    rcases eq_or_ne d c with rfl | hdc
    · exact hgc
    · rw [hpcne d hdc] at hd
      exact absurd hd (only_owner_mid inv hmid d hdc)
  · intro d
    rcases eq_or_ne d c with rfl | hdc
    · rw [hpcc]; exact ⟨by decide, by decide⟩
    · rw [hpcne d hdc]; exact inv.noPatch d
  · intro d hd
    rcases eq_or_ne d c with rfl | hdc
    · rw [husE, Function.update_same]
      exact htail0
    · rw [hpcne d hdc] at hd
      rw [husE, Function.update_noteq hdc]
      exact inv.usurNone d hd
  · rw [hao, hgc, hwaiters]
    exact (chain_of_owner inv hgc).congr_eq
      (fun w hw2 => hpcne w (fun he => hcnw (by rw [← he]; exact hw2)))
      (fun w hw2 => by rw [hpv]) (fun x hx => by rw [hnx])
  · intro d hd
    rcases eq_or_ne d c with rfl | hdc
    · rw [hpcc] at hd; exact absurd hd (by decide)
    · rw [hpcne d hdc] at hd
      have hdm : midRel (s.pc d) := by rw [hd]; decide
      exact absurd hdm (only_owner_mid inv hmid d hdc)
  · intro hall
    cases hwx : waiters s with
    | nil => exact absurd hwx hwne
    | cons w2 t2 =>
      obtain ⟨lst, hl⟩ := exists_getLast?_cons w2 t2
      rw [htl, holdt, hwx, hl]
      exact (expectedTail_of_waiters (by rw [hwaiters, hwx]; exact hl)).symm
  · intro a2 hga2 hwnil2
    rw [hwaiters] at hwnil2
    exact absurd hwnil2 hwne
  · intro d hd
    rcases eq_or_ne d c with rfl | hdc
    · rw [hpcc] at hd; exact absurd hd (by decide)
    · rw [hpcne d hdc] at hd
      have hdm : midRel (s.pc d) := by rw [hd]; decide
      exact absurd hdm (only_owner_mid inv hmid d hdc)
  · intro d hd
    rcases eq_or_ne d c with rfl | hdc
    · rw [hpcc] at hd; exact absurd hd (by decide)
    · rw [hpcne d hdc] at hd
      obtain ⟨w1, ws, hw1, hsucc1, hpub1⟩ := inv.succSpec d hd
      have hw1c : w1 ≠ c := fun he =>
        hcnw (by rw [← he, hw1]; exact List.mem_cons_self w1 ws)
      refine ⟨w1, ws, by rw [hwaiters, hw1], by rw [hsc, hsucc1], ?_⟩
      rw [hpcne w1 hw1c]; exact hpub1
  · intro d hd
    rcases eq_or_ne d c with rfl | hdc
    · rw [hpcc] at hd; exact absurd hd (by decide)
    · rw [hpcne d hdc] at hd
      obtain ⟨w2, hw2⟩ := inv.wakeReadNxt d hd
      exact ⟨w2, by rw [hnx]; exact hw2⟩
  · intro w1' ws' hw1' w hwm hpubw
    rw [hwaiters] at hw1'
    have hwc : w ≠ c := fun he =>
      hcnw (by rw [← he, hw1']; exact List.mem_cons_of_mem _ hwm)
    rw [hsg w]
    have hpubw' : published (s.pc w) := by
      rw [← hpcne w hwc]; exact hpubw
    exact inv.sigTail w1' ws' hw1' w hwm hpubw'
  · intro w1' ws' hw1' hpub1 hsig1 d
    rw [hwaiters] at hw1'
    have hw1c : w1' ≠ c := fun he =>
      hcnw (by rw [← he, hw1']; exact List.mem_cons_self w1' ws')
    have hpub1' : published (s.pc w1') := by
      rw [← hpcne w1' hw1c]; exact hpub1
    rw [hsg w1'] at hsig1
    have hall := inv.sigHead w1' ws' hw1' hpub1' hsig1
    exact absurd hmid (hall c)
  · intro d
    rcases eq_or_ne d c with rfl | hdc
    · rw [hpcc]
      exact ⟨fun _ => ⟨by decide, by decide⟩, fun _ => by decide⟩
    · rw [hpcne d hdc]; exact inv.variantPc d
  · intro d hd
    rcases eq_or_ne d c with rfl | hdc
    · rw [hpcc] at hd; exact absurd hd (by decide)
    · rw [hpcne d hdc] at hd
      rw [hsg d]
      exact inv.publishSig d hd
  · intro hp d hd
    rw [hwk]
    rcases eq_or_ne d c with rfl | hdc
    · rw [hpcc] at hd; exact absurd hd (by decide)
    · rw [hpcne d hdc] at hd
      exact inv.startSig hp d hd

/-- Preservation of the invariant by the hand-over read of `node->next`
(mcs_mutex.h lines 81, 84 / 139, 142, left-hand side). -/
theorem invStep_wakeRead {s s' : State C} (inv : Inv par s) {c : C}
    (hpc : s.pc c = Pc.wakeRead)
    (htl : s'.tail = s.tail)
    (hnx : s'.nxt = s.nxt) (hlk : s'.locked = s.locked)
    (hwk : s'.woken = s.woken)
    (hpcs : s'.pc = Function.update s.pc c Pc.wakeWrite)
    (hpv : s'.prev = s.prev) (hod : s'.oldt = s.oldt)
    (hus : s'.usur = s.usur)
    (hscE : s'.succ = Function.update s.succ c (s.nxt c))
    (hlo : s'.linkOrder = s.linkOrder) (hao : s'.acqOrder = s.acqOrder) :
    Inv par s' := by
  have hmid : midRel (s.pc c) := by rw [hpc]; decide
  have hgc : s.acqOrder.getLast? = some c := inv.owner c hmid
  have hcacq : c ∈ s.acqOrder := (inv.memAcq c).mpr hmid.1
  obtain ⟨tl2, htl2⟩ := inv.prefixAcq
  have hcl : c ∈ s.linkOrder := by
    rw [← htl2]; exact List.mem_append_left _ hcacq
  have hcnw : c ∉ waiters s := owner_not_waiter inv hcacq
  have hpcne : ∀ d, d ≠ c → s'.pc d = s.pc d := fun d hd => by
    rw [hpcs, Function.update_noteq hd]
  have hpcc : s'.pc c = Pc.wakeWrite := by rw [hpcs, Function.update_same]
  have hwaiters : waiters s' = waiters s := waiters_congr hlo hao
  have hsg : ∀ d, sig par s' d = sig par s d := fun d =>
    sig_eq_of (by rw [hwk]) (by rw [hlk]) par
  obtain ⟨w1x, hnx1⟩ := inv.wakeReadNxt c hpc
  obtain ⟨w1, ws, hwx, hpub1, hnxw1⟩ :
      ∃ w1 ws, waiters s = w1 :: ws ∧ published (s.pc w1) ∧
        s.nxt c = some w1 := by
    cases hwy : waiters s with
    | nil =>
      have hch0 := chain_of_owner inv hgc
      rw [hwy] at hch0
      cases hch0 with
      | nil _ hn =>
        rw [hnx1] at hn
        exact Option.noConfusion hn
    | cons w1 ws =>
      have hch0 := chain_of_owner inv hgc
      rw [hwy] at hch0
      cases hch0 with
      | cons _ _ _ hw1 hp1 hpubE hunpubE hch =>
        by_cases hp : published (s.pc w1)
        · exact ⟨w1, ws, rfl, hp, hpubE hp⟩
        · rw [hunpubE hp] at hnx1
          exact Option.noConfusion hnx1
  have hw1c : w1 ≠ c := fun he =>
    hcnw (by rw [← he, hwx]; exact List.mem_cons_self w1 ws)
  refine
    { prefixAcq := ?_, linkNodup := ?_, memLink := ?_, memAcq := ?_,
      owner := ?_, noPatch := ?_, usurNone := ?_, chainInv := ?_,
      tailReinstate := ?_, tailSpec := ?_, ownerNoWait := ?_, oldtSpec := ?_,
      succSpec := ?_, wakeReadNxt := ?_, sigTail := ?_, sigHead := ?_,
      variantPc := ?_, publishSig := ?_, startSig := ?_ }
  · rw [hao, hlo]; exact inv.prefixAcq
  · rw [hlo]; exact inv.linkNodup
  · intro d
    rw [hlo]
    rcases eq_or_ne d c with rfl | hdc
    · rw [hpcc]
      exact ⟨fun _ => by decide, fun _ => hcl⟩
    · rw [hpcne d hdc]; exact inv.memLink d
  · intro d
    rw [hao]
    rcases eq_or_ne d c with rfl | hdc
    · rw [hpcc]
      exact ⟨fun _ => by decide, fun _ => hcacq⟩
    · rw [hpcne d hdc]; exact inv.memAcq d
  · intro d hd
    rw [hao]
    rcases eq_or_ne d c with rfl | hdc
    · exact hgc
    · rw [hpcne d hdc] at hd
      exact absurd hd (only_owner_mid inv hmid d hdc)
  · intro d
    rcases eq_or_ne d c with rfl | hdc
    · rw [hpcc]; exact ⟨by decide, by decide⟩
    · rw [hpcne d hdc]; exact inv.noPatch d
  · intro d hd
    rw [hus]
    rcases eq_or_ne d c with rfl | hdc
    · rw [hpcc] at hd; exact absurd hd (by decide)
    · rw [hpcne d hdc] at hd; exact inv.usurNone d hd
  · rw [hao, hgc, hwaiters]
    exact (chain_of_owner inv hgc).congr_eq
      (fun w hw2 => hpcne w (fun he => hcnw (by rw [← he]; exact hw2)))
      (fun w hw2 => by rw [hpv]) (fun x hx => by rw [hnx])
  · intro d hd
    rw [htl]
    rcases eq_or_ne d c with rfl | hdc
    · rw [hpcc] at hd; exact absurd hd (by decide)
    · rw [hpcne d hdc] at hd; exact inv.tailReinstate d hd
  · intro hall
    have hall0 : ∀ d, s.pc d ≠ Pc.reinstate :=
      no_reinstate_of_mid inv hmid (by rw [hpc]; decide)
    rw [htl, inv.tailSpec hall0]
    obtain ⟨lst, hl⟩ := exists_getLast?_cons w1 ws
    rw [expectedTail_of_waiters (by rw [hwx]; exact hl),
      expectedTail_of_waiters (by rw [hwaiters, hwx]; exact hl)]
  · intro a2 hga2 hwnil2
    rw [hwaiters] at hwnil2
    rw [hwx] at hwnil2
    exact List.noConfusion hwnil2
  · intro d hd
    rcases eq_or_ne d c with rfl | hdc
    · rw [hpcc] at hd; exact absurd hd (by decide)
    · rw [hpcne d hdc] at hd
      have hdm : midRel (s.pc d) := by rw [hd]; decide
      exact absurd hdm (only_owner_mid inv hmid d hdc)
  · intro d hd
    rcases eq_or_ne d c with rfl | hdc
    · refine ⟨w1, ws, by rw [hwaiters, hwx], ?_, ?_⟩
      · rw [hscE, Function.update_same]
        exact hnxw1
      · rw [hpcne w1 hw1c]
        exact hpub1
    · rw [hpcne d hdc] at hd
      have hdm : midRel (s.pc d) := by rw [hd]; decide
      exact absurd hdm (only_owner_mid inv hmid d hdc)
  · intro d hd
    rcases eq_or_ne d c with rfl | hdc
    · rw [hpcc] at hd; exact absurd hd (by decide)
    · rw [hpcne d hdc] at hd
      have hdm : midRel (s.pc d) := by rw [hd]; decide
      exact absurd hdm (only_owner_mid inv hmid d hdc)
  · intro w1' ws' hw1' w hwm hpubw
    rw [hwaiters] at hw1'
    have hwc : w ≠ c := fun he =>
      hcnw (by rw [← he, hw1']; exact List.mem_cons_of_mem _ hwm)
    rw [hsg w]
    have hpubw' : published (s.pc w) := by
      rw [← hpcne w hwc]; exact hpubw
    exact inv.sigTail w1' ws' hw1' w hwm hpubw'
  · intro w1' ws' hw1' hpub1' hsig1 d
    rw [hwaiters] at hw1'
    have hw1c' : w1' ≠ c := fun he =>
      hcnw (by rw [← he, hw1']; exact List.mem_cons_self w1' ws')
    have hpub2 : published (s.pc w1') := by
      rw [← hpcne w1' hw1c']; exact hpub1'
    rw [hsg w1'] at hsig1
    have hall := inv.sigHead w1' ws' hw1' hpub2 hsig1
    exact absurd hmid (hall c)
  · intro d
    rcases eq_or_ne d c with rfl | hdc
    · rw [hpcc]
      exact ⟨fun _ => ⟨by decide, by decide⟩, fun _ => by decide⟩
    · rw [hpcne d hdc]; exact inv.variantPc d
  · intro d hd
    rcases eq_or_ne d c with rfl | hdc
    · rw [hpcc] at hd; exact absurd hd (by decide)
    · rw [hpcne d hdc] at hd
      rw [hsg d]
      exact inv.publishSig d hd
  · intro hp d hd
    rw [hwk]
    rcases eq_or_ne d c with rfl | hdc
    · rw [hpcc] at hd; exact absurd hd (by decide)
    · rw [hpcne d hdc] at hd
      exact inv.startSig hp d hd

/-- Preservation of the invariant by the ownership transfer
(`node->next->locked = 0` resp. `wake_up(node->next)`, mcs_mutex.h
lines 81, 84 / 139, 142): the first waiter is signalled, the owner is done. -/
theorem invStep_wakeWrite {s s' : State C} (inv : Inv par s) {c : C}
    (hpc : s.pc c = Pc.wakeWrite)
    (htl : s'.tail = s.tail) (hnx : s'.nxt = s.nxt)
    (hlw : ∀ d, (∀ w1, s.succ c = some w1 → d ≠ w1) →
      s'.locked d = s.locked d ∧ s'.woken d = s.woken d)
    (hpcs : s'.pc = Function.update s.pc c Pc.done)
    (hpv : s'.prev = s.prev) (hod : s'.oldt = s.oldt)
    (hus : s'.usur = s.usur) (hsc : s'.succ = s.succ)
    (hlo : s'.linkOrder = s.linkOrder) (hao : s'.acqOrder = s.acqOrder) :
    Inv par s' := by
  have hmid : midRel (s.pc c) := by rw [hpc]; decide
  have hgc : s.acqOrder.getLast? = some c := inv.owner c hmid
  have hcacq : c ∈ s.acqOrder := (inv.memAcq c).mpr hmid.1
  obtain ⟨tl2, htl2⟩ := inv.prefixAcq
  have hcl : c ∈ s.linkOrder := by
    rw [← htl2]; exact List.mem_append_left _ hcacq
  have hcnw : c ∉ waiters s := owner_not_waiter inv hcacq
  have hpcne : ∀ d, d ≠ c → s'.pc d = s.pc d := fun d hd => by
    rw [hpcs, Function.update_noteq hd]
  have hpcc : s'.pc c = Pc.done := by rw [hpcs, Function.update_same]
  have hwaiters : waiters s' = waiters s := waiters_congr hlo hao
  obtain ⟨w1, ws, hwx, hsucc1, hpub1⟩ := inv.succSpec c hpc
  have hw1c : w1 ≠ c := fun he =>
    hcnw (by rw [← he, hwx]; exact List.mem_cons_self w1 ws)
  have hw1nd : w1 ∉ ws := by
    have hnd := (waiters_nodup inv).2.1
    rw [hwx] at hnd
    exact (List.nodup_cons.mp hnd).1
  have hsgne : ∀ d, d ≠ w1 → sig par s' d = sig par s d := fun d hd => by
    have hh := hlw d (fun w1' hw1' => by
      rw [hsucc1] at hw1'
      rw [Option.some.inj hw1'] at hd
      exact hd)
    exact sig_eq_of hh.2 hh.1 par
  refine
    { prefixAcq := ?_, linkNodup := ?_, memLink := ?_, memAcq := ?_,
      owner := ?_, noPatch := ?_, usurNone := ?_, chainInv := ?_,
      tailReinstate := ?_, tailSpec := ?_, ownerNoWait := ?_, oldtSpec := ?_,
      succSpec := ?_, wakeReadNxt := ?_, sigTail := ?_, sigHead := ?_,
      variantPc := ?_, publishSig := ?_, startSig := ?_ }
  · rw [hao, hlo]; exact inv.prefixAcq
  · rw [hlo]; exact inv.linkNodup
  · intro d
    rw [hlo]
    rcases eq_or_ne d c with rfl | hdc
    · rw [hpcc]
      exact ⟨fun _ => by decide, fun _ => hcl⟩
    · rw [hpcne d hdc]; exact inv.memLink d
  · intro d
    rw [hao]
    rcases eq_or_ne d c with rfl | hdc
    · rw [hpcc]
      exact ⟨fun _ => by decide, fun _ => hcacq⟩
    · rw [hpcne d hdc]; exact inv.memAcq d
  · intro d hd
    rcases eq_or_ne d c with rfl | hdc
    · rw [hpcc] at hd; exact absurd hd (by decide)
    · rw [hpcne d hdc] at hd
      exact absurd hd (only_owner_mid inv hmid d hdc)
  · intro d
    rcases eq_or_ne d c with rfl | hdc
    · rw [hpcc]; exact ⟨by decide, by decide⟩
    · rw [hpcne d hdc]; exact inv.noPatch d
  · intro d hd
    rw [hus]
    rcases eq_or_ne d c with rfl | hdc
    · rw [hpcc] at hd; exact absurd hd (by decide)
    · rw [hpcne d hdc] at hd; exact inv.usurNone d hd
  · rw [hao, hgc, hwaiters]
    exact (chain_of_owner inv hgc).congr_eq
      (fun w hw2 => hpcne w (fun he => hcnw (by rw [← he]; exact hw2)))
      (fun w hw2 => by rw [hpv]) (fun x hx => by rw [hnx])
  · intro d hd
    rw [htl]
    rcases eq_or_ne d c with rfl | hdc
    · rw [hpcc] at hd; exact absurd hd (by decide)
    · rw [hpcne d hdc] at hd; exact inv.tailReinstate d hd
  · intro hall
    have hall0 : ∀ d, s.pc d ≠ Pc.reinstate :=
      no_reinstate_of_mid inv hmid (by rw [hpc]; decide)
    rw [htl, inv.tailSpec hall0]
    obtain ⟨lst, hl⟩ := exists_getLast?_cons w1 ws
    rw [expectedTail_of_waiters (by rw [hwx]; exact hl),
      expectedTail_of_waiters (by rw [hwaiters, hwx]; exact hl)]
  · intro a2 hga2 hwnil2
    rw [hwaiters] at hwnil2
    rw [hwx] at hwnil2
    exact List.noConfusion hwnil2
  · intro d hd
    rcases eq_or_ne d c with rfl | hdc
    · rw [hpcc] at hd; exact absurd hd (by decide)
    · rw [hpcne d hdc] at hd
      have hdm : midRel (s.pc d) := by rw [hd]; decide
      exact absurd hdm (only_owner_mid inv hmid d hdc)
  · intro d hd
    rcases eq_or_ne d c with rfl | hdc
    · rw [hpcc] at hd; exact absurd hd (by decide)
    · rw [hpcne d hdc] at hd
      have hdm : midRel (s.pc d) := by rw [hd]; decide
      exact absurd hdm (only_owner_mid inv hmid d hdc)
  · intro d hd
    rcases eq_or_ne d c with rfl | hdc
    · rw [hpcc] at hd; exact absurd hd (by decide)
    · rw [hpcne d hdc] at hd
      have hdm : midRel (s.pc d) := by rw [hd]; decide
      exact absurd hdm (only_owner_mid inv hmid d hdc)
  · intro w1' ws' hw1' w hwm hpubw
    rw [hwaiters] at hw1'
    have hinj := hwx.symm.trans hw1'
    have hws : w1 = w1' ∧ ws = ws' :=
      ⟨(List.cons.injEq _ _ _ _ ▸ hinj).1, (List.cons.injEq _ _ _ _ ▸ hinj).2⟩
    obtain ⟨rfl, rfl⟩ := hws
    have hww1 : w ≠ w1 := fun he => hw1nd (by rw [← he]; exact hwm)
    have hwc : w ≠ c := fun he =>
      hcnw (by rw [← he, hwx]; exact List.mem_cons_of_mem _ hwm)
    rw [hsgne w hww1]
    have hpubw' : published (s.pc w) := by
      rw [← hpcne w hwc]; exact hpubw
    exact inv.sigTail w1 ws hwx w hwm hpubw'
  · intro w1' ws' hw1' hpub1' hsig1 d
    rcases eq_or_ne d c with rfl | hdc
    · rw [hpcc]; decide
    · rw [hpcne d hdc]
      exact only_owner_mid inv hmid d hdc
  · intro d
    rcases eq_or_ne d c with rfl | hdc
    · rw [hpcc]
      exact ⟨fun _ => ⟨by decide, by decide⟩, fun _ => by decide⟩
    · rw [hpcne d hdc]; exact inv.variantPc d
  · intro d hd
    rcases eq_or_ne d c with rfl | hdc
    · rw [hpcc] at hd; exact absurd hd (by decide)
    · rw [hpcne d hdc] at hd
      have hdw1 : d ≠ w1 := by
        intro he
        rw [he] at hd
        rw [hd] at hpub1
        exact absurd hpub1 (by decide)
      rw [hsgne d hdw1]
      exact inv.publishSig d hd
  · intro hp d hd
    rcases eq_or_ne d c with rfl | hdc
    · rw [hpcc] at hd; exact absurd hd (by decide)
    · rw [hpcne d hdc] at hd
      have hdw1 : d ≠ w1 := by
        intro he
        rw [he] at hd
        rw [hd] at hpub1
        exact absurd hpub1 (by decide)
      have hh := hlw d (fun w1' hw1' => by
        rw [hsucc1] at hw1'
        rw [Option.some.inj hw1'] at hdw1
        exact hdw1)
      rw [hh.2]
      exact inv.startSig hp d hd

/-- One usurper-free atomic action preserves the global invariant. -/
theorem inv_step {s : State C} (inv : Inv par s) (c : C) (hok : okStep s c) :
    Inv par (step par s c) := by
  cases hpc : s.pc c with
  | start =>
    rcases ht : s.tail with _ | t
    · rw [step_start_none hpc ht]
      exact invStep_start_none inv hpc (hok hpc) ht rfl rfl
        (fun d hd => by
          cases par with
          | false => exact Function.update_noteq hd false s.locked
          | true => rfl)
        rfl rfl rfl rfl rfl rfl rfl rfl
    · rw [step_start_some hpc ht]
      exact invStep_start_some inv hpc (hok hpc) ht rfl rfl
        (fun d hd => by
          cases par with
          | false => exact Function.update_noteq hd false s.locked
          | true => rfl)
        rfl rfl rfl rfl rfl rfl rfl rfl
  | setLocked =>
    rw [step_setLocked hpc]
    exact invStep_setLocked inv hpc rfl rfl rfl rfl rfl rfl rfl rfl rfl rfl rfl
  | publish =>
    rcases hprev : s.prev c with _ | p
    · rw [step_publish_none hpc hprev]; exact inv
    · rw [step_publish_some hpc hprev]
      exact invStep_publish inv hpc hprev rfl rfl rfl rfl rfl rfl rfl rfl rfl
        rfl rfl
  | spin =>
    cases hl : s.locked c with
    | true =>
      rw [step_spin_poll hpc hl]; exact inv
    | false =>
      rw [step_spin_acq hpc hl]
      have hpar : par = false := by
        cases par
        · rfl
        · exact absurd hpc ((inv.variantPc c).1 rfl).2
      exact invStep_acquire inv (Or.inl hpc)
        (by rw [hpar, sig_false_eq, hl]; rfl) rfl rfl
        (fun d hd => Function.update_noteq hd true s.locked)
        rfl rfl rfl rfl rfl rfl rfl rfl
  | wfi =>
    cases hw : s.woken c with
    | false =>
      rw [step_wfi_poll hpc hw]; exact inv
    | true =>
      rw [step_wfi_acq hpc hw]
      have hpar : par = true := by
        cases par
        · exact absurd hpc ((inv.variantPc c).2 rfl)
        · rfl
      exact invStep_acquire inv (Or.inr hpc)
        (by rw [hpar, sig_true_eq]; exact hw) rfl rfl
        (fun d hd => rfl) rfl rfl rfl rfl rfl rfl rfl rfl
  | relCheck =>
    rcases hn : s.nxt c with _ | nx
    · rw [step_relCheck_none hpc hn]
      exact invStep_ownerPc inv (by rw [hpc]; decide) (by rw [hpc]; decide)
        (Or.inl rfl) (fun hq => absurd hq (by decide))
        rfl rfl rfl rfl rfl rfl rfl rfl rfl rfl rfl
    · rw [step_relCheck_some hpc hn]
      exact invStep_ownerPc inv (by rw [hpc]; decide) (by rw [hpc]; decide)
        (Or.inr rfl) (fun _ => ⟨nx, hn⟩)
        rfl rfl rfl rfl rfl rfl rfl rfl rfl rfl rfl
  | retract =>
    by_cases htc : s.tail = some c
    · rw [step_retract_done hpc htc]
      exact invStep_retract_done inv hpc htc rfl rfl rfl rfl rfl rfl rfl rfl
        rfl rfl rfl
    · rw [step_retract_rein hpc htc]
      exact invStep_retract_rein inv hpc htc rfl rfl rfl rfl rfl rfl rfl rfl
        rfl rfl rfl
  | reinstate =>
    rw [step_reinstate hpc]
    exact invStep_reinstate inv hpc rfl rfl rfl rfl rfl rfl rfl rfl rfl rfl rfl
  | waitSucc =>
    rcases hn : s.nxt c with _ | nx
    · rw [step_waitSucc_none hpc hn]; exact inv
    · have husur : s.usur c = none := inv.usurNone c hpc
      rw [step_waitSucc_wake hpc hn husur]
      exact invStep_ownerPc inv (by rw [hpc]; decide) (by rw [hpc]; decide)
        (Or.inr rfl) (fun _ => ⟨nx, hn⟩)
        rfl rfl rfl rfl rfl rfl rfl rfl rfl rfl rfl
  | patchRead => exact absurd hpc (inv.noPatch c).1
  | patchWrite => exact absurd hpc (inv.noPatch c).2
  | wakeRead =>
    rw [step_wakeRead hpc]
    exact invStep_wakeRead inv hpc rfl rfl rfl rfl rfl rfl rfl rfl rfl rfl rfl
  | wakeWrite =>
    rcases hsucc : s.succ c with _ | w
    · rw [step_wakeWrite_none hpc hsucc]; exact inv
    · cases par with
      | false =>
        rw [step_wakeWrite_nopar hpc hsucc]
        exact invStep_wakeWrite inv hpc rfl rfl
          (fun d hdw =>
            ⟨Function.update_noteq (hdw w hsucc) false s.locked, rfl⟩)
          rfl rfl rfl rfl rfl rfl rfl
      | true =>
        rw [step_wakeWrite_par hpc hsucc]
        exact invStep_wakeWrite inv hpc rfl rfl
          (fun d hdw =>
            ⟨rfl, Function.update_noteq (hdw w hsucc) true s.woken⟩)
          rfl rfl rfl rfl rfl rfl rfl
  | done =>
    rw [step_done hpc]; exact inv

/-- The invariant holds in the initial state. -/
theorem inv_init : Inv par (init C) := by
  refine
    { prefixAcq := ?_, linkNodup := ?_, memLink := ?_, memAcq := ?_,
      owner := ?_, noPatch := ?_, usurNone := ?_, chainInv := ?_,
      tailReinstate := ?_, tailSpec := ?_, ownerNoWait := ?_, oldtSpec := ?_,
      succSpec := ?_, wakeReadNxt := ?_, sigTail := ?_, sigHead := ?_,
      variantPc := ?_, publishSig := ?_, startSig := ?_ }
  · exact ⟨[], rfl⟩
  · exact List.nodup_nil
  · intro c
    exact ⟨fun h => absurd h (List.not_mem_nil c), fun h => absurd rfl h⟩
  · intro c
    refine ⟨fun h => absurd h (List.not_mem_nil c), fun h => ?_⟩
    have h2 : acquiredPc Pc.start := h
    exact absurd h2 (by decide)
  · intro c h
    have h2 : midRel Pc.start := h
    exact absurd h2 (by decide)
  · intro c
    exact ⟨fun h => Pc.noConfusion (h : Pc.start = Pc.patchRead),
      fun h => Pc.noConfusion (h : Pc.start = Pc.patchWrite)⟩
  · intro c _
    rfl
  · rfl
  · intro c h
    exact Pc.noConfusion (h : Pc.start = Pc.reinstate)
  · intro _
    rfl
  · intro a h _
    exact Option.noConfusion h
  · intro c h
    exact Pc.noConfusion (h : Pc.start = Pc.reinstate)
  · intro c h
    exact Pc.noConfusion (h : Pc.start = Pc.wakeWrite)
  · intro c h
    exact Pc.noConfusion (h : Pc.start = Pc.wakeRead)
  · intro w1 ws h
    exact List.noConfusion h
  · intro w1 ws h
    exact List.noConfusion h
  · intro c
    exact ⟨fun _ => ⟨fun h => Pc.noConfusion (h : Pc.start = Pc.setLocked),
      fun h => Pc.noConfusion (h : Pc.start = Pc.spin)⟩,
      fun _ => fun h => Pc.noConfusion (h : Pc.start = Pc.wfi)⟩
  · intro c h
    exact Pc.noConfusion (h : Pc.start = Pc.publish)
  · intro _ c _
    rfl

/-- The invariant holds along every usurper-free run from any invariant
state. -/
theorem inv_run {s : State C} (inv : Inv par s) :
    ∀ l : List C, okTrace par s l → Inv par (run par s l)
  | [], _ => inv
  | c :: cs, h => inv_run (inv_step inv c h.1) cs h.2

/-- The release behaviour at the tail retraction, on invariant states: the
swap clears the tail unconditionally and stores the old value; the old value
is the own node exactly when no core is queued, and the branch taken follows
that comparison (mcs_mutex.h lines 68-73 / 126-131). -/
theorem retract_spec {s : State C} (inv : Inv par s) {c : C}
    (hpc : s.pc c = Pc.retract) :
    ((step par s c).tail = none ∧ (step par s c).oldt c = s.tail) ∧
      (s.tail = some c ↔ waiters s = []) ∧
      (s.tail = some c → (step par s c).pc c = Pc.done) ∧
      (s.tail ≠ some c → (step par s c).pc c = Pc.reinstate) := by
  have hmid : midRel (s.pc c) := by rw [hpc]; decide
  have hgc : s.acqOrder.getLast? = some c := inv.owner c hmid
  have hcacq : c ∈ s.acqOrder := (inv.memAcq c).mpr hmid.1
  have hcnw : c ∉ waiters s := owner_not_waiter inv hcacq
  have hall0 : ∀ d, s.pc d ≠ Pc.reinstate :=
    no_reinstate_of_mid inv hmid (by rw [hpc]; decide)
  have hexp : s.tail = expectedTail s := inv.tailSpec hall0
  have hiff : s.tail = some c ↔ waiters s = [] := by
    constructor
    · intro htc
      cases hwx : waiters s with
      | nil => rfl
      | cons w2 t2 =>
        obtain ⟨lst, hl⟩ := exists_getLast?_cons w2 t2
        have h1 : expectedTail s = some lst :=
          expectedTail_of_waiters (by rw [hwx]; exact hl)
        have hlc : lst = c :=
          Option.some.inj ((h1.symm.trans hexp.symm).trans htc)
        have hlm : lst ∈ waiters s := by
          rw [hwx]; exact mem_of_getLast?_eq hl
        rw [hlc] at hlm
        exact absurd hlm hcnw
    · intro hwnil
      have hwl : (waiters s).getLast? = none := by rw [hwnil]; rfl
      rw [hexp]
      exact expectedTail_no_waiters_live hwl hgc (by rw [hpc]; decide)
  by_cases htc : s.tail = some c
  · rw [step_retract_done hpc htc]
    refine ⟨⟨rfl, ?_⟩, hiff, fun _ => ?_, fun hn => absurd htc hn⟩
    · exact (Function.update_same c (some c) s.oldt).trans htc.symm
    · exact Function.update_same c Pc.done s.pc
  · rw [step_retract_rein hpc htc]
    refine ⟨⟨rfl, ?_⟩, hiff, fun hc => absurd hc htc, fun _ => ?_⟩
    · exact Function.update_same c s.tail s.oldt
    · exact Function.update_same c Pc.reinstate s.pc

end Mcs

/-- C1 (corrected: restricted to usurper-free schedules): in the interleaved
small-step model of `lock_mcs`/`unlock_mcs` (mcs_mutex.h lines 40-87) and of
the parked `lrwait_mcs`/`lrwait_wakeup_mcs` pair (lines 105-145), along every
schedule from the initial state in which no core swaps itself into the lock
tail while another core is between its tail retraction and its reinstating
swap, the history of successful acquisitions is a prefix of the tail-chain
link history: cores acquire the lock in exactly the order in which their
nodes were linked into the lock's tail chain. -/
theorem mcs_fifo_order (C : Type) [DecidableEq C] (par : Bool) (l : List C)
    (h : Mcs.okTrace par (Mcs.init C) l) :
    (Mcs.run par (Mcs.init C) l).acqOrder <+:
      (Mcs.run par (Mcs.init C) l).linkOrder :=
  (Mcs.inv_run Mcs.inv_init l h).prefixAcq

theorem mcs_fifo_order_witness :
    Mcs.okTrace false (Mcs.init (Fin 3)) [0, 1, 2] ∧
      (Mcs.run false (Mcs.init (Fin 3)) [0, 1, 2]).acqOrder <+:
        (Mcs.run false (Mcs.init (Fin 3)) [0, 1, 2]).linkOrder :=
  ⟨by decide, mcs_fifo_order (Fin 3) false [0, 1, 2] (by decide)⟩

/-- C1 counterexample: an interleaving of three cores, each performing one
acquire-release (all end at `done`), in which the release of core 0 retracts
the tail while core 2 swaps itself into the transiently null lock word;
core 2 then acquires before the earlier-linked core 1: the acquisition order
[0, 2, 1] differs from the link order [0, 1, 2], refuting strict FIFO
admission for arbitrary interleavings. -/
theorem mcs_fifo_counterexample :
    (Mcs.run false (Mcs.init (Fin 3))
        [0, 1, 0, 0, 2, 0, 1, 1, 0, 0, 0, 2, 2, 2, 1, 1, 1]).linkOrder =
      [0, 1, 2] ∧
    (Mcs.run false (Mcs.init (Fin 3))
        [0, 1, 0, 0, 2, 0, 1, 1, 0, 0, 0, 2, 2, 2, 1, 1, 1]).acqOrder =
      [0, 2, 1] ∧
    (∀ c : Fin 3,
      (Mcs.run false (Mcs.init (Fin 3))
        [0, 1, 0, 0, 2, 0, 1, 1, 0, 0, 0, 2, 2, 2, 1, 1, 1]).pc c =
        Mcs.Pc.done) ∧
    (Mcs.run false (Mcs.init (Fin 3))
        [0, 1, 0, 0, 2, 0, 1, 1, 0, 0, 0, 2, 2, 2, 1, 1, 1]).acqOrder ≠
      (Mcs.run false (Mcs.init (Fin 3))
        [0, 1, 0, 0, 2, 0, 1, 1, 0, 0, 0, 2, 2, 2, 1, 1, 1]).linkOrder := by
  decide

/-- C2 (corrected): the release with a null `next` does not use a
compare-and-swap: `unlock_mcs` (mcs_mutex.h lines 68-73) and
`lrwait_wakeup_mcs` (lines 126-131) clear the lock tail unconditionally with
`amo_swap(&(lock->next), NULL)`, remember the old tail, and only then compare
it with the own node - so the tail word is cleared even while a different
node is tail.  On usurper-free executions the comparison still decides the
release correctly: the old tail is the releaser's own node exactly when no
core is queued behind it, in which case the release completes; otherwise the
releaser moves to the reinstating swap. -/
theorem mcs_release_retract (C : Type) [DecidableEq C] (par : Bool)
    (l : List C) (c : C) (h : Mcs.okTrace par (Mcs.init C) l)
    (hpc : (Mcs.run par (Mcs.init C) l).pc c = Mcs.Pc.retract) :
    ((Mcs.step par (Mcs.run par (Mcs.init C) l) c).tail = none ∧
      (Mcs.step par (Mcs.run par (Mcs.init C) l) c).oldt c =
        (Mcs.run par (Mcs.init C) l).tail) ∧
    ((Mcs.run par (Mcs.init C) l).tail = some c ↔
      Mcs.waiters (Mcs.run par (Mcs.init C) l) = []) ∧
    ((Mcs.run par (Mcs.init C) l).tail = some c →
      (Mcs.step par (Mcs.run par (Mcs.init C) l) c).pc c = Mcs.Pc.done) ∧
    ((Mcs.run par (Mcs.init C) l).tail ≠ some c →
      (Mcs.step par (Mcs.run par (Mcs.init C) l) c).pc c =
        Mcs.Pc.reinstate) :=
  Mcs.retract_spec (Mcs.inv_run Mcs.inv_init l h) hpc

theorem mcs_release_retract_witness :
    Mcs.okTrace false (Mcs.init (Fin 2)) [0, 1, 0] ∧
      (Mcs.run false (Mcs.init (Fin 2)) [0, 1, 0]).pc 0 = Mcs.Pc.retract ∧
      (((Mcs.step false (Mcs.run false (Mcs.init (Fin 2)) [0, 1, 0]) 0).tail =
          none ∧
        (Mcs.step false (Mcs.run false (Mcs.init (Fin 2)) [0, 1, 0]) 0).oldt
            0 =
          (Mcs.run false (Mcs.init (Fin 2)) [0, 1, 0]).tail) ∧
      ((Mcs.run false (Mcs.init (Fin 2)) [0, 1, 0]).tail = some 0 ↔
        Mcs.waiters (Mcs.run false (Mcs.init (Fin 2)) [0, 1, 0]) = []) ∧
      ((Mcs.run false (Mcs.init (Fin 2)) [0, 1, 0]).tail = some 0 →
        (Mcs.step false (Mcs.run false (Mcs.init (Fin 2)) [0, 1, 0]) 0).pc
            0 =
          Mcs.Pc.done) ∧
      ((Mcs.run false (Mcs.init (Fin 2)) [0, 1, 0]).tail ≠ some 0 →
        (Mcs.step false (Mcs.run false (Mcs.init (Fin 2)) [0, 1, 0]) 0).pc
            0 =
          Mcs.Pc.reinstate)) :=
  ⟨by decide, by decide,
    mcs_release_retract (Fin 2) false [0, 1, 0] 0 (by decide) (by decide)⟩

/-- C2 counterexample: after the usurper-free schedule [0, 1, 0] over two
cores, core 0 is at its tail retraction while core 1 - a different node - is
the lock tail; the next action of core 0 nevertheless sets the tail to null,
refuting the claim that the tail is cleared only by a compare-and-swap of
the tail from the releaser's own node to null (which would fail here) and
that the tail word is never cleared while a different node is tail. -/
theorem mcs_release_swap_counterexample :
    (Mcs.run false (Mcs.init (Fin 2)) [0, 1, 0]).pc 0 = Mcs.Pc.retract ∧
      (Mcs.run false (Mcs.init (Fin 2)) [0, 1, 0]).tail = some 1 ∧
      (Mcs.step false (Mcs.run false (Mcs.init (Fin 2)) [0, 1, 0]) 0).tail =
        none := by
  decide

end Mempool
